import Mathlib

/-!
# Custom-Top: the metric readers of `util.c` and `procfs.c`

A shallow embedding of the tokenizer, the line reader, the CPU usage
computation, the process census, the memory usage reader and the scalar
readers, followed by theorems about them.

Conventions of the embedding.

* A byte is a `Char`; a block of memory is a `List Char`; a pointer into it
  is an offset (`Nat`), and a nullable pointer is an `Option Nat`.
* A C string is the run of bytes from a pointer up to the first `NUL`.
* An automatic array starts with indeterminate content, which the functions
  take as a parameter; what is proved holds for every such content.
* A function that may dereference `NULL` or write past an array returns an
  `Option`: `none` means the behaviour of the program is undefined there.
* A file is the list of the bytes still to be read; every `read` succeeds
  until the list is empty.
* `long` arithmetic is integer arithmetic wrapped to 64 bits, `int` to 32.
* A `double` is an exact rational or one of the three IEEE special values.
* A loop that need not end runs for a given number of iterations at most, and
  the function says when it is still inside the loop after that many.
-/

namespace CustomTop

/-! ## Memory and the libc string functions used by the sources -/

/-- The string terminator. -/
def NUL : Char := '\x00'

/-- The byte at offset `i`; past the modelled bytes a terminator is read. -/
def peek (buf : List Char) (i : Nat) : Char := buf.getD i NUL

/-- The C string that starts at offset `p` of `buf`. -/
def cstr (buf : List Char) (p : Nat) : List Char :=
  (buf.drop p).takeWhile (fun c => c != NUL)

/-- Libc `strspn`: length of the leading run of bytes of the string `s`
(memory from the pointer on) that belong to `delim`. -/
def strspn (s delim : List Char) : Nat :=
  (s.takeWhile (fun c => c != NUL && delim.contains c)).length

/-- Libc `strcspn`: length of the leading run of bytes of the string `s`
that do not belong to `delim`. -/
def strcspn (s delim : List Char) : Nat :=
  (s.takeWhile (fun c => c != NUL && !delim.contains c)).length

/-! ## `util.c`: `next_token` -/

/-- Function `next_token` of `util.c`. The cursor `*str_ptr` is `str_ptr`, the
scanned memory is `buf`, and `delim` holds the bytes of the delimiter string.
The result is the returned pointer, the memory afterwards and the cursor
afterwards. -/
def next_token (buf : List Char) (str_ptr : Option Nat) (delim : List Char) :
    Option Nat × List Char × Option Nat :=
  match str_ptr with
  | none => (none, buf, none)
  | some p =>
    let tok_start := strspn (buf.drop p) delim
    let tok_end := strcspn (buf.drop (p + tok_start)) delim
    if tok_end = 0 then (none, buf, none)
    else
      let current_ptr := p + tok_start
      let q := p + tok_start + tok_end
      if peek buf q = NUL then (some current_ptr, buf, none)
      else (some current_ptr, buf.set q NUL, some (q + 1))

/-- Successive `next_token` calls on one cursor, one call per delimiter set
of `ds`; the results of the calls are collected in order. -/
def next_token_calls (buf : List Char) (str_ptr : Option Nat) :
    List (List Char) → List (Option Nat) × List Char × Option Nat
  | [] => ([], buf, str_ptr)
  | d :: ds =>
    let r := next_token buf str_ptr d
    let rs := next_token_calls r.2.1 r.2.2 ds
    (r.1 :: rs.1, rs.2.1, rs.2.2)


/-! ## libc number parsing -/

/-- Libc `isspace` in the C locale. -/
def isspace (c : Char) : Bool :=
  c == ' ' || c == '\t' || c == '\n' || c == '\x0b' || c == '\x0c' || c == '\r'

/-- Libc `isdigit`. -/
def isdigit (c : Char) : Bool := 48 ≤ c.toNat && c.toNat ≤ 57

/-- The digit loop of `strtol` in base ten: the value of the leading run of
decimal digits of `s`, continuing from `acc`. -/
def strtol_digits : List Char → Nat → Nat
  | [], acc => acc
  | c :: cs, acc => if isdigit c then strtol_digits cs (10 * acc + (c.toNat - 48)) else acc

/-- The number `strtol(s, NULL, 10)` reads before it is clamped to the range
of `long`: white space is skipped, one sign is accepted, digits follow. -/
def strtol_value (s : List Char) : Int :=
  let t := s.dropWhile isspace
  if t.head? = some '-' then - (strtol_digits t.tail 0 : Int)
  else if t.head? = some '+' then (strtol_digits t.tail 0 : Int)
  else (strtol_digits t 0 : Int)

def LONG_MAX : Int := 9223372036854775807

def LONG_MIN : Int := -9223372036854775808

/-- A 64-bit two's complement `long` holding `x` modulo `2^64`. -/
def wrap_long (x : Int) : Int :=
  (x + 9223372036854775808) % 18446744073709551616 - 9223372036854775808

/-- A 32-bit two's complement `int` holding `x` modulo `2^32`. -/
def wrap_int (x : Int) : Int := (x + 2147483648) % 4294967296 - 2147483648

/-- Libc `atol` on the string `s`, as glibc defines it: `strtol(s, NULL, 10)`,
which saturates at the bounds of `long`. -/
def atol (s : List Char) : Int := max LONG_MIN (min LONG_MAX (strtol_value s))

/-- Libc `atoi` on the string `s`, as glibc defines it: `(int) strtol(s, NULL, 10)`. -/
def atoi (s : List Char) : Int := wrap_int (atol s)

/-- The call `atol(p)` on a pointer into `buf`; a null pointer faults. -/
def atol_at (buf : List Char) (p : Option Nat) : Option Int :=
  p.map (fun q => atol (cstr buf q))

/-! ## `util.c`: `is_only_numeric`, `lineread`, `one_lineread` -/

/-- Function `is_only_numeric` of `util.c`, on the bytes of the string `str`. -/
def is_only_numeric (str : List Char) : Bool := decide (atoi str > 0)

/-- The loop of `lineread`: `fuel` is the number of iterations left before
`count` reaches `sz`, `stream` the bytes not yet read from the descriptor.
Every `read` delivers one byte, or 0 at the end of the stream. The result is
the returned value, the rest of the stream and the buffer. -/
def lineread_loop : Nat → List Char → List Char → Nat → Int × List Char × List Char
  | 0, stream, buf, count => ((count : Int), stream, buf)
  | fuel + 1, stream, buf, count =>
    match stream with
    | [] => (0, [], buf)
    | c :: rest =>
      let buf := buf.set count c
      if c = '\n' then (((count + 1 : Nat) : Int), rest, buf)
      else lineread_loop fuel rest buf (count + 1)

/-- Function `lineread` of `util.c`. -/
def lineread (stream buf : List Char) (sz : Nat) : Int × List Char × List Char :=
  lineread_loop sz stream buf 0

/-- Function `one_lineread` of `util.c`. -/
def one_lineread (stream buf : List Char) (sz : Nat) : Int × List Char × List Char :=
  let r := lineread stream buf sz
  if r.1 ≤ 0 then r
  else (r.1, r.2.1, r.2.2.set (r.1 - 1).toNat NUL)

/-- An automatic array of `n` bytes. C leaves its initial content
indeterminate; here it is whatever `junk` holds. -/
def stack_array (n : Nat) (junk : List Char) : List Char :=
  (junk ++ List.replicate n NUL).take n

/-! ## Doubles -/

/-- A `double`: an exact rational, or an IEEE special value. Rounding and the
sign of zero are not modelled. -/
inductive CDouble where
  | nan : CDouble
  | pinf : CDouble
  | ninf : CDouble
  | fin : ℚ → CDouble
deriving DecidableEq

namespace CDouble

/-- The conversion `(double) x` of a `long`. -/
def ofLong (x : Int) : CDouble := fin (x : ℚ)

def isnan : CDouble → Bool
  | nan => true
  | _ => false

/-- Negation. -/
def neg : CDouble → CDouble
  | nan => nan
  | pinf => ninf
  | ninf => pinf
  | fin q => fin (-q)

/-- IEEE subtraction. -/
def sub : CDouble → CDouble → CDouble
  | fin a, fin b => fin (a - b)
  | fin _, pinf => ninf
  | fin _, ninf => pinf
  | pinf, fin _ => pinf
  | pinf, ninf => pinf
  | ninf, fin _ => ninf
  | ninf, pinf => ninf
  | _, _ => nan

/-- IEEE division; the zero divisor met in the sources is `+0.0`. -/
def div : CDouble → CDouble → CDouble
  | fin a, fin b =>
    if b = 0 then (if a = 0 then nan else if 0 < a then pinf else ninf)
    else fin (a / b)
  | fin _, pinf => fin 0
  | fin _, ninf => fin 0
  | pinf, fin b => if 0 ≤ b then pinf else ninf
  | ninf, fin b => if 0 ≤ b then ninf else pinf
  | _, _ => nan

end CDouble

/-! ## `procfs.c`: `pfs_cpu_usage` -/

/-- Modelled from the spec: `struct cpu_stats` of `procfs.h`, which is not
among the sources. The spec gives a snapshot two counters, `total` and `idle`;
`pfs_cpu_usage` stores `long` values in them. -/
structure cpu_stats where
  idle : Int
  total : Int
deriving DecidableEq

/-- Function `pfs_cpu_usage` of `procfs.c`. `stat` is the content of
`<proc_dir>/stat` when `open_path` succeeds, `junk` the initial content of the
array `line`, `prev` and `curr` the two snapshots. The result is the returned
value with the two snapshots afterwards, or `none` when `atol` is handed a
null pointer. -/
def pfs_cpu_usage (stat : Option (List Char)) (junk : List Char) (prev curr : cpu_stats) :
    Option (CDouble × cpu_stats × cpu_stats) :=
  match stat with
  | none => some (CDouble.fin 0, prev, curr)
  | some content =>
    let line := stack_array 200 junk
    let line := (one_lineread content line 100).2.2
    let next_tok := some 0
    let (_, line, next_tok) := next_token line next_tok [' ']
    let (user, line, next_tok) := next_token line next_tok [' ']
    let (nice, line, next_tok) := next_token line next_tok [' ']
    let (system, line, next_tok) := next_token line next_tok [' ']
    let (idle, line, next_tok) := next_token line next_tok [' ']
    let (iowait, line, next_tok) := next_token line next_tok [' ']
    let (irq, line, next_tok) := next_token line next_tok [' ']
    let (softirq, line, next_tok) := next_token line next_tok [' ']
    let (steal, line, next_tok) := next_token line next_tok [' ']
    let (guest, line, next_tok) := next_token line next_tok [' ']
    let (guest_nice, line, _) := next_token line next_tok [' ']
    match atol_at line user, atol_at line nice, atol_at line system, atol_at line idle,
      atol_at line iowait, atol_at line irq, atol_at line softirq, atol_at line steal,
      atol_at line guest, atol_at line guest_nice with
    | some user, some nice, some system, some idle, some iowait, some irq, some softirq,
      some steal, some guest, some guest_nice =>
      let total := wrap_long (user + nice + system + idle + iowait + irq + steal + softirq
        + guest + guest_nice)
      if (CDouble.ofLong total).isnan then some (CDouble.fin 0, prev, curr)
      else
        let idle_time := idle
        let curr : cpu_stats := { total := total, idle := idle_time }
        if wrap_long (idle_time - prev.idle) < 0 ∨ wrap_long (total - prev.total) < 0 then
          some (CDouble.fin 0, prev, curr)
        else
          let val := CDouble.sub (CDouble.fin 1)
            (CDouble.div (CDouble.ofLong (wrap_long (idle_time - prev.idle)))
              (CDouble.ofLong (wrap_long (total - prev.total))))
          if val.isnan then some (CDouble.fin 0, prev, curr)
          else some (val, prev, curr)
    | _, _, _, _, _, _, _, _, _, _ => none

/-! ## The text of a `stat` line -/

/-- The number a string of decimal digits denotes, most significant digit
first. -/
def decimal (ds : List Char) : Nat :=
  ds.foldl (fun n c => 10 * n + (c.toNat - 48)) 0

/-- The text of space-separated fields followed by `tail`: each field
`(k, tok)` is written as one space, `k` further spaces, and the token. -/
def fields_text : List (Nat × List Char) → List Char → List Char
  | [], tail => tail
  | f :: fs, tail => ' ' :: (List.replicate f.1 ' ' ++ (f.2 ++ fields_text fs tail))

/-- The aggregate line of `stat`, without its newline: the label `cpu` and the
counters `fs`, followed by `tail`. -/
def stat_line (fs : List (Nat × List Char)) (tail : List Char) : List Char :=
  'c' :: 'p' :: 'u' :: fields_text fs tail

/-- A counter as the kernel writes it: a non-empty string of decimal digits. -/
def is_counter (tok : List Char) : Prop := tok ≠ [] ∧ ∀ c ∈ tok, isdigit c = true

instance (tok : List Char) : Decidable (is_counter tok) := by
  unfold is_counter; infer_instance

/-- The sum of the counters of `fs`. -/
def counters_sum (fs : List (Nat × List Char)) : Int :=
  (fs.map (fun f => (decimal f.2 : Int))).sum

/-- The counter at position `i` of `fs`, counting from 0. -/
def counter_at (fs : List (Nat × List Char)) (i : Nat) : Int :=
  (fs.map (fun f => (decimal f.2 : Int))).getD i 0

/-- What `pfs_cpu_usage` returns and stores once `total` and `idle_time` are
known: the part of its body after the sums. -/
def cpu_usage_value (total idle_time : Int) (prev curr : cpu_stats) :
    CDouble × cpu_stats × cpu_stats :=
  if (CDouble.ofLong total).isnan then (CDouble.fin 0, prev, curr)
  else
    let curr : cpu_stats := { total := total, idle := idle_time }
    if wrap_long (idle_time - prev.idle) < 0 ∨ wrap_long (total - prev.total) < 0 then
      (CDouble.fin 0, prev, curr)
    else
      let val := CDouble.sub (CDouble.fin 1)
        (CDouble.div (CDouble.ofLong (wrap_long (idle_time - prev.idle)))
          (CDouble.ofLong (wrap_long (total - prev.total))))
      if val.isnan then (CDouble.fin 0, prev, curr)
      else (val, prev, curr)

/-! ## `procfs.c`: `pfs_tasks` -/

/-- The test `strcmp(p, s) == 0` on a pointer into `buf`; a null pointer
faults. -/
def strcmp_eq (buf : List Char) (p : Option Nat) (s : List Char) : Option Bool :=
  p.map (fun q => decide (cstr buf q = s))

/-- The byte `p[0]` for a pointer into `buf`; a null pointer faults. -/
def deref (buf : List Char) (p : Option Nat) : Option Char :=
  p.map (peek buf)

/-- The call `atoi(p)` on a pointer into `buf`; a null pointer faults. -/
def atoi_at (buf : List Char) (p : Option Nat) : Option Int :=
  p.map (fun q => atoi (cstr buf q))

/-- The call `strcpy(dst, p)` into an array `dst` of `cap` bytes: the string
now held by `dst`. A null source faults, and so does a string that does not
fit with its terminator, which would be written past the array. -/
def strcpy_into (cap : Nat) (buf : List Char) (p : Option Nat) : Option (List Char) :=
  match p with
  | none => none
  | some q => if (cstr buf q).length < cap then some (cstr buf q) else none

/-- Modelled from the spec: `struct task_info` of `procfs.h`, which is not
among the sources. The spec gives it a pid, a uid, a name of at most 25
characters and a state label. A string field is `none` while its bytes are
indeterminate. -/
structure task_info where
  pid : Int
  uid : Int
  name : Option (List Char)
  state : Option (List Char)
deriving DecidableEq

/-- Modelled from the spec: `struct task_stats` of `procfs.h`, which is not
among the sources: the six counts and the array of active tasks. The counts
are `unsigned int`; they count directory entries, so they stay far below
`2^32` and are kept as natural numbers. The array is the caller's and is
taken to have room for every entry written. -/
structure task_stats where
  total : Nat
  running : Nat
  waiting : Nat
  sleeping : Nat
  stopped : Nat
  zombie : Nat
  active_tasks : List task_info
deriving DecidableEq

/-- The variables `pfs_tasks` declares for one directory entry. The arrays
`name` and `state` are `none` while their bytes are indeterminate. -/
structure task_locals where
  is_sleeping : Bool
  count : Int
  pid : Int
  uid : Int
  name : Option (List Char)
  state : Option (List Char)
deriving DecidableEq

/-- The counters of `pfs_tasks`; `written` holds the entries stored so far in
`tstats->active_tasks`, so that `index` is its length. -/
structure task_tally where
  total : Nat
  running : Nat
  waiting : Nat
  sleeping : Nat
  stopped : Nat
  zombie : Nat
  written : List task_info
deriving DecidableEq

/-- What the body of the line loop of `pfs_tasks` reads and writes. -/
structure line_vars where
  curr : Option Nat
  next_tok : Option Nat
  line : List Char
  loc : task_locals
  tally : task_tally

/-- The statement `if(strcmp(curr, "State") == 0) ...` of `pfs_tasks`. -/
def state_block (d_name : List Char) (v : line_vars) : Option line_vars :=
  match strcmp_eq v.line v.curr "State".toList with
  | none => none
  | some false => some v
  | some true =>
    let loc := { v.loc with count := v.loc.count + 1 }
    let t := v.tally
    let (curr, line, next_tok) := next_token v.line v.next_tok [':', '\t']
    match deref line curr with
    | none => none
    | some c =>
      let r : Option (List Char × task_locals × task_tally) :=
        if c = 'S' then
          some (line, { loc with is_sleeping := true }, { t with sleeping := t.sleeping + 1 })
        else if c = 'R' then
          some (line, { loc with state := some "running".toList },
            { t with running := t.running + 1 })
        else if c = 'I' then
          some (line, { loc with is_sleeping := true }, { t with sleeping := t.sleeping + 1 })
        else if c = 'Z' then
          some (line, { loc with state := some "zombie".toList },
            { t with zombie := t.zombie + 1 })
        else if c = 'D' then
          some (line, { loc with state := some "disk sleep".toList },
            { t with waiting := t.waiting + 1 })
        else if c = 'T' then
          let curr_tok := curr
          let (_, line, curr_tok) := next_token line curr_tok [' ']
          let (t_state, line, _) := next_token line curr_tok ['(', ' ']
          match strcmp_eq line t_state "tracing".toList with
          | none => none
          | some true =>
            some (line, { loc with state := some "tracing stop".toList },
              { t with stopped := t.stopped + 1 })
          | some false =>
            some (line, { loc with state := some "stopped".toList },
              { t with stopped := t.stopped + 1 })
        else if c = 't' then
          some (line, { loc with state := some "tracing stop".toList },
            { t with stopped := t.stopped + 1 })
        else if c = 'X' then
          some (line, { loc with is_sleeping := true }, { t with sleeping := t.sleeping + 1 })
        else some (line, loc, t)
      match r with
      | none => none
      | some (line, loc, t) =>
        match deref line curr with
        | none => none
        | some c =>
          let loc := if c ≠ 'S' then { loc with pid := atoi d_name } else loc
          some { curr := curr, next_tok := next_tok, line := line, loc := loc, tally := t }

/-- The statement `if(strcmp(curr, "Uid") == 0) ...` of `pfs_tasks`. -/
def uid_block (v : line_vars) : Option line_vars :=
  match strcmp_eq v.line v.curr "Uid".toList with
  | none => none
  | some false => some v
  | some true =>
    let (curr, line, next_tok) := next_token v.line v.next_tok [':', '\t']
    let uid : Option Int :=
      if v.loc.is_sleeping = false then atoi_at line curr else some v.loc.uid
    match uid with
    | none => none
    | some uid =>
      some { curr := curr, next_tok := next_tok, line := line,
             loc := { v.loc with uid := uid, count := v.loc.count + 1 }, tally := v.tally }

/-- The statement `if(strcmp(curr, "Name") == 0) ...` of `pfs_tasks`; the
array `name` has 26 bytes, and `name[25] = '\0'` leaves a string that fits
unchanged. -/
def name_block (v : line_vars) : Option line_vars :=
  match strcmp_eq v.line v.curr "Name".toList with
  | none => none
  | some false => some v
  | some true =>
    let (curr, line, next_tok) := next_token v.line v.next_tok ['\t', '\n']
    let name : Option (Option (List Char)) :=
      if v.loc.is_sleeping = false then (strcpy_into 26 line curr).map (fun s => some (s.take 25))
      else some v.loc.name
    match name with
    | none => none
    | some name =>
      some { curr := curr, next_tok := next_tok, line := line,
             loc := { v.loc with name := name, count := v.loc.count + 1 }, tally := v.tally }

/-- The statement `if(count == 3) ...` of `pfs_tasks`: the tally afterwards and
whether the line loop is left. -/
def count_block (v : line_vars) : task_tally × Bool :=
  if v.loc.count = 3 then
    if v.loc.is_sleeping = false then
      ({ v.tally with written := v.tally.written ++
          [{ pid := v.loc.pid, uid := v.loc.uid, name := v.loc.name, state := v.loc.state }] },
        true)
    else (v.tally, true)
  else (v.tally, false)

/-- The body of the line loop of `pfs_tasks`, entered once `lineread` has
stored a line in `line`: the buffer, the locals and the tally afterwards, and
whether the loop is left. -/
def status_line_body (d_name line : List Char) (loc : task_locals) (t : task_tally) :
    Option (List Char × task_locals × task_tally × Bool) :=
  let next_tok := some 0
  let (curr, line, next_tok) := next_token line next_tok [':', '\t']
  match curr with
  | none => some (line, loc, t, false)
  | some _ =>
    let v : line_vars :=
      { curr := curr, next_tok := next_tok, line := line, loc := loc, tally := t }
    match state_block d_name v with
    | none => none
    | some v =>
      match uid_block v with
      | none => none
      | some v =>
        match name_block v with
        | none => none
        | some v => some (v.line, v.loc, (count_block v).1, (count_block v).2)

/-- The line loop `while(lineread(fd, line, 200) > 0)` of `pfs_tasks`; every
iteration consumes at least one byte of the stream, and `fuel` bounds the
number of iterations. -/
def status_loop : Nat → List Char → List Char → List Char → task_locals → task_tally →
    Option (List Char × task_tally)
  | 0, _, _, line, _, t => some (line, t)
  | fuel + 1, d_name, stream, line, loc, t =>
    let r := lineread stream line 200
    if r.1 > 0 then
      match status_line_body d_name r.2.2 loc t with
      | none => none
      | some (line, loc, t, brk) =>
        if brk then some (line, t) else status_loop fuel d_name r.2.1 line loc t
    else some (r.2.2, t)

/-- A directory entry as `pfs_tasks` sees it: its name, and the content of
`<proc_dir>/<d_name>/status` when `open_path` succeeds on it. -/
structure dir_entry where
  d_name : List Char
  status : Option (List Char)

/-- The directory loop `while((entry = readdir(directory)) != NULL)` of
`pfs_tasks`. The array `line` of the `i`-th iteration starts with the
indeterminate content `junk i`. -/
def entries_loop (junk : Nat → List Char) : List dir_entry → Nat → task_tally →
    Option task_tally
  | [], _, t => some t
  | e :: es, i, t =>
    if is_only_numeric e.d_name then
      match e.status with
      | none => entries_loop junk es (i + 1) t
      | some content =>
        let t := { t with total := t.total + 1 }
        let loc : task_locals :=
          { is_sleeping := false, count := 0, pid := 0, uid := 0, name := none, state := none }
        match status_loop (content.length + 1) e.d_name content (stack_array 300 (junk i))
            loc t with
        | none => none
        | some (_, t) => entries_loop junk es (i + 1) t
    else entries_loop junk es (i + 1) t

/-- Function `pfs_tasks` of `procfs.c`. `dir` lists the entries of `proc_dir`
when `opendir` succeeds. The result is the returned code and `*tstats`
afterwards, or `none` when the scan faults. -/
def pfs_tasks (dir : Option (List dir_entry)) (junk : Nat → List Char) (tstats : task_stats) :
    Option (Int × task_stats) :=
  match dir with
  | none => some (1, tstats)
  | some entries =>
    match entries_loop junk entries 0
        { total := 0, running := 0, waiting := 0, sleeping := 0, stopped := 0, zombie := 0,
          written := [] } with
    | none => none
    | some t =>
      some (0, { total := t.total, waiting := t.waiting, running := t.running,
                 sleeping := t.sleeping, stopped := t.stopped, zombie := t.zombie,
                 active_tasks := t.written ++ tstats.active_tasks.drop t.written.length })

/-! ## The text of a process status record -/

/-- The text of a status record given as its fields, each a label and a value:
one line `label:<TAB>value` per field, newline included. -/
def status_text : List (List Char × List Char) → List Char
  | [] => []
  | f :: fs => f.1 ++ ':' :: '\t' :: (f.2 ++ '\n' :: status_text fs)

/-- A label: not empty, and free of terminators, colons, tabs and newlines. -/
def label_ok (l : List Char) : Prop :=
  l ≠ [] ∧ ∀ c ∈ l, c ≠ NUL ∧ c ≠ ':' ∧ c ≠ '\t' ∧ c ≠ '\n'

/-- A value: free of terminators and newlines. -/
def value_ok (v : List Char) : Prop := ∀ c ∈ v, c ≠ NUL ∧ c ≠ '\n'

/-- The state codes of the classification table. -/
def state_codes : List Char := ['S', 'I', 'X', 'R', 'Z', 'D', 'T', 't']

/-- What follows the code `T` in a State value as the kernel writes it: a
space, an opening parenthesis and the first byte of the description. -/
def t_description_ok (rest : List Char) : Bool :=
  match rest with
  | a :: b :: d :: _ => a == ' ' && b == '(' && !([' ', '(', ':', '\t'].contains d)
  | _ => false

/-- A State value: it starts with a code of the table, and after the code `T`
comes the parenthesised description. -/
def state_value_ok (v : List Char) : Bool :=
  match v with
  | [] => false
  | c :: rest => state_codes.contains c && (c != 'T' || t_description_ok rest)

/-- A Uid value: it starts with a decimal digit. -/
def uid_value_ok (v : List Char) : Bool :=
  match v with
  | [] => false
  | c :: _ => isdigit c

/-- A Name value: between 1 and 25 bytes, none of them a tab. -/
def name_value_ok (v : List Char) : Prop := v ≠ [] ∧ v.length ≤ 25 ∧ '\t' ∉ v

/-- A field of a status record: its line fits the 200-byte read of the line
loop, and the three fields the census looks at have the shape the kernel
gives them. -/
def field_ok (f : List Char × List Char) : Prop :=
  label_ok f.1 ∧ value_ok f.2 ∧ f.1.length + f.2.length + 3 ≤ 200 ∧
  (f.1 = "State".toList → state_value_ok f.2 = true) ∧
  (f.1 = "Uid".toList → uid_value_ok f.2 = true) ∧
  (f.1 = "Name".toList → name_value_ok f.2)

/-- A status file as the census reads it: the fields of its leading lines,
and the bytes after them. -/
structure status_file where
  fields : List (List Char × List Char)
  rest : List Char

/-- The content of a status file. -/
def status_file.text (s : status_file) : List Char := status_text s.fields ++ s.rest

/-- A readable status record that carries one State line: well-formed fields
with pairwise distinct labels, `State` among them. Bytes may follow the fields
when `Uid` and `Name` are among the labels too: the census stops reading at
the third of the three fields and never sees what follows. -/
def record_ok (s : status_file) : Prop :=
  (∀ f ∈ s.fields, field_ok f) ∧ (s.fields.map Prod.fst).Nodup ∧
  "State".toList ∈ s.fields.map Prod.fst ∧
  (s.rest = [] ∨
    ("Uid".toList ∈ s.fields.map Prod.fst ∧ "Name".toList ∈ s.fields.map Prod.fst))

instance (l : List Char) : Decidable (label_ok l) := by unfold label_ok; infer_instance

instance (v : List Char) : Decidable (value_ok v) := by unfold value_ok; infer_instance

instance (v : List Char) : Decidable (name_value_ok v) := by
  unfold name_value_ok; infer_instance

instance (f : List Char × List Char) : Decidable (field_ok f) := by
  unfold field_ok; infer_instance

instance (s : status_file) : Decidable (record_ok s) := by
  unfold record_ok; infer_instance

/-- The state code of a record: the first byte of the value of its State
field. -/
def code_of (r : List (List Char × List Char)) : Char :=
  match r.find? (fun f => f.1 = "State".toList) with
  | some f => f.2.headD NUL
  | none => NUL

/-- The five buckets of the census. -/
structure bucket_counts where
  running : Nat
  waiting : Nat
  sleeping : Nat
  stopped : Nat
  zombie : Nat
deriving DecidableEq

/-- Bucket-wise sum. -/
def bucket_counts.add (a b : bucket_counts) : bucket_counts :=
  ⟨a.running + b.running, a.waiting + b.waiting, a.sleeping + b.sleeping,
    a.stopped + b.stopped, a.zombie + b.zombie⟩

/-- The sum of the five buckets. -/
def bucket_counts.sum (b : bucket_counts) : Nat :=
  b.running + b.waiting + b.sleeping + b.stopped + b.zombie

/-- The classification table of the spec: the bucket a state code adds one to.
`S`, `I`, `X` go to sleeping, `R` to running, `Z` to zombie, `D` to waiting,
`T` and `t` to stopped; any other byte adds nothing. -/
def bucket_of_code (c : Char) : bucket_counts :=
  if c = 'S' ∨ c = 'I' ∨ c = 'X' then ⟨0, 0, 1, 0, 0⟩
  else if c = 'R' then ⟨1, 0, 0, 0, 0⟩
  else if c = 'Z' then ⟨0, 0, 0, 0, 1⟩
  else if c = 'D' then ⟨0, 1, 0, 0, 0⟩
  else if c = 'T' ∨ c = 't' then ⟨0, 0, 0, 1, 0⟩
  else ⟨0, 0, 0, 0, 0⟩

/-- The buckets held by the counters of `pfs_tasks`. -/
def tally_buckets (t : task_tally) : bucket_counts :=
  ⟨t.running, t.waiting, t.sleeping, t.stopped, t.zombie⟩

/-- The buckets reported in `*tstats`. -/
def stats_buckets (s : task_stats) : bucket_counts :=
  ⟨s.running, s.waiting, s.sleeping, s.stopped, s.zombie⟩

/-- A directory given as names with, where the status file opens, the file
it holds. -/
def to_dir_entry (e : List Char × Option status_file) : dir_entry :=
  ⟨e.1, e.2.map status_file.text⟩

/-- The records `pfs_tasks` opens: those of the entries that pass
`is_only_numeric` and whose status file opens, in directory order. -/
def opened_records : List (List Char × Option status_file) → List status_file
  | [] => []
  | e :: es =>
    match e.2 with
    | some r => if is_only_numeric e.1 then r :: opened_records es else opened_records es
    | none => opened_records es

/-- The buckets the table assigns to a list of records, one unit per record. -/
def table_buckets : List status_file → bucket_counts
  | [] => ⟨0, 0, 0, 0, 0⟩
  | r :: rs => (table_buckets rs).add (bucket_of_code (code_of r.fields))

/-! ## Sample inputs -/

/-- Ten counters of nine digits each: with the label the line has 103 bytes
before its newline, more than one read of 100 bytes takes in. -/
def long_stat_fields (tok : List Char) : List (Nat × List Char) :=
  List.replicate 10 (0, tok)

/-- The fields of the line `cpu  4 0 2 10 1 0 0 0 0 0`. -/
def sample_stat_fields : List (Nat × List Char) :=
  [(1, ['4']), (0, ['0']), (0, ['2']), (0, ['1', '0']), (0, ['1']), (0, ['0']), (0, ['0']),
    (0, ['0']), (0, ['0']), (0, ['0'])]

/-- Three process directories with states `R`, `S` and `Z`, listed between
entries that are not processes. The first status file goes on after its Gid
line with a line longer than the line buffer. -/
def three_records : List (List Char × Option status_file) :=
  [("cpuinfo".toList, none),
   ("101".toList, some ⟨[("Name".toList, "bash".toList), ("Umask".toList, "0022".toList),
      ("State".toList, "R (running)".toList), ("Tgid".toList, "101".toList),
      ("Uid".toList, "1000\t1000\t1000\t1000".toList), ("Gid".toList, "5\t5\t5\t5".toList)],
      "Groups:\t".toList ++ List.replicate 300 '4' ++ ['\n']⟩),
   ("102".toList, some ⟨[("Name".toList, "cron".toList), ("Umask".toList, "0022".toList),
      ("State".toList, "S (sleeping)".toList), ("Tgid".toList, "102".toList),
      ("Uid".toList, "0\t0\t0\t0".toList), ("Gid".toList, "0\t0\t0\t0".toList)], []⟩),
   ("self".toList, some ⟨[("Name".toList, "top".toList),
      ("State".toList, "R (running)".toList), ("Uid".toList, "0\t0\t0\t0".toList)], []⟩),
   ("103".toList, some ⟨[("Name".toList, "defunct".toList), ("Umask".toList, "0022".toList),
      ("State".toList, "Z (zombie)".toList), ("Tgid".toList, "103".toList),
      ("Uid".toList, "33\t33\t33\t33".toList), ("Gid".toList, "33\t33\t33\t33".toList)],
      []⟩)]

/-- A process directory whose State line carries the code `P`, which the
kernel writes for a parked thread and the table does not list. -/
def parked_record : List dir_entry :=
  [⟨"106".toList, some ("Name:\tkthreadd\nUmask:\t0000\nState:\tP (parked)\nTgid:\t106\n" ++
      "Uid:\t0\t0\t0\t0\nGid:\t0\t0\t0\t0\n").toList⟩]

/-- A running process followed by a parked one. -/
def running_then_parked : List dir_entry :=
  [⟨"101".toList, some ("Name:\tbash\nUmask:\t0022\nState:\tR (running)\nTgid:\t101\n" ++
      "Uid:\t1000\t1000\t1000\t1000\nGid:\t5\t5\t5\t5\n").toList⟩,
   ⟨"106".toList, some ("Name:\tkthreadd\nUmask:\t0000\nState:\tP (parked)\nTgid:\t106\n" ++
      "Uid:\t0\t0\t0\t0\nGid:\t0\t0\t0\t0\n").toList⟩]

/-- The labels of the closed set of the spec. -/
def state_labels : List (List Char) :=
  ["running".toList, "zombie".toList, "disk sleep".toList, "stopped".toList,
    "tracing stop".toList]

/-! ## libc `atof` -/

/-- Libc `tolower` on ASCII letters. -/
def tolower (c : Char) : Char :=
  if 65 ≤ c.toNat ∧ c.toNat ≤ 90 then Char.ofNat (c.toNat + 32) else c

/-- Whether `s` starts with the word `w` (given in lower case), ignoring case. -/
def starts_with_word (s w : List Char) : Bool := (s.take w.length).map tolower == w

/-- Libc `isxdigit`. -/
def isxdigit (c : Char) : Bool :=
  isdigit c || (97 ≤ c.toNat && c.toNat ≤ 102) || (65 ≤ c.toNat && c.toNat ≤ 70)

/-- The value of a decimal or hexadecimal digit. -/
def digit_value (c : Char) : Nat :=
  if isdigit c then c.toNat - 48 else if 97 ≤ c.toNat then c.toNat - 87 else c.toNat - 55

/-- The number a string of digits denotes in base `b`. -/
def digits_value (b : Nat) (ds : List Char) : Nat :=
  ds.foldl (fun n c => b * n + digit_value c) 0

/-- The exponent part of a floating constant: one of the letters `marks`, an
optional sign and a non-empty run of decimal digits. Without such a part the
exponent is 0. -/
def strtod_exponent (marks s : List Char) : Int :=
  match s with
  | [] => 0
  | m :: r =>
    if marks.contains m then
      let neg := r.head? = some '-'
      let r := if r.head? = some '-' ∨ r.head? = some '+' then r.tail else r
      let ds := r.takeWhile isdigit
      if neg then - (digits_value 10 ds : Int) else (digits_value 10 ds : Int)
    else 0

/-- The number `x * b ^ e`. -/
def scale (x : ℚ) (b : Nat) (e : Int) : ℚ :=
  if 0 ≤ e then x * (b : ℚ) ^ e.toNat else x / (b : ℚ) ^ (-e).toNat

/-- A floating constant at the head of `s` in base `b`: a run of digits that
may hold one radix point and must hold one digit, then an exponent part to
the base `eb`. The result is `none` when `s` starts with no such constant. -/
def strtod_number (isdig : Char → Bool) (b eb : Nat) (marks s : List Char) : Option ℚ :=
  let ip := s.takeWhile isdig
  let s1 := s.dropWhile isdig
  let fp := if s1.head? = some '.' then s1.tail.takeWhile isdig else []
  let s2 := if s1.head? = some '.' then s1.tail.dropWhile isdig else s1
  if ip = [] ∧ fp = [] then none
  else some (scale ((digits_value b (ip ++ fp) : ℚ) / (b : ℚ) ^ fp.length) eb
    (strtod_exponent marks s2))

/-- The `double` for an exact value: beyond the range of `double` it is
`HUGE_VAL`, which is infinity. -/
def CDouble.ofRange (q : ℚ) : CDouble :=
  if (2 : ℚ) ^ 1024 ≤ q then CDouble.pinf else CDouble.fin q

/-- What `strtod` reads after white space and sign: `inf` or `nan` in any
case, a hexadecimal constant after `0x`, a decimal constant, or nothing, which
counts as zero. -/
def strtod_magnitude (t : List Char) : CDouble :=
  if starts_with_word t "inf".toList then CDouble.pinf
  else if starts_with_word t "nan".toList then CDouble.nan
  else
    let hex : Option ℚ :=
      if t.head? = some '0' ∧ (t.tail.head? = some 'x' ∨ t.tail.head? = some 'X') then
        strtod_number isxdigit 16 2 ['p', 'P'] t.tail.tail
      else none
    match hex with
    | some q => CDouble.ofRange q
    | none =>
      match strtod_number isdigit 10 10 ['e', 'E'] t with
      | some q => CDouble.ofRange q
      | none => CDouble.fin 0

/-- Libc `atof` on the string `s`, that is `strtod(s, NULL)`: white space is
skipped, one sign is accepted. -/
def atof (s : List Char) : CDouble :=
  let t := s.dropWhile isspace
  if t.head? = some '-' then (strtod_magnitude t.tail).neg
  else if t.head? = some '+' then strtod_magnitude t.tail
  else strtod_magnitude t

/-- The call `atof(p)` on a pointer into `buf`; a null pointer faults. -/
def atof_at (buf : List Char) (p : Option Nat) : Option CDouble :=
  p.map (fun q => atof (cstr buf q))

/-! ## `util.c`: `kb_to_mb`, and `procfs.c`: `pfs_mem_usage` -/

/-- Function `kb_to_mb` of `util.c`. -/
def kb_to_mb (kb : CDouble) : CDouble :=
  CDouble.div (CDouble.div kb (CDouble.fin 1024)) (CDouble.fin 1024)

/-- Modelled from the spec: `struct mem_stats` of `procfs.h`, which is not
among the sources. The spec gives the memory stats two floating fields,
`total` and `used`; `pfs_mem_usage` stores `double` values in them. -/
structure mem_stats where
  total : CDouble
  used : CDouble
deriving DecidableEq

/-- The variables the line loop of `pfs_mem_usage` updates. -/
structure mem_vars where
  count : Int
  total : CDouble
  available : CDouble
deriving DecidableEq

/-- The statement `if((curr = next_token(&next_tok, ":\t")) != NULL) ...` of
`pfs_mem_usage`, entered once `lineread` has stored a line in `line`: the
buffer and the variables afterwards, or `none` when `atof` is handed a null
pointer. -/
def mem_line_body (line : List Char) (v : mem_vars) : Option (List Char × mem_vars) :=
  let next_tok := some 0
  let (curr, line, next_tok) := next_token line next_tok [':', '\t']
  match curr with
  | none => some (line, v)
  | some _ =>
    let r1 : Option (Option Nat × List Char × Option Nat × mem_vars) :=
      match strcmp_eq line curr "MemTotal".toList with
      | none => none
      | some false => some (curr, line, next_tok, v)
      | some true =>
        let (curr, line, next_tok) := next_token line next_tok [':', '\t']
        match atof_at line curr with
        | none => none
        | some total => some (curr, line, next_tok, { v with count := v.count + 1, total := total })
    match r1 with
    | none => none
    | some (curr, line, next_tok, v) =>
      match strcmp_eq line curr "MemAvailable".toList with
      | none => none
      | some false => some (line, v)
      | some true =>
        let (curr, line, _) := next_token line next_tok [':', '\t']
        match atof_at line curr with
        | none => none
        | some available =>
          some (line, { v with count := v.count + 1, available := available })

/-- The line loop `while(lineread(fd, line, 200) > 0)` of `pfs_mem_usage`;
every iteration consumes at least one byte of the stream, and `fuel` bounds
the number of iterations. -/
def mem_loop : Nat → List Char → List Char → mem_vars → Option mem_vars
  | 0, _, _, v => some v
  | fuel + 1, stream, line, v =>
    let r := lineread stream line 200
    if r.1 > 0 then
      if v.count = 2 then some v
      else
        match mem_line_body r.2.2 v with
        | none => none
        | some (line, v) => mem_loop fuel r.2.1 line v
    else some v

/-- Function `pfs_mem_usage` of `procfs.c`. `meminfo` is the content of
`<proc_dir>/meminfo` when `open_path` succeeds, `junk` the initial content of
the array `line`. The result is the returned structure, or `none` when `atof`
is handed a null pointer. -/
def pfs_mem_usage (meminfo : Option (List Char)) (junk : List Char) : Option mem_stats :=
  match meminfo with
  | none => some { total := CDouble.fin 0, used := CDouble.fin 0 }
  | some content =>
    match mem_loop (content.length + 1) content (stack_array 200 junk)
        { count := 0, total := CDouble.fin 0, available := CDouble.fin 0 } with
    | none => none
    | some v =>
      let used := CDouble.sub v.total v.available
      some { total := kb_to_mb v.total, used := kb_to_mb used }
/-! ## Comparison and conversion of doubles -/

namespace CDouble

/-- The comparison `a < b` of IEEE doubles: false when either is a NaN. -/
def lt : CDouble → CDouble → Bool
  | fin a, fin b => decide (a < b)
  | fin _, pinf => true
  | ninf, fin _ => true
  | ninf, pinf => true
  | _, _ => false

/-- The comparison `a <= b` of IEEE doubles: false when either is a NaN. -/
def le : CDouble → CDouble → Bool
  | fin a, fin b => decide (a ≤ b)
  | fin _, pinf => true
  | ninf, fin _ => true
  | ninf, pinf => true
  | pinf, pinf => true
  | ninf, ninf => true
  | _, _ => false

/-- The conversion `(int) x`: the fraction is dropped; a value that has no
`int`, a NaN or an infinity, makes the behaviour undefined. -/
def toInt : CDouble → Option Int
  | fin q =>
    let z := if 0 ≤ q then Int.floor q else Int.ceil q
    if -2147483648 ≤ z ∧ z ≤ 2147483647 then some z else none
  | _ => none

end CDouble

/-! ## `procfs.c`: `pfs_kernel_version` -/

/-- Function `pfs_kernel_version` of `procfs.c`. `osrelease` is the content of
`<proc_dir>/sys/kernel/osrelease` when `open_path` succeeds, `version_buf` the
memory of the caller's buffer of `buf_sz` bytes. The result is the returned
code and the buffer afterwards. -/
def pfs_kernel_version (osrelease : Option (List Char)) (version_buf : List Char)
    (buf_sz : Nat) : Int × List Char :=
  match osrelease with
  | none => (-1, version_buf)
  | some content =>
    let version_buf := (one_lineread content version_buf buf_sz).2.2
    let dash_pos := strcspn version_buf ['-']
    let version_buf := version_buf.set dash_pos NUL
    (0, version_buf)

/-! ## `procfs.c`: `pfs_cpu_model` and `pfs_cpu_units` -/

/-- The test `strstr(p, needle) != NULL` on a pointer into `buf`: whether the
string at `p` contains `needle`. -/
def strstr_found (buf : List Char) (p : Nat) (needle : List Char) : Bool :=
  decide (needle <:+: cstr buf p)

/-- How a call whose loop need not end turns out within a bound on the number
of iterations. -/
inductive outcome (α : Type) where
  | returned : α → outcome α
  | fault : outcome α
  | running : outcome α
deriving DecidableEq

/-- The loop `while(strstr(line, "model name") == NULL)` of `pfs_cpu_model`:
the stream and the line once the loop is left, or `none` when it is still
running after `fuel` iterations. -/
def cpu_model_scan : Nat → List Char → List Char → Nat → Option (List Char × List Char)
  | 0, stream, line, _ =>
    if strstr_found line 0 "model name".toList then some (stream, line) else none
  | fuel + 1, stream, line, buf_sz =>
    if strstr_found line 0 "model name".toList then some (stream, line)
    else
      let r := one_lineread stream line buf_sz
      cpu_model_scan fuel r.2.1 r.2.2 buf_sz

/-- Function `pfs_cpu_model` of `procfs.c`, its scan loop bounded by `fuel`
iterations. `cpuinfo` is the content of `<proc_dir>/cpuinfo` when `open_path`
succeeds, `junk` the initial content of the array `line`, and the caller's
buffer has `buf_sz` bytes. A call that returns gives its code and the string
then held by `model_buf`, which is `none` while the buffer is as the caller
left it; it faults when `strcpy` is handed a null pointer or a string longer
than the buffer. -/
def pfs_cpu_model (fuel : Nat) (cpuinfo : Option (List Char)) (junk : List Char)
    (buf_sz : Nat) : outcome (Int × Option (List Char)) :=
  match cpuinfo with
  | none => outcome.returned (-1, none)
  | some content =>
    let line := stack_array (buf_sz + 3) junk
    let r := one_lineread content line buf_sz
    match cpu_model_scan fuel r.2.1 r.2.2 buf_sz with
    | none => outcome.running
    | some (_, line) =>
      let next_tok := some 0
      let (_, line, next_tok) := next_token line next_tok ['\t']
      let (_, line, next_tok) := next_token line next_tok [' ']
      match strcpy_into buf_sz line next_tok with
      | none => outcome.fault
      | some s => outcome.returned (0, some s)

/-- The loop `while(strstr(line, "cpu") != NULL)` of `pfs_cpu_units`: the line
and `count` once the loop is left, or `none` when it is still running after
`fuel` iterations. -/
def cpu_units_scan : Nat → List Char → List Char → Int → Option (List Char × Int)
  | 0, _, line, count =>
    if strstr_found line 0 "cpu".toList then none else some (line, count)
  | fuel + 1, stream, line, count =>
    if strstr_found line 0 "cpu".toList then
      let r := one_lineread stream line 100
      cpu_units_scan fuel r.2.1 r.2.2 (wrap_int (count + 1))
    else some (line, count)

/-- Function `pfs_cpu_units` of `procfs.c`, its scan loop bounded by `fuel`
iterations. `stat` is the content of `<proc_dir>/stat` when `open_path`
succeeds, `junk` the initial content of the array `line`. The result is the
returned number, or `none` when the loop is still running after `fuel`
iterations. -/
def pfs_cpu_units (fuel : Nat) (stat : Option (List Char)) (junk : List Char) : Option Int :=
  match stat with
  | none => some (-1)
  | some content =>
    let line := stack_array 1024 junk
    let r := one_lineread content line 100
    let count := 0
    match cpu_units_scan fuel r.2.1 r.2.2 count with
    | none => none
    | some (line, count) =>
      let count := wrap_int (count - 1)
      let next_tok := some 0
      let (_, line, next_tok) := next_token line next_tok ['\t']
      let (_, _, _) := next_token line next_tok [' ']
      let cores := if count > -1 then count else 0
      some cores

/-! ## `procfs.c`: `pfs_format_uptime` -/

/-- The text `sprintf` writes for `%d`. -/
def sprintf_d (n : Int) : List Char :=
  if n < 0 then '-' :: Nat.toDigits 10 n.natAbs else Nat.toDigits 10 n.natAbs

/-- Function `pfs_format_uptime` of `procfs.c`: the returned code and the
string held by `uptime_buf` afterwards, which is `none` while the buffer is
as the caller left it. The buffer is taken to have room for the text. The
call is undefined, `none`, when a conversion to `int` is. -/
def pfs_format_uptime (time : CDouble) : Option (Int × Option (List Char)) :=
  match (CDouble.div time (CDouble.ofLong (24 * 3600 * 365))).toInt,
    (CDouble.div time (CDouble.ofLong (24 * 3600))).toInt, time.toInt with
  | some years, some days, some t =>
    let time := CDouble.ofLong (Int.tmod t (24 * 3600))
    match (CDouble.div time (CDouble.ofLong 3600)).toInt, time.toInt with
    | some hours, some t =>
      let time := CDouble.ofLong (Int.tmod t 3600)
      match (CDouble.div time (CDouble.ofLong 60)).toInt, time.toInt with
      | some minutes, some t =>
        let time := CDouble.ofLong (Int.tmod t 60)
        match time.toInt with
        | some seconds =>
          let uptime_buf : Option (List Char) := none
          let uptime_buf :=
            if years ≠ 0 then
              some (sprintf_d years ++ " years, ".toList ++ sprintf_d days ++ " days, ".toList ++
                sprintf_d hours ++ " hours, ".toList ++ sprintf_d minutes ++
                " minutes, ".toList ++ sprintf_d seconds ++ " seconds".toList)
            else uptime_buf
          let uptime_buf :=
            if years = 0 then
              some (sprintf_d days ++ " days, ".toList ++ sprintf_d hours ++ " hours, ".toList ++
                sprintf_d minutes ++ " minutes, ".toList ++ sprintf_d seconds ++
                " seconds".toList)
            else uptime_buf
          let uptime_buf :=
            if days = 0 then
              some (sprintf_d hours ++ " hours, ".toList ++ sprintf_d minutes ++
                " minutes, ".toList ++ sprintf_d seconds ++ " seconds".toList)
            else uptime_buf
          let uptime_buf :=
            if hours = 0 then
              some (sprintf_d minutes ++ " minutes, ".toList ++ sprintf_d seconds ++
                " seconds".toList)
            else uptime_buf
          let uptime_buf :=
            if minutes = 0 then some (sprintf_d seconds ++ " seconds".toList) else uptime_buf
          some (0, uptime_buf)
        | none => none
      | _, _ => none
    | _, _ => none
  | _, _, _ => none

/-! ## The text of `meminfo` -/

/-- The text of a `meminfo` file given as its fields, each a label and a
value: one line `label:value` per field, newline included. -/
def meminfo_text : List (List Char × List Char) → List Char
  | [] => []
  | f :: fs => f.1 ++ ':' :: (f.2 ++ '\n' :: meminfo_text fs)

/-- An amount as `meminfo` writes it: `k` padding spaces, the decimal digits
`ds` and the unit ` kB`. -/
def amount_text (k : Nat) (ds : List Char) : List Char :=
  List.replicate k ' ' ++ (ds ++ " kB".toList)

/-- Whether a value is an amount: spaces, at least one decimal digit, and the
unit ` kB`. -/
def amount_ok (v : List Char) : Bool :=
  let w := v.dropWhile (fun c => c == ' ')
  let ds := w.takeWhile isdigit
  !ds.isEmpty && w.dropWhile isdigit == " kB".toList

/-- The number of kilobytes an amount states. -/
def amount_of (v : List Char) : Nat :=
  decimal ((v.dropWhile (fun c => c == ' ')).takeWhile isdigit)

/-- A field of `meminfo`: its line fits the 200-byte read of the line loop,
and the two fields the reader looks at hold amounts. -/
def mem_field_ok (f : List Char × List Char) : Prop :=
  label_ok f.1 ∧ value_ok f.2 ∧ f.1.length + f.2.length + 2 ≤ 200 ∧
  (f.1 = "MemTotal".toList ∨ f.1 = "MemAvailable".toList → amount_ok f.2 = true)

instance (f : List Char × List Char) : Decidable (mem_field_ok f) := by
  unfold mem_field_ok; infer_instance

/-- The kilobytes stated by the field labelled `label`, and 0 when no field
has that label. -/
def mem_amount (label : List Char) (fs : List (List Char × List Char)) : Nat :=
  match fs.find? (fun f => f.1 = label) with
  | some f => amount_of f.2
  | none => 0

/-- What one line of `meminfo` does to the variables of the line loop. -/
def mem_step (f : List Char × List Char) (v : mem_vars) : mem_vars :=
  if f.1 = "MemTotal".toList then
    { v with count := v.count + 1, total := CDouble.fin (amount_of f.2) }
  else if f.1 = "MemAvailable".toList then
    { v with count := v.count + 1, available := CDouble.fin (amount_of f.2) }
  else v

/-- The variables of the line loop after the lines of `fs`: the loop is left
at the first line read with `count` at 2. -/
def mem_scan : List (List Char × List Char) → mem_vars → mem_vars
  | [], v => v
  | f :: fs, v => if v.count = 2 then v else mem_scan fs (mem_step f v)

/-! ## Files as lists of lines -/

/-- The text of a file given as its lines, each followed by a newline. -/
def text_of_lines : List (List Char) → List Char
  | [] => []
  | l :: ls => l ++ '\n' :: text_of_lines ls

/-- A line that a read of `sz` bytes takes in whole, newline included, and
that holds no terminator. -/
def line_fits (sz : Nat) (l : List Char) : Prop :=
  l.length + 1 ≤ sz ∧ ∀ c ∈ l, c ≠ NUL ∧ c ≠ '\n'

instance (sz : Nat) (l : List Char) : Decidable (line_fits sz l) := by
  unfold line_fits; infer_instance

/-- Whether a line begins with `cpu`. -/
def begins_with_cpu (l : List Char) : Bool := "cpu".toList.isPrefixOf l

/-- Whether a line contains `cpu` anywhere. -/
def contains_cpu (l : List Char) : Bool := decide ("cpu".toList <:+: l)

/-- The number of consecutive lines from the start of the file that satisfy
`p`. -/
def leading_lines (p : List Char → Bool) (lines : List (List Char)) : Nat :=
  (lines.takeWhile p).length

/-- The core count as the spec words it: the number of leading lines that
begin with `cpu`, minus one, clamped to zero. -/
def cpu_units_spec (lines : List (List Char)) : Int :=
  max ((leading_lines begins_with_cpu lines : Int) - 1) 0

/-! ## The text of an uptime -/

/-- The uptime text as the spec words it, for a whole number `t` of seconds:
the units are computed from `t` and the text is chosen by the smallest unit
that is zero. -/
def uptime_text (t : Nat) : List Char :=
  let s := t % 60
  let m := (t % 3600) / 60
  let h := (t % 86400) / 3600
  let d := t / 86400
  let y := t / 31536000
  if m = 0 then sprintf_d s ++ " seconds".toList
  else if h = 0 then sprintf_d m ++ " minutes, ".toList ++ sprintf_d s ++ " seconds".toList
  else if d = 0 then
    sprintf_d h ++ " hours, ".toList ++ sprintf_d m ++ " minutes, ".toList ++ sprintf_d s ++
      " seconds".toList
  else if y = 0 then
    sprintf_d d ++ " days, ".toList ++ sprintf_d h ++ " hours, ".toList ++ sprintf_d m ++
      " minutes, ".toList ++ sprintf_d s ++ " seconds".toList
  else
    sprintf_d y ++ " years, ".toList ++ sprintf_d d ++ " days, ".toList ++ sprintf_d h ++
      " hours, ".toList ++ sprintf_d m ++ " minutes, ".toList ++ sprintf_d s ++
      " seconds".toList

/-! ## More sample inputs -/

/-- Two stopped processes as the kernel reports them: one stopped by a
signal, one stopped by a tracer. -/
def stopped_records : List dir_entry :=
  [⟨"107".toList, some ("Name:\tcat\nUmask:\t0022\nState:\tT (stopped)\nTgid:\t107\n" ++
      "Uid:\t1000\t1000\t1000\t1000\n").toList⟩,
   ⟨"108".toList, some ("Name:\tchild\nUmask:\t0022\nState:\tT (tracing stop)\nTgid:\t108\n" ++
      "Uid:\t1000\t1000\t1000\t1000\n").toList⟩]

/-- A status file whose State value is the code `T` alone, with no
parenthesised description. -/
def bare_stopped_status : List Char :=
  "Name:\tsystemd-journal\nUmask:\t0022\nState:\tT\nTgid:\t107\nUid:\t0\t0\t0\t0\n".toList

/-- A process directory with that status file. -/
def bare_stopped_record : List dir_entry :=
  [⟨"107".toList, some bare_stopped_status⟩]

/-- The fields of a `meminfo` with 8000000 kB in total and 2000000 kB
available. -/
def sample_meminfo : List (List Char × List Char) :=
  [("MemTotal".toList, "        8000000 kB".toList),
   ("MemFree".toList, "         1500000 kB".toList),
   ("MemAvailable".toList, "    2000000 kB".toList),
   ("Buffers".toList, "          300000 kB".toList)]

/-- The fields of a `meminfo` that states more memory available than there is
in total. -/
def inverted_meminfo : List (List Char × List Char) :=
  [("MemTotal".toList, " 1000 kB".toList), ("MemAvailable".toList, " 2000 kB".toList)]

/-- The lines of a `stat` file whose third line mentions `cpu` without
beginning with it. -/
def stat_with_inner_cpu : List (List Char) :=
  ["cpu  10 0 5 80 1 0 0 0 0 0".toList, "cpu0 10 0 5 80 1 0 0 0 0 0".toList,
    "intr 12 cpu 3".toList, "ctxt 77".toList]

/-- The lines of a `stat` file of a machine with two cores. -/
def sample_stat_lines : List (List Char) :=
  ["cpu  10 0 5 80 1 0 0 0 0 0".toList, "cpu0 6 0 2 40 1 0 0 0 0 0".toList,
    "cpu1 4 0 3 40 0 0 0 0 0 0".toList, "intr 12 3 0".toList, "ctxt 77".toList]

/-- The lines of a `cpuinfo` that names no model, as on machines whose kernel
reports the processor under other labels. -/
def cpuinfo_without_model : List (List Char) :=
  ["processor\t: 0".toList, "BogoMIPS\t: 108.00".toList,
    "Features\t: fp asimd evtstrm crc32".toList, "CPU implementer\t: 0x41".toList]

/-- The status file of a kernel worker thread: its name, as the kernel writes
it for a worker, is 27 bytes long. -/
def long_name_status : List Char :=
  ("Name:\tkworker/0:0H-events_highpri\nUmask:\t0000\nState:\tI (idle)\nTgid:\t212\n" ++
    "Uid:\t0\t0\t0\t0\n").toList

/-- A process directory with that status file. -/
def long_name_record : List dir_entry := [⟨"212".toList, some long_name_status⟩]
/-! ## Facts about the string functions -/

theorem takeWhile_append_stop {α : Type} (p : α → Bool) (l₁ l₂ : List α)
    (h₁ : ∀ a ∈ l₁, p a = true) (h₂ : ∀ a, l₂.head? = some a → p a = false) :
    (l₁ ++ l₂).takeWhile p = l₁ := by
  induction l₁ with
  | nil =>
    cases l₂ with
    | nil => rfl
    | cons b t => simp [List.takeWhile_cons, h₂ b (by simp)]
  | cons a t ih =>
    have ha : p a = true := h₁ a (by simp)
    have ht : ∀ x ∈ t, p x = true := fun x hx => h₁ x (by simp [hx])
    simp [List.takeWhile_cons, ha, ih ht]

theorem cstr_at (pre s rest : List Char) (hs : ∀ c ∈ s, c ≠ NUL)
    (hrest : ∀ c, rest.head? = some c → c = NUL) :
    cstr (pre ++ (s ++ rest)) pre.length = s := by
  unfold cstr
  rw [List.drop_left]
  apply takeWhile_append_stop
  · intro a ha; simpa using hs a ha
  · intro a ha; simpa using hrest a ha

theorem strspn_run (lead rest d : List Char) (hlead : ∀ c ∈ lead, c ≠ NUL ∧ c ∈ d)
    (hrest : ∀ c, rest.head? = some c → c = NUL ∨ c ∉ d) :
    strspn (lead ++ rest) d = lead.length := by
  unfold strspn
  rw [takeWhile_append_stop]
  · intro a ha
    have := hlead a ha
    simp [this.1, this.2]
  · intro a ha
    rcases hrest a ha with h | h
    · simp [h]
    · simp [h]

theorem strcspn_run (tok rest d : List Char) (htok : ∀ c ∈ tok, c ≠ NUL ∧ c ∉ d)
    (hrest : ∀ c, rest.head? = some c → c = NUL ∨ c ∈ d) :
    strcspn (tok ++ rest) d = tok.length := by
  unfold strcspn
  rw [takeWhile_append_stop]
  · intro a ha
    have := htok a ha
    simp [this.1, this.2]
  · intro a ha
    rcases hrest a ha with h | h
    · simp [h]
    · simp [h]


theorem peek_at (pre rest : List Char) : peek (pre ++ rest) pre.length = rest.headD NUL := by
  unfold peek
  rw [List.getD_append_right _ _ _ _ (Nat.le_refl _)]
  cases rest <;> simp

theorem set_at (pre rest : List Char) (c x : Char) :
    (pre ++ c :: rest).set pre.length x = pre ++ x :: rest := by
  induction pre with
  | nil => rfl
  | cons a t ih => simp [ih]

/-- A token that runs to the end of the string: the cursor finishes and the
memory is left alone. -/
theorem next_token_last (pre lead tok rest d : List Char)
    (hlead : ∀ c ∈ lead, c ≠ NUL ∧ c ∈ d) (htok : ∀ c ∈ tok, c ≠ NUL ∧ c ∉ d)
    (hne : tok ≠ []) (hrest : ∀ c, rest.head? = some c → c = NUL) :
    next_token (pre ++ (lead ++ (tok ++ rest))) (some pre.length) d =
      (some (pre.length + lead.length), pre ++ (lead ++ (tok ++ rest)), none) := by
  have hhead : ∀ c, (tok ++ rest).head? = some c → c = NUL ∨ c ∉ d := by
    intro c hc
    cases tok with
    | nil => exact absurd rfl hne
    | cons a t =>
      simp at hc
      subst hc
      exact Or.inr (htok a (by simp)).2
  have h1 : strspn (lead ++ (tok ++ rest)) d = lead.length := strspn_run _ _ _ hlead hhead
  have h2 : strcspn (tok ++ rest) d = tok.length :=
    strcspn_run _ _ _ htok (fun c hc => Or.inl (hrest c hc))
  have hlen : tok.length ≠ 0 := by simpa using hne
  have hpk : peek (pre ++ (lead ++ (tok ++ rest))) (pre.length + lead.length + tok.length)
      = NUL := by
    have := peek_at (pre ++ lead ++ tok) rest
    simp only [List.length_append, List.append_assoc, ← Nat.add_assoc] at this
    rw [this]
    cases rest with
    | nil => rfl
    | cons c t => simp [hrest c (by simp)]
  simp only [next_token, List.drop_left, h1]
  have hd : List.drop (pre.length + lead.length) (pre ++ (lead ++ (tok ++ rest))) = tok ++ rest := by
    simp
  rw [hd, h2]
  simp [hlen, hpk]

/-- A token followed by a delimiter: the delimiter is overwritten by a
terminator and the cursor moves one byte past it. -/
theorem next_token_mid (pre lead tok rest d : List Char) (c : Char)
    (hlead : ∀ c ∈ lead, c ≠ NUL ∧ c ∈ d) (htok : ∀ c ∈ tok, c ≠ NUL ∧ c ∉ d)
    (hne : tok ≠ []) (hc : c ≠ NUL) (hcd : c ∈ d) :
    next_token (pre ++ (lead ++ (tok ++ c :: rest))) (some pre.length) d =
      (some (pre.length + lead.length), pre ++ (lead ++ (tok ++ NUL :: rest)),
        some (pre.length + lead.length + tok.length + 1)) := by
  have hhead : ∀ x, (tok ++ c :: rest).head? = some x → x = NUL ∨ x ∉ d := by
    intro x hx
    cases tok with
    | nil => exact absurd rfl hne
    | cons a t =>
      simp at hx
      subst hx
      exact Or.inr (htok a (by simp)).2
  have h1 : strspn (lead ++ (tok ++ c :: rest)) d = lead.length := strspn_run _ _ _ hlead hhead
  have h2 : strcspn (tok ++ c :: rest) d = tok.length :=
    strcspn_run _ _ _ htok (fun x hx => by simp at hx; subst hx; exact Or.inr hcd)
  have hlen : tok.length ≠ 0 := by simpa using hne
  have hpk : peek (pre ++ (lead ++ (tok ++ c :: rest))) (pre.length + lead.length + tok.length)
      = c := by
    have := peek_at (pre ++ lead ++ tok) (c :: rest)
    simp only [List.length_append, List.append_assoc, ← Nat.add_assoc] at this
    rw [this]; rfl
  have hset : (pre ++ (lead ++ (tok ++ c :: rest))).set (pre.length + lead.length + tok.length) NUL
      = pre ++ (lead ++ (tok ++ NUL :: rest)) := by
    have := set_at (pre ++ lead ++ tok) rest c NUL
    simp only [List.append_assoc, List.length_append] at this
    rw [← Nat.add_assoc] at this
    exact this
  simp only [next_token, List.drop_left, h1]
  have hd : List.drop (pre.length + lead.length) (pre ++ (lead ++ (tok ++ c :: rest))) = tok ++ c :: rest := by
    simp
  rw [hd, h2]
  simp [hlen, hpk, hc, hset]


theorem dropWhile_head_false {α : Type} (p : α → Bool) (l : List α) (a : α) (t : List α)
    (h : l.dropWhile p = a :: t) : p a = false := by
  have := List.head?_dropWhile_not p l
  rw [h] at this
  simpa using this

theorem cstr_at2 (pre mid s rest : List Char) (hs : ∀ c ∈ s, c ≠ NUL)
    (hrest : ∀ c, rest.head? = some c → c = NUL) :
    cstr (pre ++ (mid ++ (s ++ rest))) (pre.length + mid.length) = s := by
  have := cstr_at (pre ++ mid) s rest hs hrest
  simpa using this

theorem cstr_at3 (pre mid₁ mid₂ s rest : List Char) (hs : ∀ c ∈ s, c ≠ NUL)
    (hrest : ∀ c, rest.head? = some c → c = NUL) :
    cstr (pre ++ (mid₁ ++ (mid₂ ++ (s ++ rest)))) (pre.length + mid₁.length + mid₂.length) = s := by
  have := cstr_at (pre ++ mid₁ ++ mid₂) s rest hs hrest
  simpa [Nat.add_assoc] using this

/-- The part of memory from `p` on splits into the C string at `p` and a
remainder that is empty or starts with a terminator. -/
theorem drop_eq_cstr_append (buf : List Char) (p : Nat) :
    ∃ r0, buf.drop p = cstr buf p ++ r0 ∧ (∀ c, r0.head? = some c → c = NUL) ∧
      ∀ c ∈ cstr buf p, c ≠ NUL := by
  refine ⟨(buf.drop p).dropWhile (fun c => c != NUL), ?_, ?_, ?_⟩
  · unfold cstr; simp
  · intro c hc
    have := List.head?_dropWhile_not (fun c => c != NUL) (buf.drop p)
    rw [hc] at this
    simpa using this
  · intro c hc
    unfold cstr at hc
    have := List.mem_takeWhile_imp hc
    simpa using this

/-- What one `next_token` call does on a string that holds a non-delimiter
byte: where the token starts, what it is, and where the cursor goes. -/
theorem next_token_spec (buf : List Char) (p : Nat) (d : List Char)
    (h : ∃ c ∈ cstr buf p, c ∉ d) :
    let s := cstr buf p
    let lead := s.takeWhile (fun c => d.contains c)
    let tok := (s.dropWhile (fun c => d.contains c)).takeWhile (fun c => !d.contains c)
    let after := (s.dropWhile (fun c => d.contains c)).dropWhile (fun c => !d.contains c)
    let r := next_token buf (some p) d
    tok ≠ [] ∧ r.1 = some (p + lead.length) ∧ cstr r.2.1 (p + lead.length) = tok ∧
    (after = [] → r.2.2 = none ∧ r.2.1 = buf) ∧
    (∀ c rest, after = c :: rest →
      c ∈ d ∧ r.2.2 = some (p + lead.length + tok.length + 1) ∧
      r.2.1 = buf.set (p + lead.length + tok.length) NUL ∧
      cstr r.2.1 (p + lead.length + tok.length + 1) = rest) := by
  intro s lead tok after r
  obtain ⟨r0, hdrop, hr0, hsnul⟩ := drop_eq_cstr_append buf p
  have hs1 : s = lead ++ (s.dropWhile (fun c => d.contains c)) :=
    (List.takeWhile_append_dropWhile _ s).symm
  have hs2 : s.dropWhile (fun c => d.contains c) = tok ++ after :=
    (List.takeWhile_append_dropWhile _ _).symm
  have hs : s = lead ++ (tok ++ after) := by rw [← hs2]; exact hs1
  have hleadmem : ∀ c ∈ lead, c ≠ NUL ∧ c ∈ d := by
    intro c hc
    refine ⟨hsnul c (by show c ∈ s; rw [hs]; simp [hc]), ?_⟩
    have := List.mem_takeWhile_imp hc
    simpa using this
  have htokmem : ∀ c ∈ tok, c ≠ NUL ∧ c ∉ d := by
    intro c hc
    refine ⟨hsnul c (by show c ∈ s; rw [hs]; simp [hc]), ?_⟩
    have := List.mem_takeWhile_imp hc
    simpa using this
  have haftermem : ∀ c ∈ after, c ≠ NUL := by
    intro c hc
    exact hsnul c (by show c ∈ s; rw [hs]; simp [hc])
  have hne : tok ≠ [] := by
    intro htok
    obtain ⟨c, hcs, hcd⟩ := h
    have hdw : s.dropWhile (fun c => d.contains c) ≠ [] := by
      intro hnil
      rw [List.dropWhile_eq_nil_iff] at hnil
      have := hnil c hcs
      simp at this
      exact hcd this
    have hhd := List.head?_dropWhile_not (fun c => d.contains c) s
    rw [hs2, htok] at hhd hdw
    simp at hdw hhd
    cases hafter : after with
    | nil => exact hdw hafter
    | cons a t =>
      rw [hafter] at hhd
      simp at hhd
      have h2 := dropWhile_head_false (fun c => !d.contains c) _ a t hafter
      simp at h2
      exact hhd h2
  have hp : p ≤ buf.length := by
    by_contra hlt
    have : buf.drop p = [] := List.drop_eq_nil_of_le (by omega)
    have hsn : s = [] := by show cstr buf p = []; unfold cstr; rw [this]; rfl
    obtain ⟨c, hcs, -⟩ := h
    change c ∈ s at hcs
    rw [hsn] at hcs
    exact absurd hcs (List.not_mem_nil c)
  have hprelen : (buf.take p).length = p := by simp [hp]
  have hbuf : buf = buf.take p ++ (lead ++ (tok ++ (after ++ r0))) := by
    have h1 : buf = buf.take p ++ buf.drop p := (List.take_append_drop p buf).symm
    have h2 : buf.drop p = lead ++ (tok ++ (after ++ r0)) := by
      rw [hdrop]; change s ++ r0 = _; rw [hs]; simp
    rw [h2] at h1; exact h1
  refine ⟨hne, ?_, ?_, ?_, ?_⟩
  · cases hafter : after with
    | nil =>
      have := next_token_last (buf.take p) lead tok r0 d hleadmem htokmem hne hr0
      rw [hafter] at hbuf; simp only [List.nil_append] at hbuf
      rw [← hbuf, hprelen] at this
      show (next_token buf (some p) d).1 = _
      rw [this]
    | cons c rest =>
      have hc : c ≠ NUL := haftermem c (by simp [hafter])
      have hcd : c ∈ d := by
        have h2 := dropWhile_head_false (fun c => !d.contains c) _ c rest hafter
        simpa using h2
      have := next_token_mid (buf.take p) lead tok (rest ++ r0) d c hleadmem htokmem hne hc hcd
      rw [hafter] at hbuf; simp only [List.cons_append] at hbuf
      rw [← hbuf, hprelen] at this
      show (next_token buf (some p) d).1 = _
      rw [this]
  · cases hafter : after with
    | nil =>
      have := next_token_last (buf.take p) lead tok r0 d hleadmem htokmem hne hr0
      rw [hafter] at hbuf; simp only [List.nil_append] at hbuf
      rw [← hbuf, hprelen] at this
      show cstr (next_token buf (some p) d).2.1 _ = _
      rw [this]
      show cstr buf (p + lead.length) = tok
      have h3 := cstr_at2 (buf.take p) lead tok r0 (fun c hc => (htokmem c hc).1) hr0
      rw [← hbuf, hprelen] at h3
      exact h3
    | cons c rest =>
      have hc : c ≠ NUL := haftermem c (by simp [hafter])
      have hcd : c ∈ d := by
        have h2 := dropWhile_head_false (fun c => !d.contains c) _ c rest hafter
        simpa using h2
      have := next_token_mid (buf.take p) lead tok (rest ++ r0) d c hleadmem htokmem hne hc hcd
      rw [hafter] at hbuf; simp only [List.cons_append] at hbuf
      rw [← hbuf, hprelen] at this
      show cstr (next_token buf (some p) d).2.1 _ = _
      rw [this]
      have h3 := cstr_at2 (buf.take p) lead tok (NUL :: (rest ++ r0))
        (fun c hc => (htokmem c hc).1) (by simp)
      rw [hprelen] at h3
      exact h3
  · intro hafter
    have := next_token_last (buf.take p) lead tok r0 d hleadmem htokmem hne hr0
    rw [hafter] at hbuf; simp only [List.nil_append] at hbuf
    rw [← hbuf, hprelen] at this
    show (next_token buf (some p) d).2.2 = _ ∧ (next_token buf (some p) d).2.1 = _
    rw [this]
    exact ⟨rfl, rfl⟩
  · intro c rest hafter
    have hc : c ≠ NUL := haftermem c (by simp [hafter])
    have hcd : c ∈ d := by
      have h2 := dropWhile_head_false (fun c => !d.contains c) _ c rest hafter
      simpa using h2
    have := next_token_mid (buf.take p) lead tok (rest ++ r0) d c hleadmem htokmem hne hc hcd
    rw [hafter] at hbuf; simp only [List.cons_append] at hbuf
    have hset := set_at (buf.take p ++ lead ++ tok) (rest ++ r0) c NUL
    simp only [List.append_assoc, List.length_append, hprelen, ← hbuf] at hset
    rw [← hbuf, hprelen] at this
    show c ∈ d ∧ (next_token buf (some p) d).2.2 = _ ∧ (next_token buf (some p) d).2.1 = _ ∧
      cstr (next_token buf (some p) d).2.1 _ = _
    rw [this]
    refine ⟨hcd, rfl, ?_, ?_⟩
    · simp only [← Nat.add_assoc] at hset; exact hset.symm
    · have h3 := cstr_at3 (buf.take p) lead (tok ++ [NUL]) rest r0
        (fun c hc => haftermem c (by simp [hafter, hc])) hr0
      simp only [List.append_assoc, List.length_append, hprelen, List.singleton_append,
        List.length_singleton, ← Nat.add_assoc] at h3
      exact h3


theorem next_token_calls_finished (buf : List Char) (ds : List (List Char)) :
    next_token_calls buf none ds = (List.replicate ds.length none, buf, none) := by
  induction ds with
  | nil => rfl
  | cons d ds ih => simp [next_token_calls, next_token, ih, List.replicate_succ]

theorem next_token_all_delims (buf : List Char) (p : Nat) (d : List Char)
    (h : ∀ c ∈ cstr buf p, c ∈ d) : next_token buf (some p) d = (none, buf, none) := by
  obtain ⟨r0, hdrop, hr0, hsnul⟩ := drop_eq_cstr_append buf p
  have h1 : strspn (buf.drop p) d = (cstr buf p).length := by
    rw [hdrop]
    exact strspn_run _ _ _ (fun c hc => ⟨hsnul c hc, h c hc⟩) (fun c hc => Or.inl (hr0 c hc))
  have h2 : buf.drop (p + (cstr buf p).length) = r0 := by
    rw [← List.drop_drop, hdrop, List.drop_left]
  have h3 : strcspn r0 d = 0 := by
    have := strcspn_run [] r0 d (by simp) (fun c hc => Or.inl (hr0 c hc))
    simpa using this
  simp [next_token, h1, h2, h3]


/-! ## Facts about `lineread` and `atol` -/

theorem lineread_loop_line (ln : List Char) (hln : ∀ c ∈ ln, c ≠ '\n') :
    ∀ (fuel : Nat) (more pre old : List Char), ln.length + 1 ≤ fuel →
      ln.length + 1 ≤ old.length →
      lineread_loop fuel (ln ++ '\n' :: more) (pre ++ old) pre.length =
        (((pre.length + ln.length + 1 : Nat) : Int), more,
          pre ++ (ln ++ '\n' :: old.drop (ln.length + 1))) := by
  induction ln with
  | nil =>
    intro fuel more pre old hf ho
    cases fuel with
    | zero => simp at hf
    | succ n =>
      cases old with
      | nil => simp at ho
      | cons o os => simp [lineread_loop, set_at]
  | cons a t ih =>
    intro fuel more pre old hf ho
    have ha : a ≠ '\n' := hln a (by simp)
    have ht : ∀ c ∈ t, c ≠ '\n' := fun c hc => hln c (by simp [hc])
    cases fuel with
    | zero => simp at hf
    | succ n =>
      cases old with
      | nil => simp at ho
      | cons o os =>
        have := ih ht n more (pre ++ [a]) os (by simpa using hf) (by simpa using ho)
        simp only [List.append_assoc, List.singleton_append, List.length_append,
          List.length_singleton] at this
        simp only [lineread_loop, List.cons_append, set_at, ha, if_false, this,
          List.length_cons, List.drop_succ_cons]
        congr 1
        push_cast
        omega

/-- Reading a line that fits: the bytes up to and including the newline are
stored at the start of the buffer and their number is returned. -/
theorem lineread_line (ln more buf : List Char) (sz : Nat) (hln : ∀ c ∈ ln, c ≠ '\n')
    (hsz : ln.length + 1 ≤ sz) (hbuf : ln.length + 1 ≤ buf.length) :
    lineread (ln ++ '\n' :: more) buf sz =
      (((ln.length + 1 : Nat) : Int), more, ln ++ '\n' :: buf.drop (ln.length + 1)) := by
  have := lineread_loop_line ln hln sz more [] buf hsz hbuf
  simpa [lineread] using this

theorem one_lineread_line (ln more buf : List Char) (sz : Nat) (hln : ∀ c ∈ ln, c ≠ '\n')
    (hsz : ln.length + 1 ≤ sz) (hbuf : ln.length + 1 ≤ buf.length) :
    one_lineread (ln ++ '\n' :: more) buf sz =
      (((ln.length + 1 : Nat) : Int), more, ln ++ NUL :: buf.drop (ln.length + 1)) := by
  have h := lineread_line ln more buf sz hln hsz hbuf
  have hpos : ¬ (((ln.length + 1 : Nat) : Int) ≤ 0) := by push_cast; omega
  have hidx : ((((ln.length + 1 : Nat) : Int)) - 1).toNat = ln.length := by
    push_cast; simp
  simp only [one_lineread, h, hpos, if_false, hidx, set_at]

theorem length_stack_array (n : Nat) (junk : List Char) : (stack_array n junk).length = n := by
  simp [stack_array]

theorem isdigit_not_special (c : Char) (h : isdigit c = true) :
    isspace c = false ∧ c ≠ '-' ∧ c ≠ '+' ∧ c ≠ NUL ∧ c ≠ ' ' ∧ c ≠ '\n' := by
  have h1 : 48 ≤ c.toNat := by
    simp only [isdigit, Bool.and_eq_true, decide_eq_true_eq] at h; exact h.1
  have ne : ∀ d : Char, d.toNat < 48 → c ≠ d := by
    intro d hd hcd; subst hcd; omega
  refine ⟨?_, ne _ (by decide), ne _ (by decide), ne _ (by decide), ne _ (by decide),
    ne _ (by decide)⟩
  simp only [isspace, Bool.or_eq_false_iff, beq_eq_false_iff_ne, ne_eq]
  exact ⟨⟨⟨⟨⟨ne _ (by decide), ne _ (by decide)⟩, ne _ (by decide)⟩, ne _ (by decide)⟩,
    ne _ (by decide)⟩, ne _ (by decide)⟩

theorem strtol_digits_eq (ds : List Char) (hds : ∀ c ∈ ds, isdigit c = true) (acc : Nat) :
    strtol_digits ds acc = ds.foldl (fun n c => 10 * n + (c.toNat - 48)) acc := by
  induction ds generalizing acc with
  | nil => rfl
  | cons c cs ih =>
    have hc : isdigit c = true := hds c (by simp)
    have hcs : ∀ x ∈ cs, isdigit x = true := fun x hx => hds x (by simp [hx])
    simp only [strtol_digits, hc, if_true, ih hcs, List.foldl_cons]

theorem atol_counter (ds : List Char) (h : is_counter ds) (hmax : (decimal ds : Int) ≤ LONG_MAX) :
    atol ds = (decimal ds : Int) := by
  obtain ⟨hne, hds⟩ := h
  cases ds with
  | nil => exact absurd rfl hne
  | cons c cs =>
    have hc := isdigit_not_special c (hds c (by simp))
    have hval : strtol_value (c :: cs) = (decimal (c :: cs) : Int) := by
      have h1 : (c :: cs).dropWhile isspace = c :: cs := by
        simp [List.dropWhile_cons, hc.1]
      simp only [strtol_value, h1, List.head?_cons, Option.some.injEq, hc.2.1, hc.2.2.1,
        if_false, strtol_digits_eq (c :: cs) hds 0, decimal]
    unfold atol
    rw [hval]
    have : LONG_MIN ≤ (decimal (c :: cs) : Int) := by
      have : (0 : Int) ≤ (decimal (c :: cs) : Int) := Int.ofNat_nonneg _
      unfold LONG_MIN; omega
    simp [min_eq_right hmax, max_eq_right this]

/-! ## Facts about `pfs_cpu_usage` -/

theorem tok_step (P : List Char) (k : Nat) (tok rest : List Char) (hne : tok ≠ [])
    (htok : ∀ c ∈ tok, c ≠ NUL ∧ c ∉ [' ']) :
    next_token (P ++ (List.replicate k ' ' ++ (tok ++ ' ' :: rest))) (some P.length) [' '] =
      (some (P.length + k), (P ++ (List.replicate k ' ' ++ (tok ++ [NUL]))) ++ rest,
        some (P ++ (List.replicate k ' ' ++ (tok ++ [NUL]))).length) := by
  have h := next_token_mid P (List.replicate k ' ') tok rest [' '] ' '
    (by intro c hc; rw [List.eq_of_mem_replicate hc]; exact ⟨by decide, by simp⟩)
    htok hne (by decide) (by simp)
  rw [h]
  simp [Nat.add_assoc]

theorem tok_last (P : List Char) (k : Nat) (tok g : List Char) (hne : tok ≠ [])
    (htok : ∀ c ∈ tok, c ≠ NUL ∧ c ∉ [' ']) :
    next_token (P ++ (List.replicate k ' ' ++ (tok ++ NUL :: g))) (some P.length) [' '] =
      (some (P.length + k), P ++ (List.replicate k ' ' ++ (tok ++ NUL :: g)), none) := by
  have h := next_token_last P (List.replicate k ' ') tok (NUL :: g) [' ']
    (by intro c hc; rw [List.eq_of_mem_replicate hc]; exact ⟨by decide, by simp⟩)
    htok hne (by simp)
  rw [h]
  simp

theorem tok_frame (A X : List Char) (p : Nat) (t : List Char)
    (h : ∃ rest, A.drop p = t ++ NUL :: rest) : ∃ rest, (A ++ X).drop p = t ++ NUL :: rest := by
  obtain ⟨rest, hrest⟩ := h
  have hp : p ≤ A.length := by
    by_contra hlt
    have : A.drop p = [] := List.drop_eq_nil_of_le (by omega)
    rw [this] at hrest
    simp at hrest
  exact ⟨rest ++ X, by rw [List.drop_append_of_le_length hp, hrest]; simp⟩

theorem tok_base (P : List Char) (k : Nat) (tok : List Char) :
    ∃ rest, (P ++ (List.replicate k ' ' ++ (tok ++ [NUL]))).drop (P.length + k)
      = tok ++ NUL :: rest :=
  ⟨[], by simp⟩

theorem tok_base_last (P : List Char) (k : Nat) (tok g : List Char) :
    ∃ rest, (P ++ (List.replicate k ' ' ++ (tok ++ NUL :: g))).drop (P.length + k)
      = tok ++ NUL :: rest :=
  ⟨g, by simp⟩

theorem cstr_of_tok (buf : List Char) (p : Nat) (t : List Char)
    (h : ∃ rest, buf.drop p = t ++ NUL :: rest) (ht : ∀ c ∈ t, c ≠ NUL) : cstr buf p = t := by
  obtain ⟨rest, hrest⟩ := h
  unfold cstr
  rw [hrest]
  apply takeWhile_append_stop
  · intro a ha; simpa using ht a ha
  · intro a ha; simp at ha; simp [← ha]

theorem fields_text_tail (fs : List (Nat × List Char)) (tail : List Char) :
    fields_text fs tail = fields_text fs [] ++ tail := by
  induction fs with
  | nil => rfl
  | cons f fs ih => simp [fields_text, ih]

theorem stat_line_tail (fs : List (Nat × List Char)) (tail : List Char) :
    stat_line fs tail = stat_line fs [] ++ tail := by
  simp [stat_line, fields_text_tail fs tail]

theorem fields_text_no_newline (fs : List (Nat × List Char)) (hfs : ∀ f ∈ fs, is_counter f.2) :
    ∀ c ∈ fields_text fs [], c ≠ '\n' := by
  induction fs with
  | nil => simp [fields_text]
  | cons f fs ih =>
    intro c hc
    simp only [fields_text, List.mem_cons, List.mem_append] at hc
    rcases hc with h | h | h | h
    · subst h; decide
    · rw [List.eq_of_mem_replicate h]; decide
    · exact (isdigit_not_special c ((hfs f (by simp)).2 c h)).2.2.2.2.2
    · exact ih (fun g hg => hfs g (by simp [hg])) c h

theorem counter_tok (ds : List Char) (h : is_counter ds) :
    ds ≠ [] ∧ (∀ c ∈ ds, c ≠ NUL ∧ c ∉ [' ']) ∧ ∀ c ∈ ds, c ≠ NUL := by
  refine ⟨h.1, fun c hc => ?_, fun c hc => ?_⟩
  · have := isdigit_not_special c (h.2 c hc)
    exact ⟨this.2.2.2.1, by simp [this.2.2.2.2.1]⟩
  · exact (isdigit_not_special c (h.2 c hc)).2.2.2.1

theorem wrap_long_id (x : Int) (h1 : LONG_MIN ≤ x) (h2 : x ≤ LONG_MAX) : wrap_long x = x := by
  unfold LONG_MIN at h1
  unfold LONG_MAX at h2
  unfold wrap_long
  omega

theorem atol_at_tok (tok : List Char) (k : Nat) (hc : is_counter tok)
    (hmax : (decimal tok : Int) ≤ LONG_MAX) {buf : List Char} {n : Nat}
    (h : ∃ rest, buf.drop (n + k) = tok ++ NUL :: rest) :
    atol_at buf (some (n + k)) = some (decimal tok : Int) := by
  simp only [atol_at, Option.map_some']
  rw [cstr_of_tok buf (n + k) tok h (counter_tok tok hc).2.2, atol_counter tok hc hmax]

theorem list_of_length_ten {α : Type} (l : List α) (h : l.length = 10) :
    ∃ a b c d e f g h i j, l = [a, b, c, d, e, f, g, h, i, j] := by
  match l, h with
  | [a, b, c, d, e, f, g, h, i, j], _ => exact ⟨a, b, c, d, e, f, g, h, i, j, rfl⟩

/-- The whole of `pfs_cpu_usage` on a line that fits the 100-byte read and
whose counters add up within the range of `long`. -/
theorem pfs_cpu_usage_eval (fs : List (Nat × List Char)) (more junk : List Char)
    (prev curr : cpu_stats) (hlen : fs.length = 10) (hfs : ∀ f ∈ fs, is_counter f.2)
    (hfit : (stat_line fs []).length + 1 ≤ 100) (hsum : counters_sum fs ≤ LONG_MAX) :
    pfs_cpu_usage (some (stat_line fs ('\n' :: more))) junk prev curr =
      some (cpu_usage_value (counters_sum fs) (counter_at fs 3) prev curr) := by
  have hnl : ∀ c ∈ stat_line fs [], c ≠ '\n' := by
    intro c hc
    simp only [stat_line, List.mem_cons] at hc
    rcases hc with h | h | h | h
    · subst h; decide
    · subst h; decide
    · subst h; decide
    · exact fields_text_no_newline fs hfs c h
  have hread := one_lineread_line (stat_line fs []) more (stack_array 200 junk) 100 hnl hfit
    (by rw [length_stack_array]; omega)
  rw [← stat_line_tail, ← stat_line_tail] at hread
  generalize (stack_array 200 junk).drop ((stat_line fs []).length + 1) = g at hread
  obtain ⟨f1, f2, f3, f4, f5, f6, f7, f8, f9, f10, rfl⟩ := list_of_length_ten fs hlen
  have c1 := counter_tok f1.2 (hfs f1 (by simp))
  have c2 := counter_tok f2.2 (hfs f2 (by simp))
  have c3 := counter_tok f3.2 (hfs f3 (by simp))
  have c4 := counter_tok f4.2 (hfs f4 (by simp))
  have c5 := counter_tok f5.2 (hfs f5 (by simp))
  have c6 := counter_tok f6.2 (hfs f6 (by simp))
  have c7 := counter_tok f7.2 (hfs f7 (by simp))
  have c8 := counter_tok f8.2 (hfs f8 (by simp))
  have c9 := counter_tok f9.2 (hfs f9 (by simp))
  have c10 := counter_tok f10.2 (hfs f10 (by simp))
  have h0 : ∀ R : List Char, next_token ('c' :: 'p' :: 'u' :: ' ' :: R) (some 0) [' '] =
      (some (([] : List Char).length + 0),
        (([] : List Char) ++ (List.replicate 0 ' ' ++ (['c', 'p', 'u'] ++ [NUL]))) ++ R,
        some (([] : List Char) ++ (List.replicate 0 ' ' ++ (['c', 'p', 'u'] ++ [NUL]))).length) :=
    fun R => tok_step [] 0 ['c', 'p', 'u'] R (by simp) (by decide)
  simp only [pfs_cpu_usage, hread]
  simp only [stat_line, fields_text, h0,
    tok_step _ _ _ _ c1.1 c1.2.1, tok_step _ _ _ _ c2.1 c2.2.1, tok_step _ _ _ _ c3.1 c3.2.1,
    tok_step _ _ _ _ c4.1 c4.2.1, tok_step _ _ _ _ c5.1 c5.2.1, tok_step _ _ _ _ c6.1 c6.2.1,
    tok_step _ _ _ _ c7.1 c7.2.1, tok_step _ _ _ _ c8.1 c8.2.1, tok_step _ _ _ _ c9.1 c9.2.1,
    tok_last _ _ _ _ c10.1 c10.2.1]
  have hnn : ∀ ds : List Char, (0 : Int) ≤ (decimal ds : Int) := fun ds => Int.ofNat_nonneg _
  have n1 := hnn f1.2
  have n2 := hnn f2.2
  have n3 := hnn f3.2
  have n4 := hnn f4.2
  have n5 := hnn f5.2
  have n6 := hnn f6.2
  have n7 := hnn f7.2
  have n8 := hnn f8.2
  have n9 := hnn f9.2
  have n10 := hnn f10.2
  simp only [counters_sum, List.map_cons, List.map_nil, List.sum_cons, List.sum_nil] at hsum
  rw [atol_at_tok f1.2 f1.1 (hfs f1 (by simp)) (by omega),
    atol_at_tok f2.2 f2.1 (hfs f2 (by simp)) (by omega),
    atol_at_tok f3.2 f3.1 (hfs f3 (by simp)) (by omega),
    atol_at_tok f4.2 f4.1 (hfs f4 (by simp)) (by omega),
    atol_at_tok f5.2 f5.1 (hfs f5 (by simp)) (by omega),
    atol_at_tok f6.2 f6.1 (hfs f6 (by simp)) (by omega),
    atol_at_tok f7.2 f7.1 (hfs f7 (by simp)) (by omega),
    atol_at_tok f8.2 f8.1 (hfs f8 (by simp)) (by omega),
    atol_at_tok f9.2 f9.1 (hfs f9 (by simp)) (by omega),
    atol_at_tok f10.2 f10.1 (hfs f10 (by simp)) (by omega)]
  · have htot : wrap_long ((decimal f1.2 : Int) + decimal f2.2 + decimal f3.2 + decimal f4.2
        + decimal f5.2 + decimal f6.2 + decimal f8.2 + decimal f7.2 + decimal f9.2
        + decimal f10.2) = counters_sum [f1, f2, f3, f4, f5, f6, f7, f8, f9, f10] := by
      rw [wrap_long_id _ (by unfold LONG_MIN; omega) (by omega)]
      simp only [counters_sum, List.map_cons, List.map_nil, List.sum_cons, List.sum_nil]
      omega
    have hidle : counter_at [f1, f2, f3, f4, f5, f6, f7, f8, f9, f10] 3 = (decimal f4.2 : Int) :=
      rfl
    simp only [htot, hidle, cpu_usage_value]
    split_ifs <;> rfl
  all_goals
    repeat (first
      | with_reducible exact tok_base _ _ _
      | with_reducible exact tok_base_last _ _ _ _
      | with_reducible apply tok_frame)

/-- The value computed by `pfs_cpu_usage` when both deltas are positive. -/
theorem cpu_usage_value_pos (total idle : Int) (prev curr : cpu_stats)
    (hidle : 0 < idle - prev.idle) (htotal : 0 < total - prev.total)
    (hi : idle - prev.idle ≤ LONG_MAX) (ht : total - prev.total ≤ LONG_MAX) :
    cpu_usage_value total idle prev curr =
      (CDouble.fin (1 - ((idle - prev.idle : Int) : ℚ) / ((total - prev.total : Int) : ℚ)),
        prev, ⟨idle, total⟩) := by
  have w1 : wrap_long (idle - prev.idle) = idle - prev.idle :=
    wrap_long_id _ (by unfold LONG_MIN; omega) hi
  have w2 : wrap_long (total - prev.total) = total - prev.total :=
    wrap_long_id _ (by unfold LONG_MIN; omega) ht
  have hq : ((total - prev.total : Int) : ℚ) ≠ 0 := by
    have : (total - prev.total : Int) ≠ 0 := by omega
    exact_mod_cast this
  have h1 : ¬ (idle - prev.idle < 0 ∨ total - prev.total < 0) := by omega
  simp only [cpu_usage_value, w1, w2, CDouble.ofLong, CDouble.isnan, CDouble.div, CDouble.sub,
    h1, hq, if_false, Bool.false_eq_true]


/-- Whatever branch is taken, the arithmetic of `pfs_cpu_usage` leaves `prev`
alone and stores the two sums in `curr`. -/
theorem cpu_usage_value_snapshots (total idle : Int) (prev curr : cpu_stats) :
    (cpu_usage_value total idle prev curr).2 = (prev, ⟨idle, total⟩) := by
  simp only [cpu_usage_value, CDouble.ofLong, CDouble.isnan, Bool.false_eq_true, if_false]
  split_ifs <;> rfl

/-! ## Facts about the line loop of `pfs_tasks` -/

/-- A token that starts with the byte `c0`: wherever it ends, the call returns
its start, leaves the bytes before it alone, and leaves a terminator, or the
end of memory, right after it. -/
theorem next_token_run (pre lead d : List Char) (c0 : Char) (M : List Char)
    (hlead : ∀ c ∈ lead, c ≠ NUL ∧ c ∈ d) (hc0 : c0 ≠ NUL ∧ c0 ∉ d) :
    ∃ S X ptr, next_token (pre ++ (lead ++ (c0 :: M))) (some pre.length) d =
        (some (pre.length + lead.length), pre ++ (lead ++ (c0 :: S ++ X)), ptr) ∧
      (∀ c ∈ S, c ≠ NUL ∧ c ∉ d) ∧ (∀ c, X.head? = some c → c = NUL) ∧
      S = M.takeWhile (fun c => c != NUL && !d.contains c) ∧
      (S ++ X).length = M.length := by
  obtain ⟨S, hSdef⟩ : ∃ S, S = M.takeWhile (fun c => c != NUL && !d.contains c) := ⟨_, rfl⟩
  obtain ⟨Y, hYdef⟩ : ∃ Y, Y = M.dropWhile (fun c => c != NUL && !d.contains c) := ⟨_, rfl⟩
  have hM : M = S ++ Y := by
    rw [hSdef, hYdef]; exact (List.takeWhile_append_dropWhile _ M).symm
  have hS : ∀ c ∈ S, c ≠ NUL ∧ c ∉ d := by
    intro c hc
    rw [hSdef] at hc
    have := List.mem_takeWhile_imp hc
    simpa using this
  have htok : ∀ c ∈ c0 :: S, c ≠ NUL ∧ c ∉ d := by
    intro c hc
    rcases List.mem_cons.mp hc with h | h
    · subst h; exact hc0
    · exact hS c h
  cases Y with
  | nil =>
    have := next_token_last pre lead (c0 :: S) [] d hlead htok (by simp) (by simp)
    refine ⟨S, [], none, ?_, hS, by simp, hSdef, by rw [hM]⟩
    rw [hM]
    exact this
  | cons y Y =>
    have hy := dropWhile_head_false _ _ _ _ hYdef.symm
    by_cases hyn : y = NUL
    · have := next_token_last pre lead (c0 :: S) (y :: Y) d hlead htok (by simp) (by simp [hyn])
      refine ⟨S, y :: Y, none, ?_, hS, by simp [hyn], hSdef, by rw [hM]⟩
      rw [hM]
      exact this
    · have hyd : y ∈ d := by simpa [hyn] using hy
      have := next_token_mid pre lead (c0 :: S) Y d y hlead htok (by simp) hyn hyd
      refine ⟨S, NUL :: Y, some (pre.length + lead.length + (c0 :: S).length + 1), ?_, hS,
        by simp, hSdef, by rw [hM]; simp⟩
      rw [hM]
      exact this

theorem length_next_token (buf : List Char) (p : Option Nat) (d : List Char) :
    (next_token buf p d).2.1.length = buf.length := by
  cases p with
  | none => rfl
  | some q =>
    simp only [next_token]
    split_ifs <;> simp

/-- The first token of a line `label:rest` under the delimiters `":\t"`. -/
theorem first_token (label rest : List Char) (hne : label ≠ [])
    (hl : ∀ c ∈ label, c ≠ NUL ∧ c ∉ [':', '\t']) :
    next_token (label ++ ':' :: rest) (some 0) [':', '\t'] =
      (some 0, label ++ NUL :: rest, some (label.length + 1)) := by
  have := next_token_mid [] [] label rest [':', '\t'] ':' (by simp) hl hne (by decide)
    (by simp)
  simpa using this

theorem cstr_zero (s rest : List Char) (hs : ∀ c ∈ s, c ≠ NUL) :
    cstr (s ++ NUL :: rest) 0 = s := by
  have := cstr_at [] s (NUL :: rest) hs (by simp)
  simpa using this

theorem strcmp_eq_some (buf : List Char) (p : Nat) (s : List Char) :
    strcmp_eq buf (some p) s = some (decide (cstr buf p = s)) := rfl

theorem state_block_skip (d_name : List Char) (v : line_vars)
    (h : strcmp_eq v.line v.curr "State".toList = some false) :
    state_block d_name v = some v := by
  simp only [state_block, h]

theorem uid_block_skip (v : line_vars)
    (h : strcmp_eq v.line v.curr "Uid".toList = some false) : uid_block v = some v := by
  simp only [uid_block, h]

theorem name_block_skip (v : line_vars)
    (h : strcmp_eq v.line v.curr "Name".toList = some false) : name_block v = some v := by
  simp only [name_block, h]

theorem count_block_spec (v : line_vars) :
    (count_block v).2 = decide (v.loc.count = 3) ∧
    tally_buckets (count_block v).1 = tally_buckets v.tally ∧
    (count_block v).1.total = v.tally.total := by
  unfold count_block
  split_ifs with h1 h2 <;> simp [h1, tally_buckets]

theorem uid_block_digit (pre M : List Char) (c0 : Char) (hc0 : isdigit c0 = true)
    (curr : Option Nat) (loc : task_locals) (t : task_tally)
    (hcurr : strcmp_eq (pre ++ ('\t' :: c0 :: M)) curr "Uid".toList = some true) :
    ∃ v, uid_block ⟨curr, some pre.length, pre ++ ('\t' :: c0 :: M), loc, t⟩ = some v ∧
      v.loc.count = loc.count + 1 ∧ v.tally = t ∧
      v.line.length = (pre ++ ('\t' :: c0 :: M)).length ∧
      strcmp_eq v.line v.curr "Name".toList = some false := by
  have hd := isdigit_not_special c0 hc0
  have hc0' : c0 ≠ NUL ∧ c0 ∉ [':', '\t'] := by
    refine ⟨hd.2.2.2.1, ?_⟩
    have h1 : 48 ≤ c0.toNat := by
      simp only [isdigit, Bool.and_eq_true, decide_eq_true_eq] at hc0; exact hc0.1
    have h2 : c0.toNat ≤ 57 := by
      simp only [isdigit, Bool.and_eq_true, decide_eq_true_eq] at hc0; exact hc0.2
    intro hmem
    simp only [List.mem_cons, List.mem_singleton, List.not_mem_nil, or_false] at hmem
    rcases hmem with h | h <;> (subst h; revert h1 h2; decide)
  obtain ⟨S, X, ptr, hnt, hS, hX, -, hlen⟩ :=
    next_token_run pre ['\t'] [':', '\t'] c0 M (by simp; decide) hc0'
  have hnt' : next_token (pre ++ ('\t' :: c0 :: M)) (some pre.length) [':', '\t'] =
      (some (pre.length + 1), pre ++ ('\t' :: c0 :: (S ++ X)), ptr) := by
    simpa using hnt
  have hcstr : cstr (pre ++ ('\t' :: c0 :: (S ++ X))) (pre.length + 1) = c0 :: S := by
    have := cstr_at2 pre ['\t'] (c0 :: S) X
      (by intro c hc; rcases List.mem_cons.mp hc with h | h
          · subst h; exact hc0'.1
          · exact (hS c h).1) hX
    simpa using this
  refine ⟨⟨some (pre.length + 1), ptr, pre ++ ('\t' :: c0 :: (S ++ X)),
    { loc with uid := if loc.is_sleeping = false then atoi (c0 :: S) else loc.uid,
               count := loc.count + 1 }, t⟩, ?_, rfl, rfl, ?_, ?_⟩
  · simp only [uid_block, hcurr, hnt', atoi_at, Option.map_some', hcstr]
    split_ifs <;> rfl
  · simp only [List.length_append, List.length_cons] at hlen ⊢
    omega
  · simp only [strcmp_eq_some, hcstr]
    have : c0 ≠ 'N' := by
      have h2 : c0.toNat ≤ 57 := by
        simp only [isdigit, Bool.and_eq_true, decide_eq_true_eq] at hc0; exact hc0.2
      intro h; subst h; revert h2; decide
    simp [this]

theorem name_block_name (pre value g : List Char) (hv : value_ok value)
    (hn : name_value_ok value) (curr : Option Nat) (loc : task_locals) (t : task_tally)
    (hcurr : strcmp_eq (pre ++ ('\t' :: (value ++ '\n' :: g))) curr "Name".toList = some true) :
    ∃ v, name_block ⟨curr, some pre.length, pre ++ ('\t' :: (value ++ '\n' :: g)), loc, t⟩
        = some v ∧
      v.loc.count = loc.count + 1 ∧ v.tally = t ∧
      v.line.length = (pre ++ ('\t' :: (value ++ '\n' :: g))).length := by
  obtain ⟨hne, hlen, htab⟩ := hn
  have htok : ∀ c ∈ value, c ≠ NUL ∧ c ∉ ['\t', '\n'] := by
    intro c hc
    refine ⟨(hv c hc).1, ?_⟩
    simp only [List.mem_cons, List.mem_singleton, List.not_mem_nil, or_false, not_or]
    exact ⟨fun h => htab (h ▸ hc), (hv c hc).2⟩
  have hnt := next_token_mid pre ['\t'] value g ['\t', '\n'] '\n' (by simp; decide) htok hne
    (by decide) (by simp)
  have hnt' : next_token (pre ++ ('\t' :: (value ++ '\n' :: g))) (some pre.length) ['\t', '\n'] =
      (some (pre.length + 1), pre ++ ('\t' :: (value ++ NUL :: g)),
        some (pre.length + 1 + value.length + 1)) := by
    simpa using hnt
  have hcstr : cstr (pre ++ ('\t' :: (value ++ NUL :: g))) (pre.length + 1) = value := by
    have := cstr_at2 pre ['\t'] value (NUL :: g) (fun c hc => (htok c hc).1) (by simp)
    simpa using this
  have hfit : value.length < 26 := by omega
  refine ⟨⟨some (pre.length + 1), some (pre.length + 1 + value.length + 1),
    pre ++ ('\t' :: (value ++ NUL :: g)),
    { loc with name := if loc.is_sleeping = false then some (value.take 25) else loc.name,
               count := loc.count + 1 }, t⟩, ?_, rfl, rfl, ?_⟩
  · simp only [name_block, hcurr, hnt', strcpy_into, hcstr, hfit, if_true, Option.map_some']
    split_ifs <;> rfl
  · simp

theorem t_description_shape (rest : List Char) (h : t_description_ok rest = true) :
    ∃ d rest2, rest = ' ' :: '(' :: d :: rest2 ∧ d ∉ [' ', '(', ':', '\t'] := by
  match rest, h with
  | a :: b :: d :: rest2, h =>
    simp only [t_description_ok, Bool.and_eq_true, beq_iff_eq, Bool.not_eq_true',
      List.contains_eq_any_beq, List.any_eq_false] at h
    obtain ⟨⟨ha, hb⟩, hd⟩ := h
    subst ha; subst hb
    refine ⟨d, rest2, rfl, ?_⟩
    intro hmem
    have := hd d hmem
    simp at this

theorem peek_after_tab (pre rest : List Char) (c0 : Char) :
    peek (pre ++ ('\t' :: c0 :: rest)) (pre.length + 1) = c0 := by
  have := peek_at (pre ++ ['\t']) (c0 :: rest)
  simpa using this

theorem cstr_after_tab (pre s X : List Char) (hs : ∀ c ∈ s, c ≠ NUL)
    (hX : ∀ c, X.head? = some c → c = NUL) :
    cstr (pre ++ ('\t' :: (s ++ X))) (pre.length + 1) = s := by
  have := cstr_at2 pre ['\t'] s X hs hX
  simpa using this

/-- The two inner tokens of the `T` branch, on a State value that continues
with ` (d`: the second one is not null. -/
theorem t_branch_tokens (pre S2 X : List Char) (d : Char) (hd : d ∉ [' ', '(', ':', '\t'])
    (hdn : d ≠ NUL) :
    ∃ S3 X3 ptr3,
      next_token (pre ++ ('\t' :: 'T' :: ' ' :: '(' :: d :: (S2 ++ X))) (some (pre.length + 1)) [' ']
        = (some (pre.length + 1), pre ++ ('\t' :: 'T' :: NUL :: '(' :: d :: (S2 ++ X)),
            some (pre.length + 3)) ∧
      next_token (pre ++ ('\t' :: 'T' :: NUL :: '(' :: d :: (S2 ++ X))) (some (pre.length + 3))
          ['(', ' ']
        = (some (pre.length + 4), pre ++ ('\t' :: 'T' :: NUL :: '(' :: d :: (S3 ++ X3)), ptr3) ∧
      (∀ c ∈ S3, c ≠ NUL) ∧ (∀ c, X3.head? = some c → c = NUL) ∧
      (S3 ++ X3).length = (S2 ++ X).length := by
  have h1 := next_token_mid (pre ++ ['\t']) [] ['T'] ('(' :: d :: (S2 ++ X)) [' '] ' '
    (by simp) (by decide) (by simp) (by decide) (by simp)
  have hd' : d ≠ NUL ∧ d ∉ ['(', ' '] := by
    refine ⟨hdn, ?_⟩
    intro h
    apply hd
    simp only [List.mem_cons, List.mem_singleton, List.not_mem_nil, or_false] at h ⊢
    rcases h with h | h
    · exact Or.inr (Or.inl h)
    · exact Or.inl h
  obtain ⟨S3, X3, ptr3, h2, hS3, hX3, -, hlen⟩ :=
    next_token_run (pre ++ ['\t', 'T', NUL]) ['('] ['(', ' '] d (S2 ++ X) (by simp; decide) hd'
  refine ⟨S3, X3, ptr3, ?_, ?_, fun c hc => (hS3 c hc).1, hX3, hlen⟩
  · simpa using h1
  · simpa using h2

theorem state_block_code (d_name pre M : List Char) (c0 : Char) (hc0 : c0 ∈ state_codes)
    (hT : c0 = 'T' → ∃ d rest2, M = ' ' :: '(' :: d :: rest2 ∧ d ∉ [' ', '(', ':', '\t'] ∧ d ≠ NUL)
    (curr : Option Nat) (loc : task_locals) (t : task_tally)
    (hcurr : strcmp_eq (pre ++ ('\t' :: c0 :: M)) curr "State".toList = some true) :
    ∃ v, state_block d_name ⟨curr, some pre.length, pre ++ ('\t' :: c0 :: M), loc, t⟩ = some v ∧
      v.loc.count = loc.count + 1 ∧
      tally_buckets v.tally = (tally_buckets t).add (bucket_of_code c0) ∧
      v.tally.total = t.total ∧
      v.line.length = (pre ++ ('\t' :: c0 :: M)).length ∧
      strcmp_eq v.line v.curr "Uid".toList = some false ∧
      strcmp_eq v.line v.curr "Name".toList = some false := by
  have hc0n : c0 ≠ NUL ∧ c0 ∉ [':', '\t'] := by
    simp only [state_codes, List.mem_cons, List.mem_singleton, List.not_mem_nil, or_false] at hc0
    rcases hc0 with h | h | h | h | h | h | h | h <;> (subst h; decide)
  obtain ⟨S, X, ptr, hnt, hS, hX, hSdef, hlen⟩ :=
    next_token_run pre ['\t'] [':', '\t'] c0 M (by simp; decide) hc0n
  have hnt' : next_token (pre ++ ('\t' :: c0 :: M)) (some pre.length) [':', '\t'] =
      (some (pre.length + 1), pre ++ ('\t' :: c0 :: (S ++ X)), ptr) := by
    simpa using hnt
  have hlen' : (pre ++ ('\t' :: c0 :: (S ++ X))).length = (pre ++ ('\t' :: c0 :: M)).length := by
    simp only [List.length_append, List.length_cons] at hlen ⊢
    omega
  have hderef : deref (pre ++ ('\t' :: c0 :: (S ++ X))) (some (pre.length + 1)) = some c0 := by
    simp only [deref, Option.map_some', peek_after_tab]
  have hcstr : cstr (pre ++ ('\t' :: c0 :: (S ++ X))) (pre.length + 1) = c0 :: S := by
    have := cstr_after_tab pre (c0 :: S) X
      (by intro c hc; rcases List.mem_cons.mp hc with h | h
          · subst h; exact hc0n.1
          · exact (hS c h).1) hX
    simpa using this
  by_cases hTc : c0 = 'T'
  · subst hTc
    obtain ⟨d, rest2, hM, hd, hdn⟩ := hT rfl
    have hSeq : ∃ S2, S = ' ' :: '(' :: d :: S2 := by
      have hd1 : d ≠ ':' := fun h => hd (by simp [h])
      have hd2 : d ≠ '\t' := fun h => hd (by simp [h])
      refine ⟨rest2.takeWhile (fun c => c != NUL && !([':', '\t'].contains c)), ?_⟩
      rw [hSdef, hM]
      have e1 : (' ' : Char) ≠ NUL := by decide
      have e2 : ('(' : Char) ≠ NUL := by decide
      simp [List.takeWhile_cons, hdn, hd1, hd2, e1, e2]
    obtain ⟨S2, hS2⟩ := hSeq
    subst hS2
    obtain ⟨S3, X3, ptr3, h1, h2, hS3, hX3, hlen3⟩ := t_branch_tokens pre S2 X d hd hdn
    have hB : (pre ++ ('\t' :: 'T' :: (' ' :: '(' :: d :: S2 ++ X))) =
        pre ++ ('\t' :: 'T' :: ' ' :: '(' :: d :: (S2 ++ X)) := by simp
    rw [hB] at hnt' hlen'
    have hderef3 : deref (pre ++ ('\t' :: 'T' :: NUL :: '(' :: d :: (S3 ++ X3)))
        (some (pre.length + 1)) = some 'T' := by
      simp only [deref, Option.map_some', peek_after_tab]
    have hderef1 : deref (pre ++ ('\t' :: 'T' :: ' ' :: '(' :: d :: (S2 ++ X)))
        (some (pre.length + 1)) = some 'T' := by
      simp only [deref, Option.map_some', peek_after_tab]
    have hcstr3 : cstr (pre ++ ('\t' :: 'T' :: NUL :: '(' :: d :: (S3 ++ X3))) (pre.length + 1)
        = ['T'] := by
      have := cstr_after_tab pre ['T'] (NUL :: '(' :: d :: (S3 ++ X3)) (by decide) (by simp)
      simpa using this
    have hlen3' : (pre ++ ('\t' :: 'T' :: NUL :: '(' :: d :: (S3 ++ X3))).length =
        (pre ++ ('\t' :: 'T' :: M)).length := by
      rw [← hlen']
      simp only [List.length_append, List.length_cons] at hlen3 ⊢
      omega
    cases hb : decide (cstr (pre ++ ('\t' :: 'T' :: NUL :: '(' :: d :: (S3 ++ X3)))
        (pre.length + 4) = "tracing".toList) with
    | true =>
      refine ⟨⟨some (pre.length + 1), ptr, pre ++ ('\t' :: 'T' :: NUL :: '(' :: d :: (S3 ++ X3)),
        { loc with count := loc.count + 1, state := some "tracing stop".toList,
                   pid := atoi d_name }, { t with stopped := t.stopped + 1 }⟩, ?_, rfl, ?_, rfl,
        hlen3', ?_, ?_⟩
      · simp only [state_block, hcurr, hnt', hderef1, h1, h2, strcmp_eq_some, hb]
        simp [hderef3]
      · simp [tally_buckets, bucket_counts.add, bucket_of_code]
      · simp only [strcmp_eq_some, hcstr3]; decide
      · simp only [strcmp_eq_some, hcstr3]; decide
    | false =>
      refine ⟨⟨some (pre.length + 1), ptr, pre ++ ('\t' :: 'T' :: NUL :: '(' :: d :: (S3 ++ X3)),
        { loc with count := loc.count + 1, state := some "stopped".toList,
                   pid := atoi d_name }, { t with stopped := t.stopped + 1 }⟩, ?_, rfl, ?_, rfl,
        hlen3', ?_, ?_⟩
      · simp only [state_block, hcurr, hnt', hderef1, h1, h2, strcmp_eq_some, hb]
        simp [hderef3]
      · simp [tally_buckets, bucket_counts.add, bucket_of_code]
      · simp only [strcmp_eq_some, hcstr3]; decide
      · simp only [strcmp_eq_some, hcstr3]; decide
  · have hU : c0 ≠ 'U' ∧ c0 ≠ 'N' := by
      simp only [state_codes, List.mem_cons, List.mem_singleton, List.not_mem_nil,
        or_false] at hc0
      rcases hc0 with h | h | h | h | h | h | h | h <;> (subst h; decide)
    have hUid : strcmp_eq (pre ++ ('\t' :: c0 :: (S ++ X))) (some (pre.length + 1))
        "Uid".toList = some false := by
      simp only [strcmp_eq_some, hcstr]
      simp [hU.1]
    have hName : strcmp_eq (pre ++ ('\t' :: c0 :: (S ++ X))) (some (pre.length + 1))
        "Name".toList = some false := by
      simp only [strcmp_eq_some, hcstr]
      simp [hU.2]
    simp only [state_codes, List.mem_cons, List.mem_singleton, List.not_mem_nil,
      or_false] at hc0
    rcases hc0 with h | h | h | h | h | h | h | h <;> subst h
    all_goals first
      | exact absurd rfl hTc
      | (simp only [state_block, hcurr, hnt', hderef]
         simp only [Char.reduceEq, if_true, if_false, hderef, ne_eq, not_true, not_false_eq_true]
         refine ⟨_, rfl, rfl, ?_, rfl, hlen', hUid, hName⟩
         simp [tally_buckets, bucket_counts.add, bucket_of_code])

theorem status_line_body_eq (d_name label rest : List Char) (loc : task_locals) (t : task_tally)
    (hl : label_ok label) :
    status_line_body d_name (label ++ ':' :: '\t' :: rest) loc t =
      match state_block d_name ⟨some 0, some (label ++ [NUL]).length,
          (label ++ [NUL]) ++ ('\t' :: rest), loc, t⟩ with
      | none => none
      | some v =>
        match uid_block v with
        | none => none
        | some v =>
          match name_block v with
          | none => none
          | some v => some (v.line, v.loc, (count_block v).1, (count_block v).2) := by
  have h := first_token label ('\t' :: rest) hl.1
    (fun c hc => ⟨(hl.2 c hc).1, by simp [(hl.2 c hc).2.1, (hl.2 c hc).2.2.1]⟩)
  simp only [status_line_body, h]
  simp

theorem strcmp_label (label rest : List Char) (s : List Char) (hl : label_ok label) :
    strcmp_eq ((label ++ [NUL]) ++ rest) (some 0) s = some (decide (label = s)) := by
  have := cstr_zero label rest (fun c hc => (hl.2 c hc).1)
  simp only [strcmp_eq_some, List.append_assoc, List.singleton_append, this]

/-- One pass of the line loop body over a well-formed field. -/
theorem status_line_body_field (d_name : List Char) (f : List Char × List Char)
    (g : List Char) (loc : task_locals) (t : task_tally) (hf : field_ok f) :
    ∃ B loc' t', status_line_body d_name (f.1 ++ ':' :: '\t' :: (f.2 ++ '\n' :: g)) loc t
        = some (B, loc', t', decide (loc'.count = 3)) ∧
      B.length = (f.1 ++ ':' :: '\t' :: (f.2 ++ '\n' :: g)).length ∧
      loc'.count = loc.count +
        (if f.1 = "State".toList ∨ f.1 = "Uid".toList ∨ f.1 = "Name".toList then 1 else 0) ∧
      t'.total = t.total ∧
      tally_buckets t' = (tally_buckets t).add
        (if f.1 = "State".toList then bucket_of_code (f.2.headD NUL) else ⟨0, 0, 0, 0, 0⟩) := by
  obtain ⟨hl, hv, hfit, hst, huid, hname⟩ := hf
  rw [status_line_body_eq d_name f.1 _ loc t hl]
  have hlen0 : ((f.1 ++ [NUL]) ++ ('\t' :: (f.2 ++ '\n' :: g))).length =
      (f.1 ++ ':' :: '\t' :: (f.2 ++ '\n' :: g)).length := by simp
  have hadd0 : ∀ b : bucket_counts, b.add ⟨0, 0, 0, 0, 0⟩ = b := by
    intro b; simp [bucket_counts.add]
  by_cases hS : f.1 = "State".toList
  · -- the State line
    have hvs := hst hS
    obtain ⟨c0, rest, hval⟩ : ∃ c0 rest, f.2 = c0 :: rest := by
      cases h : f.2 with
      | nil => rw [h] at hvs; simp [state_value_ok] at hvs
      | cons a b => exact ⟨a, b, rfl⟩
    rw [hval] at hvs hv ⊢
    simp only [state_value_ok, Bool.and_eq_true, Bool.or_eq_true, bne_iff_ne, ne_eq,
      List.contains_eq_any_beq, List.any_eq_true, beq_iff_eq] at hvs
    obtain ⟨⟨x, hx, hxc⟩, hTd⟩ := hvs
    subst hxc
    have hT : c0 = 'T' → ∃ d rest2, rest ++ '\n' :: g = ' ' :: '(' :: d :: rest2 ∧
        d ∉ [' ', '(', ':', '\t'] ∧ d ≠ NUL := by
      intro hc
      rcases hTd with h | h
      · exact absurd hc h
      · obtain ⟨d, rest2, hr, hd⟩ := t_description_shape rest h
        refine ⟨d, rest2 ++ '\n' :: g, by rw [hr]; simp, hd, ?_⟩
        exact (hv d (by rw [hr]; simp)).1
    obtain ⟨v, hv1, hcnt, hbk, htot, hlen, hu, hn⟩ :=
      state_block_code d_name (f.1 ++ [NUL]) (rest ++ '\n' :: g) c0 hx hT (some 0) loc t
        (by rw [strcmp_label _ _ _ hl, decide_eq_true hS])
    have e : (f.1 ++ [NUL]) ++ ('\t' :: (c0 :: rest ++ '\n' :: g)) =
        (f.1 ++ [NUL]) ++ ('\t' :: c0 :: (rest ++ '\n' :: g)) := by simp
    rw [e, hv1]
    simp only [uid_block_skip v hu, name_block_skip v hn]
    obtain ⟨c1, c2, c3⟩ := count_block_spec v
    refine ⟨v.line, v.loc, (count_block v).1, ?_, ?_, ?_, ?_, ?_⟩
    · rw [c1]
    · rw [hlen]; simp
    · rw [hcnt, if_pos (Or.inl hS)]
    · rw [c3, htot]
    · rw [c2, hbk, if_pos hS]; rfl
  · have hs0 : state_block d_name ⟨some 0, some (f.1 ++ [NUL]).length,
        (f.1 ++ [NUL]) ++ ('\t' :: (f.2 ++ '\n' :: g)), loc, t⟩ = some _ :=
      state_block_skip d_name _ (by
        show strcmp_eq ((f.1 ++ [NUL]) ++ _) (some 0) _ = _
        rw [strcmp_label _ _ _ hl, decide_eq_false hS])
    rw [hs0]
    by_cases hU : f.1 = "Uid".toList
    · -- the Uid line
      have hvu := huid hU
      obtain ⟨c0, rest, hval⟩ : ∃ c0 rest, f.2 = c0 :: rest := by
        cases h : f.2 with
        | nil => rw [h] at hvu; simp [uid_value_ok] at hvu
        | cons a b => exact ⟨a, b, rfl⟩
      rw [hval] at hvu ⊢
      simp only [uid_value_ok] at hvu
      obtain ⟨v, hv1, hcnt, htl, hlen, hn⟩ :=
        uid_block_digit (f.1 ++ [NUL]) (rest ++ '\n' :: g) c0 hvu (some 0) loc t
          (by rw [strcmp_label _ _ _ hl, decide_eq_true hU])
      have e : (f.1 ++ [NUL]) ++ ('\t' :: (c0 :: rest ++ '\n' :: g)) =
          (f.1 ++ [NUL]) ++ ('\t' :: c0 :: (rest ++ '\n' :: g)) := by simp
      simp only [e, hv1, name_block_skip v hn]
      obtain ⟨c1, c2, c3⟩ := count_block_spec v
      refine ⟨v.line, v.loc, (count_block v).1, ?_, ?_, ?_, ?_, ?_⟩
      · rw [c1]
      · rw [hlen]; simp
      · rw [hcnt, if_pos (Or.inr (Or.inl hU))]
      · rw [c3, htl]
      · rw [c2, htl, if_neg hS, hadd0]
    · have hu0 : uid_block ⟨some 0, some (f.1 ++ [NUL]).length,
          (f.1 ++ [NUL]) ++ ('\t' :: (f.2 ++ '\n' :: g)), loc, t⟩ = some _ :=
        uid_block_skip _ (by
          show strcmp_eq ((f.1 ++ [NUL]) ++ _) (some 0) _ = _
          rw [strcmp_label _ _ _ hl, decide_eq_false hU])
      simp only [hu0]
      by_cases hN : f.1 = "Name".toList
      · -- the Name line
        obtain ⟨v, hv1, hcnt, htl, hlen⟩ :=
          name_block_name (f.1 ++ [NUL]) f.2 g hv (hname hN) (some 0) loc t
            (by rw [strcmp_label _ _ _ hl, decide_eq_true hN])
        simp only [hv1]
        obtain ⟨c1, c2, c3⟩ := count_block_spec v
        refine ⟨v.line, v.loc, (count_block v).1, ?_, ?_, ?_, ?_, ?_⟩
        · rw [c1]
        · rw [hlen]; simp
        · rw [hcnt, if_pos (Or.inr (Or.inr hN))]
        · rw [c3, htl]
        · rw [c2, htl, if_neg hS, hadd0]
      · have hn0 : name_block ⟨some 0, some (f.1 ++ [NUL]).length,
            (f.1 ++ [NUL]) ++ ('\t' :: (f.2 ++ '\n' :: g)), loc, t⟩ = some _ :=
          name_block_skip _ (by
            show strcmp_eq ((f.1 ++ [NUL]) ++ _) (some 0) _ = _
            rw [strcmp_label _ _ _ hl, decide_eq_false hN])
        simp only [hn0]
        obtain ⟨c1, c2, c3⟩ := count_block_spec
          ⟨some 0, some (f.1 ++ [NUL]).length,
            (f.1 ++ [NUL]) ++ ('\t' :: (f.2 ++ '\n' :: g)), loc, t⟩
        refine ⟨(f.1 ++ [NUL]) ++ ('\t' :: (f.2 ++ '\n' :: g)), loc, (count_block
          ⟨some 0, some (f.1 ++ [NUL]).length,
            (f.1 ++ [NUL]) ++ ('\t' :: (f.2 ++ '\n' :: g)), loc, t⟩).1, ?_, ?_, ?_, ?_, ?_⟩
        · rw [c1]
        · exact hlen0
        · rw [if_neg (by rintro (h | h | h) <;> contradiction)]; simp
        · rw [c3]
        · rw [c2, if_neg hS, hadd0]

/-! ## Facts about the loops of `pfs_tasks` -/

theorem bucket_add_zero (b : bucket_counts) : b.add ⟨0, 0, 0, 0, 0⟩ = b := by
  simp [bucket_counts.add]

theorem bucket_add_assoc (a b c : bucket_counts) : (a.add b).add c = a.add (b.add c) := by
  simp [bucket_counts.add, Nat.add_assoc]

theorem bucket_add_comm (a b : bucket_counts) : a.add b = b.add a := by
  simp [bucket_counts.add, Nat.add_comm]

/-- The bucket unit a list of fields contributes: that of its first State
field, if it has one. -/
theorem code_of_cons (f : List Char × List Char) (fs : List (List Char × List Char)) :
    code_of (f :: fs) = if f.1 = "State".toList then f.2.headD NUL else code_of fs := by
  unfold code_of
  rw [List.find?_cons]
  by_cases h : f.1 = "State".toList
  · rw [decide_eq_true h, if_pos h]
  · rw [decide_eq_false h, if_neg h]

theorem length_le_status_text (fs : List (List Char × List Char)) :
    fs.length ≤ (status_text fs).length := by
  induction fs with
  | nil => simp
  | cons f fs ih => simp [status_text]; omega

theorem status_loop_nil (d_name line : List Char) (loc : task_locals) (t : task_tally)
    (fuel : Nat) : status_loop fuel d_name [] line loc t = some (line, t) := by
  cases fuel with
  | zero => rfl
  | succ n => simp [status_loop, lineread, lineread_loop]

/-- The number of fields the census counts: those labelled State, Uid or
Name. -/
theorem counted_le_three (labels : List (List Char)) (h : labels.Nodup) :
    (labels.filter (fun l => l = "State".toList ∨ l = "Uid".toList ∨ l = "Name".toList)).length
      ≤ 3 := by
  have hnd := h.filter (fun l => decide (l = "State".toList ∨ l = "Uid".toList ∨ l = "Name".toList))
  have hsub : labels.filter (fun l => decide (l = "State".toList ∨ l = "Uid".toList ∨
      l = "Name".toList)) ⊆ ["State".toList, "Uid".toList, "Name".toList] := by
    intro x hx
    have := (List.mem_filter.mp hx).2
    simp only [decide_eq_true_eq] at this
    simp only [List.mem_cons, List.mem_singleton, List.not_mem_nil, or_false]
    exact this
  have := (List.subperm_of_subset hnd hsub).length_le
  simpa using this

theorem state_counted (labels : List (List Char)) (h : "State".toList ∈ labels) :
    0 < (labels.filter
      (fun l => decide (l = "State".toList ∨ l = "Uid".toList ∨ l = "Name".toList))).length :=
  List.length_pos_of_mem (List.mem_filter.mpr ⟨h, by simp⟩)

/-- The line loop over the text of well-formed fields with distinct labels,
followed by `more`, which is empty unless the loop is sure to be left within
the fields: it ends without a fault, leaves `total` alone, and adds to the
buckets the unit of the State field among them, if there is one. -/
theorem status_loop_fields (d_name more : List Char) :
    ∀ (fs : List (List Char × List Char)) (fuel : Nat) (line : List Char) (loc : task_locals)
      (t : task_tally), (∀ f ∈ fs, field_ok f) → (fs.map Prod.fst).Nodup → fs.length < fuel →
      200 ≤ line.length → loc.count ≠ 3 →
      loc.count + (((fs.map Prod.fst).filter (fun l => decide (l = "State".toList ∨
        l = "Uid".toList ∨ l = "Name".toList))).length : Int) ≤ 3 →
      (more = [] ∨ loc.count + (((fs.map Prod.fst).filter (fun l => decide (l = "State".toList ∨
        l = "Uid".toList ∨ l = "Name".toList))).length : Int) = 3) →
      ∃ line' t', status_loop fuel d_name (status_text fs ++ more) line loc t
          = some (line', t') ∧
        t'.total = t.total ∧
        tally_buckets t' = (tally_buckets t).add
          (if "State".toList ∈ fs.map Prod.fst then bucket_of_code (code_of fs)
           else ⟨0, 0, 0, 0, 0⟩) := by
  intro fs
  induction fs with
  | nil =>
    intro fuel line loc t _ _ _ _ hcount _ hmore
    have hm : more = [] := by
      rcases hmore with h | h
      · exact h
      · simp at h; exact absurd h hcount
    subst hm
    exact ⟨line, t, status_loop_nil d_name line loc t fuel, rfl, by simp [bucket_add_zero]⟩
  | cons f fs ih =>
    intro fuel line loc t hok hnd hfuel hline hcount hinv hmore
    have hf : field_ok f := hok f (by simp)
    have hok' : ∀ g ∈ fs, field_ok g := fun g hg => hok g (by simp [hg])
    have hnd' : (fs.map Prod.fst).Nodup := (List.nodup_cons.mp hnd).2
    have hnotin : f.1 ∉ fs.map Prod.fst := (List.nodup_cons.mp hnd).1
    obtain ⟨hl, hv, hfit, -, -, -⟩ := id hf
    cases fuel with
    | zero => simp at hfuel
    | succ n =>
      have htext : status_text (f :: fs) ++ more =
          (f.1 ++ ':' :: '\t' :: f.2) ++ '\n' :: (status_text fs ++ more) := by
        simp [status_text]
      have hln : ∀ c ∈ f.1 ++ ':' :: '\t' :: f.2, c ≠ '\n' := by
        intro c hc
        simp only [List.mem_append, List.mem_cons] at hc
        rcases hc with h | h | h | h
        · exact (hl.2 c h).2.2.2
        · subst h; decide
        · subst h; decide
        · exact (hv c h).2
      have hread := lineread_line (f.1 ++ ':' :: '\t' :: f.2) (status_text fs ++ more) line 200
        hln (by simp; omega) (by simp; omega)
      obtain ⟨B, loc', t1, hbody, hBlen, hcnt, htot, hbk⟩ :=
        status_line_body_field d_name f (line.drop ((f.1 ++ ':' :: '\t' :: f.2).length + 1))
          loc t hf
      have hbuf : (f.1 ++ ':' :: '\t' :: f.2) ++ '\n' ::
          line.drop ((f.1 ++ ':' :: '\t' :: f.2).length + 1) =
          f.1 ++ ':' :: '\t' :: (f.2 ++ '\n' ::
            line.drop ((f.1 ++ ':' :: '\t' :: f.2).length + 1)) := by simp
      have hpos : (((f.1 ++ ':' :: '\t' :: f.2).length + 1 : Nat) : Int) > 0 := by
        push_cast; omega
      have hB200 : 200 ≤ B.length := by
        rw [hBlen]
        simp only [List.length_append, List.length_cons, List.length_drop]
        omega
      -- the invariant on `count` after this line
      have hstep : loc'.count + (((fs.map Prod.fst).filter (fun l => decide (l = "State".toList ∨
          l = "Uid".toList ∨ l = "Name".toList))).length : Int) =
          loc.count + ((((f :: fs).map Prod.fst).filter (fun l => decide (l = "State".toList ∨
          l = "Uid".toList ∨ l = "Name".toList))).length : Int) := by
        rw [hcnt]
        simp only [List.map_cons, List.filter_cons]
        by_cases hc : f.1 = "State".toList ∨ f.1 = "Uid".toList ∨ f.1 = "Name".toList
        · rw [if_pos hc, if_pos (by simpa using hc)]
          simp only [List.length_cons]
          push_cast
          omega
        · rw [if_neg hc, if_neg (by simpa using hc)]
          omega
      have hinv' : loc'.count + (((fs.map Prod.fst).filter (fun l => decide (l = "State".toList ∨
          l = "Uid".toList ∨ l = "Name".toList))).length : Int) ≤ 3 := by
        rw [hstep]; exact hinv
      have hmore' : more = [] ∨ loc'.count + (((fs.map Prod.fst).filter (fun l =>
          decide (l = "State".toList ∨ l = "Uid".toList ∨ l = "Name".toList))).length : Int)
          = 3 := by
        rw [hstep]; exact hmore
      -- what the fields contribute, split between this line and the rest
      have hsplit : (if "State".toList ∈ (f :: fs).map Prod.fst
            then bucket_of_code (code_of (f :: fs)) else ⟨0, 0, 0, 0, 0⟩) =
          (if f.1 = "State".toList then bucket_of_code (f.2.headD NUL)
            else ⟨0, 0, 0, 0, 0⟩).add
          (if "State".toList ∈ fs.map Prod.fst then bucket_of_code (code_of fs)
            else ⟨0, 0, 0, 0, 0⟩) := by
        by_cases hS : f.1 = "State".toList
        · have hno : "State".toList ∉ fs.map Prod.fst := hS ▸ hnotin
          rw [if_pos (by simp [hS]), code_of_cons, if_pos hS, if_pos hS, if_neg hno,
            bucket_add_zero]
        · have hiff : "State".toList ∈ (f :: fs).map Prod.fst ↔
              "State".toList ∈ fs.map Prod.fst := by
            simp only [List.map_cons, List.mem_cons]
            constructor
            · rintro (h | h)
              · exact absurd h.symm hS
              · exact h
            · exact Or.inr
          rw [code_of_cons, if_neg hS, if_neg hS, bucket_add_comm, bucket_add_zero]
          by_cases hm : "State".toList ∈ fs.map Prod.fst
          · rw [if_pos hm, if_pos (hiff.mpr hm)]
          · rw [if_neg hm, if_neg (fun h => hm (hiff.mp h))]
      by_cases hbrk : loc'.count = 3
      · -- the loop is left here
        have hno : "State".toList ∉ fs.map Prod.fst := by
          intro hm
          have := state_counted _ hm
          rw [hbrk] at hinv'
          omega
        refine ⟨B, t1, ?_, htot, ?_⟩
        · simp only [status_loop, htext, hread, hpos, if_true, hbuf, hbody, hbrk, decide_True]
        · rw [hbk, hsplit, if_neg hno, bucket_add_zero]
      · obtain ⟨line', t', hloop, htot', hbk'⟩ :=
          ih n B loc' t1 hok' hnd' (by simpa using hfuel) hB200 hbrk hinv' hmore'
        refine ⟨line', t', ?_, by rw [htot', htot], ?_⟩
        · simp only [status_loop, htext, hread, hpos, if_true, hbuf, hbody, hbrk, decide_False,
            Bool.false_eq_true, if_false, hloop]
        · rw [hbk', hbk, hsplit, bucket_add_assoc]

theorem all_three_counted (labels : List (List Char)) (hnd : labels.Nodup)
    (hS : "State".toList ∈ labels) (hU : "Uid".toList ∈ labels)
    (hN : "Name".toList ∈ labels) :
    (labels.filter
      (fun l => decide (l = "State".toList ∨ l = "Uid".toList ∨ l = "Name".toList))).length
      = 3 := by
  have hle := counted_le_three labels hnd
  have hsub : ["State".toList, "Uid".toList, "Name".toList] ⊆ labels.filter
      (fun l => decide (l = "State".toList ∨ l = "Uid".toList ∨ l = "Name".toList)) := by
    intro x hx
    simp only [List.mem_cons, List.mem_singleton, List.not_mem_nil, or_false] at hx
    refine List.mem_filter.mpr ⟨?_, by simpa using hx⟩
    rcases hx with h | h | h
    · rw [h]; exact hS
    · rw [h]; exact hU
    · rw [h]; exact hN
  have hge := (List.subperm_of_subset (by decide) hsub).length_le
  simp only [List.length_cons, List.length_nil] at hge
  omega

theorem code_of_mem (r : List (List Char × List Char)) (hok : ∀ f ∈ r, field_ok f)
    (hS : "State".toList ∈ r.map Prod.fst) : code_of r ∈ state_codes := by
  induction r with
  | nil => simp at hS
  | cons f fs ih =>
    rw [code_of_cons]
    by_cases h : f.1 = "State".toList
    · rw [if_pos h]
      have := (hok f (by simp)).2.2.2.1 h
      cases hv : f.2 with
      | nil => rw [hv] at this; simp [state_value_ok] at this
      | cons c rest =>
        rw [hv] at this
        simp only [state_value_ok, Bool.and_eq_true, List.contains_eq_any_beq, List.any_eq_true,
          beq_iff_eq] at this
        obtain ⟨⟨x, hx, hxc⟩, -⟩ := this
        subst hxc
        simpa using hx
    · rw [if_neg h]
      refine ih (fun g hg => hok g (by simp [hg])) ?_
      simp only [List.map_cons, List.mem_cons] at hS
      rcases hS with h' | h'
      · exact absurd h'.symm h
      · exact h'

theorem bucket_of_code_sum (c : Char) (hc : c ∈ state_codes) : (bucket_of_code c).sum = 1 := by
  simp only [state_codes, List.mem_cons, List.mem_singleton, List.not_mem_nil, or_false] at hc
  rcases hc with h | h | h | h | h | h | h | h <;> (subst h; decide)

theorem bucket_sum_add (a b : bucket_counts) : (a.add b).sum = a.sum + b.sum := by
  simp only [bucket_counts.sum, bucket_counts.add]
  omega

/-- The directory loop over entries whose opened records are well-formed. -/
theorem entries_loop_counts (junk : Nat → List Char) :
    ∀ (ents : List (List Char × Option status_file)) (i : Nat) (t : task_tally),
      (∀ e ∈ ents, is_only_numeric e.1 = true → ∀ r ∈ e.2, record_ok r) →
      ∃ t', entries_loop junk (ents.map to_dir_entry) i t = some t' ∧
        t'.total = t.total + (opened_records ents).length ∧
        tally_buckets t' = (tally_buckets t).add (table_buckets (opened_records ents)) ∧
        (table_buckets (opened_records ents)).sum = (opened_records ents).length := by
  intro ents
  induction ents with
  | nil =>
    intro i t _
    exact ⟨t, rfl, by simp [opened_records], by simp [opened_records, table_buckets,
      bucket_add_zero], by simp [opened_records, table_buckets, bucket_counts.sum]⟩
  | cons e es ih =>
    intro i t h
    have hes : ∀ e' ∈ es, is_only_numeric e'.1 = true → ∀ r ∈ e'.2, record_ok r :=
      fun e' he' => h e' (by simp [he'])
    by_cases hnum : is_only_numeric e.1 = true
    · cases he2 : e.2 with
      | none =>
        obtain ⟨t', h1, h2, h3, h4⟩ := ih (i + 1) t hes
        refine ⟨t', ?_, ?_, ?_, ?_⟩
        · simp only [List.map_cons, entries_loop, to_dir_entry, hnum, if_true, he2,
            Option.map_none', h1]
        · simpa [opened_records, he2] using h2
        · simpa [opened_records, he2] using h3
        · simpa [opened_records, he2] using h4
      | some r =>
        obtain ⟨hok, hnd, hS, hrest⟩ := h e (by simp) hnum r (by simp [he2])
        have hcounted := counted_le_three _ hnd
        obtain ⟨line', t2, hloop, htot, hbk⟩ :=
          status_loop_fields e.1 r.rest r.fields (r.text.length + 1) (stack_array 300 (junk i))
            ⟨false, 0, 0, 0, none, none⟩ { t with total := t.total + 1 } hok hnd
            (by have := length_le_status_text r.fields
                simp only [status_file.text, List.length_append]
                omega)
            (by rw [length_stack_array]; omega) (by decide)
            (by simp only [zero_add, ge_iff_le]
                exact_mod_cast hcounted)
            (by rcases hrest with h0 | ⟨hU, hN⟩
                · exact Or.inl h0
                · right
                  have := all_three_counted _ hnd hS hU hN
                  simp only [zero_add]
                  exact_mod_cast this)
        rw [if_pos hS] at hbk
        obtain ⟨t', h1, h2, h3, h4⟩ := ih (i + 1) t2 hes
        have hopen : opened_records (e :: es) = r :: opened_records es := by
          simp [opened_records, he2, hnum]
        refine ⟨t', ?_, ?_, ?_, ?_⟩
        · simp only [List.map_cons, entries_loop, to_dir_entry, hnum, if_true, he2,
            Option.map_some', hloop, h1]
          simp only [status_file.text] at hloop ⊢
          simp only [hloop, h1]
        · rw [h2, htot, hopen]; simp only [List.length_cons]; omega
        · rw [h3, hbk, hopen]
          simp only [table_buckets]
          have : tally_buckets { t with total := t.total + 1 } = tally_buckets t := rfl
          rw [this, bucket_add_assoc, bucket_add_comm (bucket_of_code (code_of r.fields))]
        · rw [hopen]
          simp only [table_buckets, bucket_sum_add, h4, List.length_cons,
            bucket_of_code_sum _ (code_of_mem r.fields hok hS)]
    · obtain ⟨t', h1, h2, h3, h4⟩ := ih (i + 1) t hes
      have hopen : opened_records (e :: es) = opened_records es := by
        cases he2 : e.2 <;> simp [opened_records, he2, hnum]
      refine ⟨t', ?_, ?_, ?_, ?_⟩
      · simp only [List.map_cons, entries_loop, to_dir_entry, hnum, Bool.false_eq_true,
          if_false, h1]
      · rw [hopen]; exact h2
      · rw [hopen]; exact h3
      · rw [hopen]; exact h4

/-! ## More facts about `lineread` -/

theorem lineread_loop_end (ln : List Char) (hln : ∀ c ∈ ln, c ≠ '\n') :
    ∀ (fuel : Nat) (pre old : List Char), ln.length < fuel → ln.length ≤ old.length →
      lineread_loop fuel ln (pre ++ old) pre.length =
        (0, [], pre ++ (ln ++ old.drop ln.length)) := by
  induction ln with
  | nil =>
    intro fuel pre old hf _
    cases fuel with
    | zero => simp at hf
    | succ n => simp [lineread_loop]
  | cons a t ih =>
    intro fuel pre old hf ho
    have ha : a ≠ '\n' := hln a (by simp)
    have ht : ∀ c ∈ t, c ≠ '\n' := fun c hc => hln c (by simp [hc])
    cases fuel with
    | zero => simp at hf
    | succ n =>
      cases old with
      | nil => simp at ho
      | cons o os =>
        have := ih ht n (pre ++ [a]) os (by simpa using hf) (by simpa using ho)
        simp only [List.append_assoc, List.singleton_append, List.length_append,
          List.length_singleton] at this
        simp only [lineread_loop, List.cons_append, set_at, ha, if_false, this,
          List.length_cons, List.drop_succ_cons]

/-! ## Facts about `pfs_kernel_version` -/

theorem pfs_kernel_version_eval (ln more version_buf : List Char) (buf_sz : Nat)
    (hfit : line_fits buf_sz ln) (hbuf : buf_sz ≤ version_buf.length) :
    ∃ rest, pfs_kernel_version (some (ln ++ '\n' :: more)) version_buf buf_sz =
      (0, ln.takeWhile (fun c => c != '-') ++ NUL :: rest) := by
  obtain ⟨hsz, hln⟩ := hfit
  have h1 := one_lineread_line ln more version_buf buf_sz (fun c hc => (hln c hc).2) hsz
    (by omega)
  obtain ⟨a, ha⟩ : ∃ a, a = ln.takeWhile (fun c => c != '-') := ⟨_, rfl⟩
  obtain ⟨b, hb⟩ : ∃ b, b = ln.dropWhile (fun c => c != '-') := ⟨_, rfl⟩
  have hab : ln = a ++ b := by rw [ha, hb]; exact (List.takeWhile_append_dropWhile _ ln).symm
  have hatok : ∀ c ∈ a, c ≠ NUL ∧ c ∉ ['-'] := by
    intro c hc
    have hmem : c ∈ ln := by rw [hab]; exact List.mem_append_left _ hc
    rw [ha] at hc
    have := List.mem_takeWhile_imp hc
    exact ⟨(hln c hmem).1, by simpa using this⟩
  simp only [pfs_kernel_version, h1]
  rw [← ha]
  cases b with
  | nil =>
    have hln' : ln = a := by rw [hab]; simp
    have hs : strcspn (a ++ NUL :: List.drop (a.length + 1) version_buf) ['-'] = a.length :=
      strcspn_run a _ ['-'] hatok (by simp)
    rw [hln', hs]
    have := set_at a (List.drop (a.length + 1) version_buf) NUL NUL
    rw [this]
    exact ⟨_, rfl⟩
  | cons y b =>
    have hy := dropWhile_head_false _ _ _ _ hb.symm
    have hyd : y = '-' := by simpa using hy
    have hs : ∀ R, strcspn (a ++ y :: (b ++ NUL :: R)) ['-'] = a.length :=
      fun R => strcspn_run a _ ['-'] hatok (by simp [hyd])
    rw [hab]
    simp only [List.append_assoc, List.cons_append]
    rw [hs, set_at]
    exact ⟨_, rfl⟩


/-! ## Facts about `pfs_format_uptime` -/

/-- The conversion to `int` of the quotient of two whole numbers. -/
theorem toInt_div_nat (a n : Nat) (hn : 0 < n) (ha : a < 2147483648) :
    (CDouble.div (CDouble.fin (a : ℚ)) (CDouble.ofLong (n : Int))).toInt
      = some ((a / n : Nat) : Int) := by
  have hn0 : ((n : Int) : ℚ) ≠ 0 := by
    have : (n : Int) ≠ 0 := by omega
    exact_mod_cast this
  have hq : (0 : ℚ) ≤ (a : ℚ) / ((n : Int) : ℚ) := by positivity
  have hfl : Int.floor ((a : ℚ) / ((n : Int) : ℚ)) = ((a / n : Nat) : Int) := by
    have := Rat.floor_natCast_div_natCast a n
    simpa using this
  have hle : a / n ≤ a := Nat.div_le_self a n
  obtain ⟨z, hz⟩ : ∃ z : Nat, z = a / n := ⟨_, rfl⟩
  rw [← hz] at hfl hle ⊢
  simp only [CDouble.div, CDouble.ofLong, hn0, if_false, CDouble.toInt, hq, if_true, hfl]
  rw [if_pos]
  constructor <;> omega

/-- The conversion to `int` of a whole number. -/
theorem toInt_nat (a : Nat) (ha : a < 2147483648) :
    (CDouble.fin (a : ℚ)).toInt = some (a : Int) := by
  have hq : (0 : ℚ) ≤ (a : ℚ) := by positivity
  simp only [CDouble.toInt, hq, if_true, Int.floor_natCast]
  rw [if_pos]
  constructor <;> omega

theorem ofLong_tmod (a n : Nat) :
    CDouble.ofLong (Int.tmod (a : Int) (n : Int)) = CDouble.fin ((a % n : Nat) : ℚ) := by
  have : Int.tmod (a : Int) (n : Int) = ((a % n : Nat) : Int) := by
    rw [Int.tmod_eq_emod (by omega) (by omega)]
    exact (Int.natCast_mod a n).symm
  rw [this]
  simp only [CDouble.ofLong, Int.cast_natCast]

theorem pfs_format_uptime_eval (t : Nat) (ht : t < 2147483648) :
    pfs_format_uptime (CDouble.fin (t : ℚ)) = some (0, some (uptime_text t)) := by
  have e1 : (24 * 3600 * 365 : Int) = ((31536000 : Nat) : Int) := by norm_num
  have e2 : (24 * 3600 : Int) = ((86400 : Nat) : Int) := by norm_num
  have e3 : (3600 : Int) = ((3600 : Nat) : Int) := by norm_num
  have e4 : (60 : Int) = ((60 : Nat) : Int) := by norm_num
  have m1 : t % 86400 < 2147483648 := by omega
  have m2 : t % 86400 % 3600 < 2147483648 := by omega
  have m3 : t % 86400 % 3600 % 60 < 2147483648 := by omega
  have h1 := toInt_div_nat t 31536000 (by norm_num) ht
  have h2 := toInt_div_nat t 86400 (by norm_num) ht
  have h3 := toInt_nat t ht
  have h4 := toInt_div_nat (t % 86400) 3600 (by norm_num) m1
  have h5 := toInt_nat (t % 86400) m1
  have h6 := toInt_div_nat (t % 86400 % 3600) 60 (by norm_num) m2
  have h7 := toInt_nat (t % 86400 % 3600) m2
  have h8 := toInt_nat (t % 86400 % 3600 % 60) m3
  have k1 : t % 86400 % 3600 = t % 3600 := Nat.mod_mod_of_dvd t (by norm_num)
  have k2 : t % 3600 % 60 = t % 60 := Nat.mod_mod_of_dvd t (by norm_num)
  unfold pfs_format_uptime
  rw [e1, e2, h1, h2, h3]
  simp only []
  rw [ofLong_tmod, e3, h4, h5]
  simp only []
  rw [ofLong_tmod, e4, h6, h7]
  simp only []
  rw [ofLong_tmod, h8]
  simp only [k1, k2, uptime_text]
  generalize t % 3600 / 60 = m
  generalize t % 86400 / 3600 = h
  generalize t / 86400 = d
  generalize t / 31536000 = y
  generalize t % 60 = s
  by_cases hm : m = 0
  · simp [hm]
  · by_cases hh : h = 0
    · simp [hm, hh]
    · by_cases hd : d = 0
      · simp [hm, hh, hd]
      · by_cases hy : y = 0
        · simp [hm, hh, hd, hy]
        · simp [hm, hh, hd, hy]


/-! ## More facts about `pfs_cpu_usage` -/

/-- The quotient computed from two non-negative deltas: either it is a NaN,
or one minus it is at most 1, and at least 0 when the idle delta does not
exceed the total delta. -/
theorem busy_value_range (wi wt : Int) (hi : 0 ≤ wi) (ht : 0 ≤ wt) :
    (CDouble.sub (CDouble.fin 1)
        (CDouble.div (CDouble.ofLong wi) (CDouble.ofLong wt))).isnan = true ∨
    (CDouble.le (CDouble.sub (CDouble.fin 1)
        (CDouble.div (CDouble.ofLong wi) (CDouble.ofLong wt))) (CDouble.fin 1) = true ∧
      (wi ≤ wt → CDouble.le (CDouble.fin 0) (CDouble.sub (CDouble.fin 1)
        (CDouble.div (CDouble.ofLong wi) (CDouble.ofLong wt))) = true)) := by
  have hiq : (0 : ℚ) ≤ (wi : ℚ) := by exact_mod_cast hi
  have htq : (0 : ℚ) ≤ (wt : ℚ) := by exact_mod_cast ht
  by_cases h0 : wt = 0
  · subst h0
    by_cases h1 : wi = 0
    · subst h1
      left
      simp [CDouble.ofLong, CDouble.div, CDouble.sub, CDouble.isnan]
    · right
      have hpos : (0 : ℚ) < (wi : ℚ) := by
        have : 0 < wi := by omega
        exact_mod_cast this
      have hne : (wi : ℚ) ≠ 0 := ne_of_gt hpos
      refine ⟨by simp [CDouble.ofLong, CDouble.div, CDouble.sub, CDouble.le, hne, hpos], ?_⟩
      intro hle
      omega
  · right
    have hne : (wt : ℚ) ≠ 0 := by exact_mod_cast h0
    have hpos : (0 : ℚ) < (wt : ℚ) := lt_of_le_of_ne htq (Ne.symm hne)
    have hq : (0 : ℚ) ≤ (wi : ℚ) / (wt : ℚ) := div_nonneg hiq htq
    refine ⟨by simp [CDouble.ofLong, CDouble.div, CDouble.sub, CDouble.le, hne, hq], ?_⟩
    intro hle
    have hleq : (wi : ℚ) ≤ (wt : ℚ) := by exact_mod_cast hle
    have : (wi : ℚ) / (wt : ℚ) ≤ 1 := (div_le_one hpos).mpr hleq
    simp [CDouble.ofLong, CDouble.div, CDouble.sub, CDouble.le, hne, this]

/-- Whatever the counters and the snapshot, the value `pfs_cpu_usage` computes
is at most 1. -/
theorem cpu_usage_value_le_one (total idle : Int) (prev curr : cpu_stats) :
    CDouble.le (cpu_usage_value total idle prev curr).1 (CDouble.fin 1) = true := by
  have hz : CDouble.le (CDouble.fin 0) (CDouble.fin 1) = true := by simp [CDouble.le]
  unfold cpu_usage_value
  by_cases h1 : (CDouble.ofLong total).isnan = true
  · simp only [h1, if_true]; exact hz
  · simp only [h1, if_false]
    by_cases h2 : wrap_long (idle - prev.idle) < 0 ∨ wrap_long (total - prev.total) < 0
    · simp only [h2, if_true]; exact hz
    · simp only [h2, if_false]
      push_neg at h2
      rcases busy_value_range _ _ h2.1 h2.2 with h | h
      · simp only [h, if_true]; exact hz
      · by_cases h3 : (CDouble.sub (CDouble.fin 1)
          (CDouble.div (CDouble.ofLong (wrap_long (idle - prev.idle)))
            (CDouble.ofLong (wrap_long (total - prev.total))))).isnan = true
        · simp only [h3, if_true]; exact hz
        · simp only [h3, if_false]; exact h.1

/-- When the deltas against a snapshot of `long` values satisfy
`0 ≤ Δidle ≤ Δtotal`, the value `pfs_cpu_usage` computes is at least 0. -/
theorem cpu_usage_value_nonneg (total idle : Int) (prev curr : cpu_stats)
    (htot : total ≤ LONG_MAX) (hpt : LONG_MIN ≤ prev.total)
    (h0 : 0 ≤ idle - prev.idle) (hle : idle - prev.idle ≤ total - prev.total) :
    CDouble.le (CDouble.fin 0) (cpu_usage_value total idle prev curr).1 = true := by
  have hz : CDouble.le (CDouble.fin 0) (CDouble.fin 0) = true := by simp [CDouble.le]
  unfold cpu_usage_value
  by_cases h1 : (CDouble.ofLong total).isnan = true
  · simp only [h1, if_true]; exact hz
  · simp only [h1, if_false]
    by_cases h2 : wrap_long (idle - prev.idle) < 0 ∨ wrap_long (total - prev.total) < 0
    · simp only [h2, if_true]; exact hz
    · simp only [h2, if_false]
      push_neg at h2
      have hwle : wrap_long (idle - prev.idle) ≤ wrap_long (total - prev.total) := by
        have a1 := h2.1
        have a2 := h2.2
        unfold wrap_long LONG_MAX LONG_MIN at *
        omega
      rcases busy_value_range _ _ h2.1 h2.2 with h | h
      · simp only [h, if_true]; exact hz
      · by_cases h3 : (CDouble.sub (CDouble.fin 1)
          (CDouble.div (CDouble.ofLong (wrap_long (idle - prev.idle)))
            (CDouble.ofLong (wrap_long (total - prev.total))))).isnan = true
        · simp only [h3, if_true]; exact hz
        · simp only [h3, if_false]; exact h.2 hwle

/-! ## Facts about the scan loops of `pfs_cpu_units` and `pfs_cpu_model` -/

theorem text_of_lines_append (a b : List (List Char)) :
    text_of_lines (a ++ b) = text_of_lines a ++ text_of_lines b := by
  induction a with
  | nil => rfl
  | cons l ls ih => simp [text_of_lines, ih]

/-- At the end of the stream `one_lineread` returns 0 and leaves the buffer
as it is. -/
theorem one_lineread_end (buf : List Char) (sz : Nat) : one_lineread [] buf sz = (0, [], buf) := by
  cases sz with
  | zero => simp [one_lineread, lineread, lineread_loop]
  | succ n => simp [one_lineread, lineread, lineread_loop]

/-- The test `strstr` makes on a buffer that holds a line and its terminator. -/
theorem strstr_found_line (ln rest needle : List Char) (hln : ∀ c ∈ ln, c ≠ NUL) :
    strstr_found (ln ++ NUL :: rest) 0 needle = decide (needle <:+: ln) := by
  simp only [strstr_found, cstr_zero ln rest hln]

/-- Reading one line that fits into a buffer that has room for it. -/
theorem one_lineread_fits (ln more buf : List Char) (sz : Nat) (hfit : line_fits sz ln)
    (hbuf : sz ≤ buf.length) :
    one_lineread (ln ++ '\n' :: more) buf sz =
      (((ln.length + 1 : Nat) : Int), more, ln ++ NUL :: buf.drop (ln.length + 1)) ∧
    (ln ++ NUL :: buf.drop (ln.length + 1)).length = buf.length := by
  refine ⟨one_lineread_line ln more buf sz (fun c hc => (hfit.2 c hc).2) hfit.1
    (by have := hfit.1; omega), ?_⟩
  have := hfit.1
  simp only [List.length_append, List.length_cons, List.length_drop]
  omega

theorem cpu_units_scan_stop (fuel : Nat) (stream line : List Char) (count : Int)
    (h : strstr_found line 0 "cpu".toList = false) :
    cpu_units_scan fuel stream line count = some (line, count) := by
  cases fuel with
  | zero => simp only [cpu_units_scan, h, Bool.false_eq_true, ↓reduceIte]
  | succ n => simp only [cpu_units_scan, h, Bool.false_eq_true, ↓reduceIte]

/-- The scan of `pfs_cpu_units` from a buffer that holds a line with `cpu`:
it reads the lines `ls`, which all contain `cpu`, and stops at the line `l`,
which does not. -/
theorem cpu_units_scan_lines (l rest : List Char) (hl : line_fits 100 l)
    (hno : contains_cpu l = false) :
    ∀ (ls : List (List Char)) (fuel : Nat) (line : List Char) (count : Int),
      (∀ x ∈ ls, line_fits 100 x ∧ contains_cpu x = true) → ls.length + 1 ≤ fuel →
      100 ≤ line.length → 0 ≤ count → count + ls.length + 1 < 2147483648 →
      strstr_found line 0 "cpu".toList = true →
      ∃ line', cpu_units_scan fuel (text_of_lines ls ++ (l ++ '\n' :: rest)) line count =
        some (line', count + ls.length + 1) := by
  intro ls
  induction ls with
  | nil =>
    intro fuel line count _ hf hlen h0 hmax hfound
    cases fuel with
    | zero => simp at hf
    | succ n =>
      obtain ⟨hr, _⟩ := one_lineread_fits l rest line 100 hl hlen
      have hw : wrap_int (count + 1) = count + 1 := by
        simp only [List.length_nil, Nat.cast_zero, add_zero] at hmax
        unfold wrap_int; omega
      have hstop := cpu_units_scan_stop n rest (l ++ NUL :: line.drop (l.length + 1))
        (count + 1) (by
          rw [strstr_found_line l _ _ (fun c hc => (hl.2 c hc).1)]
          exact hno)
      refine ⟨l ++ NUL :: line.drop (l.length + 1), ?_⟩
      simp only [text_of_lines, List.nil_append, cpu_units_scan, hfound, ↓reduceIte, hr, hw,
        hstop]
      simp
  | cons c cs ih =>
    intro fuel line count hls hf hlen h0 hmax hfound
    cases fuel with
    | zero => simp at hf
    | succ n =>
      have hc := hls c (by simp)
      obtain ⟨hr, hlen'⟩ := one_lineread_fits c
        (text_of_lines cs ++ (l ++ '\n' :: rest)) line 100 hc.1 hlen
      have hw : wrap_int (count + 1) = count + 1 := by
        simp only [List.length_cons, Nat.cast_add, Nat.cast_one] at hmax
        unfold wrap_int; omega
      obtain ⟨line', h⟩ := ih n (c ++ NUL :: line.drop (c.length + 1)) (count + 1)
        (fun x hx => hls x (by simp [hx])) (by simpa using hf) (by rw [hlen']; exact hlen)
        (by omega) (by simp only [List.length_cons, Nat.cast_add, Nat.cast_one] at hmax; omega)
        (by
          rw [strstr_found_line c _ _ (fun x hx => (hc.1.2 x hx).1)]
          exact hc.2)
      refine ⟨line', ?_⟩
      simp only [text_of_lines, List.cons_append, List.append_assoc, cpu_units_scan, hfound,
        ↓reduceIte]
      rw [hr]
      simp only [hw, h, List.length_cons, Nat.cast_add, Nat.cast_one]
      congr 2
      omega

/-- The scan of `pfs_cpu_model` never leaves its loop when neither the line in
the buffer nor any line still to be read contains the label. -/
theorem cpu_model_scan_running (buf_sz : Nat) :
    ∀ (fuel : Nat) (ls : List (List Char)) (line : List Char),
      (∀ x ∈ ls, line_fits buf_sz x ∧ ¬ "model name".toList <:+: x) →
      buf_sz ≤ line.length →
      strstr_found line 0 "model name".toList = false →
      cpu_model_scan fuel (text_of_lines ls) line buf_sz = none := by
  intro fuel
  induction fuel with
  | zero =>
    intro ls line _ _ hnot
    simp only [cpu_model_scan, hnot, Bool.false_eq_true, ↓reduceIte]
  | succ n ih =>
    intro ls line hls hlen hnot
    cases ls with
    | nil =>
      simp only [cpu_model_scan, hnot, text_of_lines, one_lineread_end, Bool.false_eq_true,
        ↓reduceIte]
      exact ih [] line (by simp) hlen hnot
    | cons c cs =>
      have hc := hls c (by simp)
      obtain ⟨hr, hlen'⟩ := one_lineread_fits c (text_of_lines cs) line buf_sz hc.1 hlen
      simp only [cpu_model_scan, hnot, text_of_lines, hr, Bool.false_eq_true, ↓reduceIte]
      exact ih cs _ (fun x hx => hls x (by simp [hx])) (by rw [hlen']; exact hlen)
        (by
          rw [strstr_found_line c _ _ (fun x hx => (hc.1.2 x hx).1)]
          exact decide_eq_false hc.2)

/-- The whole of `pfs_cpu_units` once its scan has left the loop. -/
theorem pfs_cpu_units_of_scan (fuel : Nat) (content junk line : List Char) (count : Int)
    (h : cpu_units_scan fuel (one_lineread content (stack_array 1024 junk) 100).2.1
      (one_lineread content (stack_array 1024 junk) 100).2.2 0 = some (line, count)) :
    pfs_cpu_units fuel (some content) junk =
      some (if wrap_int (count - 1) > -1 then wrap_int (count - 1) else 0) := by
  simp only [pfs_cpu_units, h]

/-- The lines of a file up to the first line that does not satisfy `p`. -/
theorem lines_split (p : List Char → Bool) (lines : List (List Char))
    (h : ∃ l ∈ lines, p l = false) :
    ∃ l post, lines = lines.takeWhile p ++ l :: post ∧ p l = false := by
  cases hd : lines.dropWhile p with
  | nil =>
    obtain ⟨l, hl, hp⟩ := h
    have := List.dropWhile_eq_nil_iff.mp hd l hl
    rw [hp] at this
    exact absurd this (by simp)
  | cons l post =>
    refine ⟨l, post, ?_, dropWhile_head_false p lines l post hd⟩
    rw [← hd]
    exact (List.takeWhile_append_dropWhile p lines).symm

theorem pfs_cpu_units_eval (lines : List (List Char)) (rest junk : List Char) (fuel : Nat)
    (hfit : ∀ l ∈ lines, line_fits 100 l) (hstop : ∃ l ∈ lines, contains_cpu l = false)
    (hmax : leading_lines contains_cpu lines < 2147483648)
    (hfuel : leading_lines contains_cpu lines ≤ fuel) :
    pfs_cpu_units fuel (some (text_of_lines lines ++ rest)) junk =
      some (max ((leading_lines contains_cpu lines : Int) - 1) 0) := by
  obtain ⟨l, post, hsplit, hl⟩ := lines_split contains_cpu lines hstop
  obtain ⟨pre, hpre⟩ : ∃ pre, pre = lines.takeWhile contains_cpu := ⟨_, rfl⟩
  have hk : leading_lines contains_cpu lines = pre.length := by rw [hpre]; rfl
  rw [← hpre] at hsplit
  have hprecpu : ∀ x ∈ pre, contains_cpu x = true := by
    intro x hx
    rw [hpre] at hx
    exact List.mem_takeWhile_imp hx
  have hlfit : line_fits 100 l := hfit l (by rw [hsplit]; simp)
  have hprefit : ∀ x ∈ pre, line_fits 100 x := fun x hx => hfit x (by rw [hsplit]; simp [hx])
  have hlen : 100 ≤ (stack_array 1024 junk).length := by rw [length_stack_array]; omega
  rw [hk] at hmax hfuel ⊢
  have htext : text_of_lines lines ++ rest =
      text_of_lines pre ++ (l ++ '\n' :: (text_of_lines post ++ rest)) := by
    rw [hsplit, text_of_lines_append]
    simp [text_of_lines]
  rw [htext]
  cases pre with
  | nil =>
    obtain ⟨hr, _⟩ := one_lineread_fits l (text_of_lines post ++ rest) (stack_array 1024 junk)
      100 hlfit hlen
    have hs := cpu_units_scan_stop fuel (text_of_lines post ++ rest)
      (l ++ NUL :: (stack_array 1024 junk).drop (l.length + 1)) 0 (by
        rw [strstr_found_line l _ _ (fun c hc => (hlfit.2 c hc).1)]
        exact hl)
    rw [pfs_cpu_units_of_scan fuel _ junk _ 0 (by
      simp only [text_of_lines, List.nil_append, hr]
      exact hs)]
    decide
  | cons c cs =>
    have hc := hprefit c (by simp)
    obtain ⟨hr, hlen'⟩ := one_lineread_fits c
      (text_of_lines cs ++ (l ++ '\n' :: (text_of_lines post ++ rest))) (stack_array 1024 junk)
      100 hc hlen
    simp only [List.length_cons] at hmax hfuel
    obtain ⟨line', hs⟩ := cpu_units_scan_lines l (text_of_lines post ++ rest) hlfit hl cs fuel
      (c ++ NUL :: (stack_array 1024 junk).drop (c.length + 1)) 0
      (fun x hx => ⟨hprefit x (by simp [hx]), hprecpu x (by simp [hx])⟩) hfuel
      (by rw [hlen']; exact hlen) (le_refl 0) (by omega)
      (by
        rw [strstr_found_line c _ _ (fun x hx => (hc.2 x hx).1)]
        exact hprecpu c (by simp))
    rw [pfs_cpu_units_of_scan fuel _ junk line' (0 + cs.length + 1) (by
      simp only [text_of_lines, List.cons_append, List.append_assoc, hr]
      exact hs)]
    have hw : wrap_int ((0 : Int) + cs.length + 1 - 1) = cs.length := by
      unfold wrap_int; omega
    rw [hw]
    simp only [List.length_cons]
    have : ((cs.length : Int) > -1) := by omega
    rw [if_pos this]
    congr 1
    push_cast
    omega

/-- The scan loop of `pfs_cpu_model` is never left when the file has lines
that fit the buffer and none of them contains the label. -/
theorem pfs_cpu_model_running (lines : List (List Char)) (junk : List Char) (buf_sz fuel : Nat)
    (hne : lines ≠ [])
    (h : ∀ x ∈ lines, line_fits buf_sz x ∧ ¬ "model name".toList <:+: x) :
    pfs_cpu_model fuel (some (text_of_lines lines)) junk buf_sz = outcome.running := by
  cases lines with
  | nil => exact absurd rfl hne
  | cons c cs =>
    have hc := h c (by simp)
    obtain ⟨hr, hlen'⟩ := one_lineread_fits c (text_of_lines cs)
      (stack_array (buf_sz + 3) junk) buf_sz hc.1 (by rw [length_stack_array]; omega)
    have hs := cpu_model_scan_running buf_sz fuel cs
      (c ++ NUL :: (stack_array (buf_sz + 3) junk).drop (c.length + 1))
      (fun x hx => h x (by simp [hx])) (by rw [hlen', length_stack_array]; omega)
      (by
        rw [strstr_found_line c _ _ (fun x hx => (hc.1.2 x hx).1)]
        exact decide_eq_false hc.2)
    simp only [pfs_cpu_model, text_of_lines, hr, hs]

/-! ## Facts about `atof` -/

theorem digits_value_eq (ds : List Char) (hds : ∀ c ∈ ds, isdigit c = true) :
    ∀ acc : Nat, ds.foldl (fun n c => 10 * n + digit_value c) acc =
      ds.foldl (fun n c => 10 * n + (c.toNat - 48)) acc := by
  induction ds with
  | nil => intro acc; rfl
  | cons a t ih =>
    intro acc
    have ha : isdigit a = true := hds a (by simp)
    simp only [List.foldl_cons, digit_value, ha, if_true]
    exact ih (fun c hc => hds c (by simp [hc])) _

theorem decimal_lt_pow (ds : List Char) (hds : ∀ c ∈ ds, isdigit c = true) :
    ∀ acc : Nat, ds.foldl (fun n c => 10 * n + (c.toNat - 48)) acc <
      (acc + 1) * 10 ^ ds.length := by
  induction ds with
  | nil => intro acc; simp
  | cons a t ih =>
    intro acc
    have ha : isdigit a = true := hds a (by simp)
    have h9 : a.toNat - 48 ≤ 9 := by
      simp only [isdigit, Bool.and_eq_true, decide_eq_true_eq] at ha
      omega
    have := ih (fun c hc => hds c (by simp [hc])) (10 * acc + (a.toNat - 48))
    simp only [List.foldl_cons, List.length_cons]
    calc _ < (10 * acc + (a.toNat - 48) + 1) * 10 ^ t.length := this
      _ ≤ ((acc + 1) * 10) * 10 ^ t.length := by
        apply Nat.mul_le_mul_right
        omega
      _ = (acc + 1) * 10 ^ (t.length + 1) := by ring

/-- A string of `n` decimal digits denotes a number below `2 ^ e` when
`4 * n ≤ e`. -/
theorem decimal_below_pow (ds : List Char) (hds : ∀ c ∈ ds, isdigit c = true) (e : Nat)
    (he : 4 * ds.length ≤ e) : (decimal ds : ℚ) < (2 : ℚ) ^ e := by
  have h1 : decimal ds < (0 + 1) * 10 ^ ds.length := decimal_lt_pow _ hds 0
  have h2 : (10 : Nat) ^ ds.length ≤ 2 ^ (4 * ds.length) := by
    rw [pow_mul]
    exact Nat.pow_le_pow_left (by norm_num) _
  have h3 : (2 : Nat) ^ (4 * ds.length) ≤ 2 ^ e := Nat.pow_le_pow_right (by norm_num) he
  have h4 : decimal ds < 2 ^ e := by omega
  exact_mod_cast h4

theorem dropWhile_append_stop {α : Type} (p : α → Bool) (l₁ l₂ : List α)
    (h₁ : ∀ a ∈ l₁, p a = true) (h₂ : ∀ a, l₂.head? = some a → p a = false) :
    (l₁ ++ l₂).dropWhile p = l₂ := by
  induction l₁ with
  | nil =>
    cases l₂ with
    | nil => rfl
    | cons b t => simp [List.dropWhile, h₂ b rfl]
  | cons a t ih =>
    simp only [List.cons_append, List.dropWhile, h₁ a (by simp)]
    exact ih (fun x hx => h₁ x (by simp [hx]))

theorem isdigit_facts (c : Char) (h : isdigit c = true) :
    tolower c = c ∧ c ≠ 'i' ∧ c ≠ 'n' ∧ c ≠ 'x' ∧ c ≠ 'X' ∧ c ≠ '.' := by
  simp only [isdigit, Bool.and_eq_true, decide_eq_true_eq] at h
  refine ⟨?_, ?_, ?_, ?_, ?_, ?_⟩
  · unfold tolower
    rw [if_neg (by omega)]
  all_goals
    intro e
    rw [e] at h
    revert h
    decide

/-- What `strtod` reads where a run of decimal digits is followed by a
space: the number the digits denote. -/
theorem strtod_magnitude_digits (d : Char) (ds rest : List Char)
    (hds : ∀ c ∈ d :: ds, isdigit c = true) (hlen : (d :: ds).length ≤ 200) :
    strtod_magnitude ((d :: ds) ++ ' ' :: rest) = CDouble.fin (decimal (d :: ds) : ℚ) := by
  have hd := isdigit_facts d (hds d (by simp))
  have hinf : starts_with_word ((d :: ds) ++ ' ' :: rest) "inf".toList = false := by
    have : tolower d ≠ 'i' := by rw [hd.1]; exact hd.2.1
    simp [starts_with_word, this]
  have hnan : starts_with_word ((d :: ds) ++ ' ' :: rest) "nan".toList = false := by
    have : tolower d ≠ 'n' := by rw [hd.1]; exact hd.2.2.1
    simp [starts_with_word, this]
  have hhex : ¬ (((d :: ds) ++ ' ' :: rest).head? = some '0' ∧
      ((((d :: ds) ++ ' ' :: rest).tail).head? = some 'x' ∨
        (((d :: ds) ++ ' ' :: rest).tail).head? = some 'X')) := by
    rintro ⟨_, h⟩
    cases ds with
    | nil => rcases h with h | h <;> simp at h
    | cons e es =>
      have he := isdigit_facts e (hds e (by simp))
      rcases h with h | h
      · simp only [List.cons_append, List.tail_cons, List.head?_cons, Option.some.injEq] at h
        exact he.2.2.2.1 h
      · simp only [List.cons_append, List.tail_cons, List.head?_cons, Option.some.injEq] at h
        exact he.2.2.2.2.1 h
  have hip : ((d :: ds) ++ ' ' :: rest).takeWhile isdigit = d :: ds :=
    takeWhile_append_stop isdigit _ _ hds (by intro a ha; simp at ha; subst ha; decide)
  have hs1 : ((d :: ds) ++ ' ' :: rest).dropWhile isdigit = ' ' :: rest :=
    dropWhile_append_stop isdigit _ _ hds (by intro a ha; simp at ha; subst ha; decide)
  have hnum : strtod_number isdigit 10 10 ['e', 'E'] ((d :: ds) ++ ' ' :: rest) =
      some (decimal (d :: ds) : ℚ) := by
    unfold strtod_number
    simp only [hip, hs1]
    have h1 : ¬ ((' ' :: rest).head? = some '.') := by simp
    simp only [h1, if_false, List.append_nil, List.length_nil, pow_zero, div_one]
    rw [if_neg (by simp)]
    have hexp : strtod_exponent ['e', 'E'] (' ' :: rest) = 0 := by
      simp [strtod_exponent]
    have hval : digits_value 10 (d :: ds) = decimal (d :: ds) := digits_value_eq _ hds 0
    rw [hexp, hval]
    simp [scale]
  have hrange : ¬ ((2 : ℚ) ^ 1024 ≤ (decimal (d :: ds) : ℚ)) :=
    not_le.mpr (decimal_below_pow _ hds 1024 (by omega))
  unfold strtod_magnitude
  simp only [hinf, hnan, Bool.false_eq_true, if_false, hhex, hnum, CDouble.ofRange, hrange]

/-- The value `atof` gives to an amount: padding, digits, and a space after
them. -/
theorem atof_amount (k : Nat) (ds rest : List Char) (hds : is_counter ds)
    (hlen : ds.length ≤ 200) :
    atof (List.replicate k ' ' ++ (ds ++ ' ' :: rest)) = CDouble.fin (decimal ds : ℚ) := by
  obtain ⟨hne, hdig⟩ := hds
  obtain ⟨d, ds', rfl⟩ : ∃ d ds', ds = d :: ds' := by
    cases ds with
    | nil => exact absurd rfl hne
    | cons a b => exact ⟨a, b, rfl⟩
  have hd := isdigit_not_special d (hdig d (by simp))
  have ht : (List.replicate k ' ' ++ ((d :: ds') ++ ' ' :: rest)).dropWhile isspace =
      (d :: ds') ++ ' ' :: rest :=
    dropWhile_append_stop isspace _ _
      (by intro a ha; rw [List.eq_of_mem_replicate ha]; decide)
      (by intro a ha; simp at ha; subst ha; exact hd.1)
  unfold atof
  simp only [ht]
  have h1 : ¬ (((d :: ds') ++ ' ' :: rest).head? = some '-') := by simp [hd.2.1]
  have h2 : ¬ (((d :: ds') ++ ' ' :: rest).head? = some '+') := by simp [hd.2.2.1]
  rw [if_neg h1, if_neg h2]
  exact strtod_magnitude_digits d ds' rest hdig hlen

/-! ## Facts about the line loop of `pfs_mem_usage` -/

/-- A token that starts with the bytes `V`: wherever it ends, the call returns
its start and leaves a terminator, or the end of memory, right after it. -/
theorem next_token_starting (pre d V M : List Char) (hne : V ≠ [])
    (hV : ∀ c ∈ V, c ≠ NUL ∧ c ∉ d) :
    ∃ S X ptr, next_token (pre ++ (V ++ M)) (some pre.length) d =
        (some pre.length, pre ++ ((V ++ S) ++ X), ptr) ∧
      (∀ c ∈ S, c ≠ NUL) ∧ (∀ c, X.head? = some c → c = NUL) ∧
      (pre ++ ((V ++ S) ++ X)).length = (pre ++ (V ++ M)).length := by
  obtain ⟨c0, V', rfl⟩ : ∃ c0 V', V = c0 :: V' := by
    cases V with
    | nil => exact absurd rfl hne
    | cons a b => exact ⟨a, b, rfl⟩
  obtain ⟨S, X, ptr, h, hS, hX, hSdef, hlen⟩ :=
    next_token_run pre [] d c0 (V' ++ M) (by simp) (hV c0 (by simp))
  have hp : (V' ++ M).takeWhile (fun c => c != NUL && !d.contains c) =
      V' ++ M.takeWhile (fun c => c != NUL && !d.contains c) := by
    apply List.takeWhile_append_of_pos
    intro c hc
    have := hV c (by simp [hc])
    simp [this.1, this.2]
  refine ⟨M.takeWhile (fun c => c != NUL && !d.contains c), X, ptr, ?_, ?_, hX, ?_⟩
  · simp only [List.nil_append, List.length_nil, Nat.add_zero] at h
    rw [hSdef, hp] at h
    simpa using h
  · intro c hc
    have := List.mem_takeWhile_imp hc
    simp only [Bool.and_eq_true, bne_iff_ne, ne_eq] at this
    exact this.1
  · rw [hSdef, hp] at hlen
    simp only [List.length_append, List.length_cons] at hlen ⊢
    omega

/-- The shape of an amount. -/
theorem amount_shape (v : List Char) (h : amount_ok v = true) :
    ∃ k ds, v = List.replicate k ' ' ++ (ds ++ " kB".toList) ∧ is_counter ds ∧
      amount_of v = decimal ds := by
  simp only [amount_ok, Bool.and_eq_true, Bool.not_eq_true', beq_iff_eq] at h
  obtain ⟨hne, hrest⟩ := h
  refine ⟨(v.takeWhile (fun c => c == ' ')).length,
    (v.dropWhile (fun c => c == ' ')).takeWhile isdigit, ?_, ⟨?_, ?_⟩, rfl⟩
  · have hpad : v.takeWhile (fun c => c == ' ') =
        List.replicate (v.takeWhile (fun c => c == ' ')).length ' ' := by
      apply List.eq_replicate_iff.mpr
      refine ⟨rfl, ?_⟩
      intro c hc
      have := List.mem_takeWhile_imp hc
      simpa using this
    rw [← hpad, ← hrest, List.takeWhile_append_dropWhile, List.takeWhile_append_dropWhile]
  · intro e
    rw [e] at hne
    simp at hne
  · intro c hc
    exact List.mem_takeWhile_imp hc

/-- Reading the value of an amount line: the second token of the line, the
number `atof` finds in it, and the comparison of that token with the other
label. -/
theorem mem_value_read (pre value g : List Char) (hv : amount_ok value = true)
    (hlen : value.length ≤ 200) :
    ∃ B ptr, next_token (pre ++ (value ++ '\n' :: g)) (some pre.length) [':', '\t'] =
        (some pre.length, B, ptr) ∧
      B.length = (pre ++ (value ++ '\n' :: g)).length ∧
      atof_at B (some pre.length) = some (CDouble.fin (amount_of value : ℚ)) ∧
      strcmp_eq B (some pre.length) "MemAvailable".toList = some false := by
  obtain ⟨k, ds, hval, hc, ha⟩ := amount_shape value hv
  have hds : ds.length ≤ 200 := by
    have : value.length = k + (ds.length + 3) := by rw [hval]; simp
    omega
  have hsplit : value ++ '\n' :: g =
      (List.replicate k ' ' ++ (ds ++ [' '])) ++ ('k' :: 'B' :: '\n' :: g) := by
    rw [hval]; simp
  have hV : ∀ c ∈ List.replicate k ' ' ++ (ds ++ [' ']), c ≠ NUL ∧ c ∉ [':', '\t'] := by
    intro c hc'
    rcases List.mem_append.mp hc' with h | h
    · rw [List.eq_of_mem_replicate h]; decide
    · rcases List.mem_append.mp h with h | h
      · have hd := hc.2 c h
        simp only [isdigit, Bool.and_eq_true, decide_eq_true_eq] at hd
        refine ⟨?_, ?_⟩
        · intro e; rw [e] at hd; revert hd; decide
        · intro e
          simp only [List.mem_cons, List.mem_singleton, List.not_mem_nil, or_false] at e
          rcases e with e | e <;> (rw [e] at hd; revert hd; decide)
      · simp only [List.mem_singleton] at h
        rw [h]; decide
  obtain ⟨S, X, ptr, hnt, hS, hX, hBlen⟩ := next_token_starting pre [':', '\t']
    (List.replicate k ' ' ++ (ds ++ [' '])) ('k' :: 'B' :: '\n' :: g) (by simp) hV
  have hcstr : cstr (pre ++ ((List.replicate k ' ' ++ (ds ++ [' '])) ++ S ++ X)) pre.length =
      (List.replicate k ' ' ++ (ds ++ [' '])) ++ S := by
    have := cstr_at pre ((List.replicate k ' ' ++ (ds ++ [' '])) ++ S) X
      (by
        intro c hc'
        rcases List.mem_append.mp hc' with h | h
        · exact (hV c h).1
        · exact hS c h)
      hX
    simpa using this
  refine ⟨_, ptr, by rw [hsplit]; exact hnt, by rw [hsplit]; exact hBlen, ?_, ?_⟩
  · simp only [atof_at, Option.map_some', hcstr]
    have e : (List.replicate k ' ' ++ (ds ++ [' '])) ++ S =
        List.replicate k ' ' ++ (ds ++ ' ' :: S) := by simp
    rw [e, atof_amount k ds S hc hds, ha]
  · simp only [strcmp_eq, Option.map_some', hcstr]
    congr 1
    apply decide_eq_false
    intro e
    have hh := congrArg List.head? e
    cases k with
    | zero =>
      obtain ⟨d, ds', rfl⟩ : ∃ d ds', ds = d :: ds' := by
        cases ds with
        | nil => exact absurd rfl hc.1
        | cons a b => exact ⟨a, b, rfl⟩
      have hd := hc.2 d (by simp)
      simp only [List.replicate, List.nil_append, List.cons_append, List.head?_cons,
        String.toList, Option.some.injEq] at hh
      rw [hh] at hd
      revert hd
      decide
    | succ n =>
      simp only [List.replicate, List.cons_append, List.head?_cons, String.toList,
        Option.some.injEq] at hh
      revert hh
      decide

/-- One pass of the line loop body of `pfs_mem_usage` over a well-formed
field. -/
theorem mem_line_body_field (f : List Char × List Char) (g : List Char) (v : mem_vars)
    (hf : mem_field_ok f) :
    ∃ B, mem_line_body (f.1 ++ ':' :: (f.2 ++ '\n' :: g)) v = some (B, mem_step f v) ∧
      B.length = (f.1 ++ ':' :: (f.2 ++ '\n' :: g)).length := by
  obtain ⟨hl, hv, hfit, ham⟩ := hf
  have hfirst := first_token f.1 (f.2 ++ '\n' :: g) hl.1
    (fun c hc => ⟨(hl.2 c hc).1, by simp [(hl.2 c hc).2.1, (hl.2 c hc).2.2.1]⟩)
  have hbuf : f.1 ++ NUL :: (f.2 ++ '\n' :: g) = (f.1 ++ [NUL]) ++ (f.2 ++ '\n' :: g) := by simp
  have hptr : f.1.length + 1 = (f.1 ++ [NUL]).length := by simp
  have hcmp : ∀ s : List Char, strcmp_eq ((f.1 ++ [NUL]) ++ (f.2 ++ '\n' :: g)) (some 0) s =
      some (decide (f.1 = s)) := fun s => strcmp_label f.1 _ s hl
  have hvlen : f.2.length ≤ 200 := by omega
  simp only [mem_line_body, hfirst]
  rw [hbuf, hptr]
  by_cases hT : f.1 = "MemTotal".toList
  · obtain ⟨B, ptr, hnt, hBlen, hatof, hcmpA⟩ :=
      mem_value_read (f.1 ++ [NUL]) f.2 g (ham (Or.inl hT)) hvlen
    refine ⟨B, ?_, by rw [hBlen]; simp⟩
    simp only [hcmp, decide_eq_true hT, hnt, hatof, hcmpA, mem_step, if_pos hT]
  · by_cases hA : f.1 = "MemAvailable".toList
    · obtain ⟨B, ptr, hnt, hBlen, hatof, _⟩ :=
        mem_value_read (f.1 ++ [NUL]) f.2 g (ham (Or.inr hA)) hvlen
      refine ⟨B, ?_, by rw [hBlen]; simp⟩
      simp only [hcmp, decide_eq_false hT, decide_eq_true hA, hnt, hatof, mem_step, if_neg hT,
        if_pos hA]
    · refine ⟨(f.1 ++ [NUL]) ++ (f.2 ++ '\n' :: g), ?_, by simp⟩
      simp only [hcmp, decide_eq_false hT, decide_eq_false hA, mem_step, if_neg hT, if_neg hA]

/-- The line loop of `pfs_mem_usage` over well-formed fields: it ends, and
its variables are those of `mem_scan`. Bytes may follow the fields when both
labels have been met by then. -/
theorem mem_loop_fields (more : List Char) :
    ∀ (fs : List (List Char × List Char)) (fuel : Nat) (line : List Char) (v : mem_vars),
      (∀ f ∈ fs, mem_field_ok f) → fs.length < fuel → 200 ≤ line.length →
      (more = [] ∨ (mem_scan fs v).count = 2) →
      mem_loop fuel (meminfo_text fs ++ more) line v = some (mem_scan fs v) := by
  intro fs
  induction fs with
  | nil =>
    intro fuel line v _ hfuel _ hmore
    cases fuel with
    | zero => simp at hfuel
    | succ n =>
      rcases hmore with h | h
      · subst h
        have : lineread [] line 200 = (0, [], line) := by simp [lineread, lineread_loop]
        simp [mem_loop, meminfo_text, mem_scan, this]
      · simp only [mem_scan] at h
        simp only [mem_loop, meminfo_text, mem_scan, h, if_true, List.nil_append]
        split_ifs <;> rfl
  | cons f fs ih =>
    intro fuel line v hfs hfuel hlen hmore
    cases fuel with
    | zero => simp at hfuel
    | succ n =>
      have hf := hfs f (by simp)
      have hnl : ∀ c ∈ f.1 ++ ':' :: f.2, c ≠ '\n' := by
        intro c hc
        rcases List.mem_append.mp hc with h | h
        · exact (hf.1.2 c h).2.2.2
        · rcases List.mem_cons.mp h with h | h
          · rw [h]; decide
          · exact (hf.2.1 c h).2
      have hsz : (f.1 ++ ':' :: f.2).length + 1 ≤ 200 := by
        have := hf.2.2.1
        simp only [List.length_append, List.length_cons]
        omega
      have hread := lineread_line (f.1 ++ ':' :: f.2) (meminfo_text fs ++ more) line 200 hnl hsz
        (by omega)
      have htext : meminfo_text (f :: fs) ++ more =
          (f.1 ++ ':' :: f.2) ++ '\n' :: (meminfo_text fs ++ more) := by
        simp [meminfo_text]
      have hpos : (((f.1 ++ ':' :: f.2).length + 1 : Nat) : Int) > 0 := by push_cast; omega
      rw [htext]
      simp only [mem_loop, hread, hpos, if_true]
      by_cases hc2 : v.count = 2
      · simp only [hc2, if_true, mem_scan]
      · obtain ⟨B, hB, hBlen⟩ := mem_line_body_field f
          (line.drop ((f.1 ++ ':' :: f.2).length + 1)) v hf
        have e : (f.1 ++ ':' :: f.2) ++ '\n' :: line.drop ((f.1 ++ ':' :: f.2).length + 1) =
            f.1 ++ ':' :: (f.2 ++ '\n' :: line.drop ((f.1 ++ ':' :: f.2).length + 1)) := by simp
        simp only [hc2, if_false, mem_scan, e, hB]
        apply ih n B (mem_step f v) (fun x hx => hfs x (by simp [hx])) (by simpa using hfuel)
        · rw [hBlen]
          simp only [List.length_append, List.length_cons, List.length_drop] at hsz ⊢
          omega
        · simpa only [mem_scan, hc2, if_false] using hmore

theorem mem_amount_cons (label : List Char) (f : List Char × List Char)
    (fs : List (List Char × List Char)) :
    mem_amount label (f :: fs) = if f.1 = label then amount_of f.2 else mem_amount label fs := by
  unfold mem_amount
  by_cases h : f.1 = label
  · simp [List.find?, h]
  · simp [List.find?, h]

theorem mem_labels_cons (f : List Char × List Char) (fs : List (List Char × List Char)) :
    ((((f :: fs).map Prod.fst).filter (fun l => decide (l = "MemTotal".toList ∨
      l = "MemAvailable".toList))).length : Int) =
    (if f.1 = "MemTotal".toList ∨ f.1 = "MemAvailable".toList then 1 else 0) +
      (((fs.map Prod.fst).filter (fun l => decide (l = "MemTotal".toList ∨
        l = "MemAvailable".toList))).length : Int) := by
  by_cases h : f.1 = "MemTotal".toList ∨ f.1 = "MemAvailable".toList
  · rw [if_pos h, List.map_cons, List.filter_cons_of_pos (by simpa using h)]
    simp only [List.length_cons]
    push_cast
    omega
  · rw [if_neg h, List.map_cons, List.filter_cons_of_neg (by simpa using h)]
    omega

/-- The variables of the line loop after fields with distinct labels, started
with room left in `count` for the labels still to come: `count` has grown by
the number of the two labels met, and `total` and `available` hold the amounts
of the fields so labelled, or their initial values. -/
theorem mem_scan_distinct :
    ∀ (fs : List (List Char × List Char)) (v : mem_vars), (fs.map Prod.fst).Nodup →
      v.count + (((fs.map Prod.fst).filter (fun l => decide (l = "MemTotal".toList ∨
        l = "MemAvailable".toList))).length : Int) ≤ 2 →
      (mem_scan fs v).count = v.count + (((fs.map Prod.fst).filter (fun l =>
        decide (l = "MemTotal".toList ∨ l = "MemAvailable".toList))).length : Int) ∧
      (mem_scan fs v).total = (if "MemTotal".toList ∈ fs.map Prod.fst then
        CDouble.fin (mem_amount "MemTotal".toList fs : ℚ) else v.total) ∧
      (mem_scan fs v).available = (if "MemAvailable".toList ∈ fs.map Prod.fst then
        CDouble.fin (mem_amount "MemAvailable".toList fs : ℚ) else v.available) := by
  intro fs
  induction fs with
  | nil => intro v _ _; simp [mem_scan]
  | cons f fs ih =>
    intro v hnd hcnt
    have hnd' : (fs.map Prod.fst).Nodup := (List.nodup_cons.mp hnd).2
    have hnotin : f.1 ∉ fs.map Prod.fst := (List.nodup_cons.mp hnd).1
    have hTA : "MemTotal".toList ≠ "MemAvailable".toList := by decide
    have hmemT : "MemTotal".toList ∈ (f :: fs).map Prod.fst ↔
        (f.1 = "MemTotal".toList ∨ "MemTotal".toList ∈ fs.map Prod.fst) := by
      simp only [List.map_cons, List.mem_cons]
      constructor
      · rintro (h | h)
        · exact Or.inl h.symm
        · exact Or.inr h
      · rintro (h | h)
        · exact Or.inl h.symm
        · exact Or.inr h
    have hmemA : "MemAvailable".toList ∈ (f :: fs).map Prod.fst ↔
        (f.1 = "MemAvailable".toList ∨ "MemAvailable".toList ∈ fs.map Prod.fst) := by
      simp only [List.map_cons, List.mem_cons]
      constructor
      · rintro (h | h)
        · exact Or.inl h.symm
        · exact Or.inr h
      · rintro (h | h)
        · exact Or.inl h.symm
        · exact Or.inr h
    rw [mem_labels_cons] at hcnt ⊢
    by_cases hT : f.1 = "MemTotal".toList
    · have hA : f.1 ≠ "MemAvailable".toList := fun e => hTA (hT.symm.trans e)
      have hTfs : "MemTotal".toList ∉ fs.map Prod.fst := hT ▸ hnotin
      rw [if_pos (Or.inl hT)] at hcnt ⊢
      have hc2 : v.count ≠ 2 := by omega
      have hstep : mem_step f v =
          ⟨v.count + 1, CDouble.fin (amount_of f.2 : ℚ), v.available⟩ := by
        unfold mem_step
        rw [if_pos hT]
      have hscan : mem_scan (f :: fs) v =
          mem_scan fs ⟨v.count + 1, CDouble.fin (amount_of f.2 : ℚ), v.available⟩ := by
        simp only [mem_scan, hc2, if_false, hstep]
      obtain ⟨i1, i2, i3⟩ := ih ⟨v.count + 1, CDouble.fin (amount_of f.2 : ℚ), v.available⟩
        hnd'
        (by show v.count + 1 + _ ≤ 2; omega)
      rw [hscan, i1, i2, i3, if_neg hTfs, if_pos (hmemT.mpr (Or.inl hT)), mem_amount_cons,
        if_pos hT, mem_amount_cons, if_neg hA]
      refine ⟨by show v.count + 1 + _ = _; omega, rfl, ?_⟩
      by_cases hm : "MemAvailable".toList ∈ fs.map Prod.fst
      · rw [if_pos hm, if_pos (hmemA.mpr (Or.inr hm))]
      · rw [if_neg hm, if_neg (fun h => (hmemA.mp h).elim hA hm)]
    · by_cases hA : f.1 = "MemAvailable".toList
      · have hAfs : "MemAvailable".toList ∉ fs.map Prod.fst := hA ▸ hnotin
        rw [if_pos (Or.inr hA)] at hcnt ⊢
        have hc2 : v.count ≠ 2 := by omega
        have hstep : mem_step f v =
            ⟨v.count + 1, v.total, CDouble.fin (amount_of f.2 : ℚ)⟩ := by
          unfold mem_step
          rw [if_neg hT, if_pos hA]
        have hscan : mem_scan (f :: fs) v =
            mem_scan fs ⟨v.count + 1, v.total, CDouble.fin (amount_of f.2 : ℚ)⟩ := by
          simp only [mem_scan, hc2, if_false, hstep]
        obtain ⟨i1, i2, i3⟩ := ih ⟨v.count + 1, v.total, CDouble.fin (amount_of f.2 : ℚ)⟩
          hnd'
          (by show v.count + 1 + _ ≤ 2; omega)
        rw [hscan, i1, i2, i3, if_neg hAfs, if_pos (hmemA.mpr (Or.inl hA)), mem_amount_cons,
          if_neg hT, mem_amount_cons, if_pos hA]
        refine ⟨by show v.count + 1 + _ = _; omega, ?_, rfl⟩
        by_cases hm : "MemTotal".toList ∈ fs.map Prod.fst
        · rw [if_pos hm, if_pos (hmemT.mpr (Or.inr hm))]
        · rw [if_neg hm, if_neg (fun h => (hmemT.mp h).elim hT hm)]
      · have hno : ¬ (f.1 = "MemTotal".toList ∨ f.1 = "MemAvailable".toList) := by
          rintro (h | h) <;> contradiction
        rw [if_neg hno] at hcnt ⊢
        have hstep : mem_step f v = v := by
          unfold mem_step
          rw [if_neg hT, if_neg hA]
        have hiffT : "MemTotal".toList ∈ (f :: fs).map Prod.fst ↔
            "MemTotal".toList ∈ fs.map Prod.fst :=
          hmemT.trans ⟨fun h => h.elim (fun e => absurd e hT) id, Or.inr⟩
        have hiffA : "MemAvailable".toList ∈ (f :: fs).map Prod.fst ↔
            "MemAvailable".toList ∈ fs.map Prod.fst :=
          hmemA.trans ⟨fun h => h.elim (fun e => absurd e hA) id, Or.inr⟩
        by_cases hc2 : v.count = 2
        · have hz : ((fs.map Prod.fst).filter (fun l => decide (l = "MemTotal".toList ∨
              l = "MemAvailable".toList))).length = 0 := by omega
          have hnil := List.length_eq_zero.mp hz
          have hnone : ∀ l ∈ fs.map Prod.fst,
              ¬ (l = "MemTotal".toList ∨ l = "MemAvailable".toList) := by
            intro l hl
            have := List.filter_eq_nil_iff.mp hnil l hl
            simpa using this
          have hTfs : "MemTotal".toList ∉ fs.map Prod.fst :=
            fun h => hnone _ h (Or.inl rfl)
          have hAfs : "MemAvailable".toList ∉ fs.map Prod.fst :=
            fun h => hnone _ h (Or.inr rfl)
          have hscan : mem_scan (f :: fs) v = v := by simp only [mem_scan, hc2, if_true]
          rw [hscan, hz, if_neg (fun h => hTfs (hiffT.mp h)),
            if_neg (fun h => hAfs (hiffA.mp h))]
          exact ⟨by simp, rfl, rfl⟩
        · have hscan : mem_scan (f :: fs) v = mem_scan fs v := by
            simp only [mem_scan, hc2, if_false, hstep]
          obtain ⟨i1, i2, i3⟩ := ih v hnd' (by omega)
          rw [hscan, i1, i2, i3, mem_amount_cons, if_neg hT, mem_amount_cons, if_neg hA]
          refine ⟨by omega, ?_, ?_⟩
          · by_cases hm : "MemTotal".toList ∈ fs.map Prod.fst
            · rw [if_pos hm, if_pos (hiffT.mpr hm)]
            · rw [if_neg hm, if_neg (fun h => hm (hiffT.mp h))]
          · by_cases hm : "MemAvailable".toList ∈ fs.map Prod.fst
            · rw [if_pos hm, if_pos (hiffA.mpr hm)]
            · rw [if_neg hm, if_neg (fun h => hm (hiffA.mp h))]

theorem mem_counted_le_two (labels : List (List Char)) (h : labels.Nodup) :
    (labels.filter (fun l => decide (l = "MemTotal".toList ∨ l = "MemAvailable".toList))).length
      ≤ 2 := by
  have hnd := h.filter (fun l => decide (l = "MemTotal".toList ∨ l = "MemAvailable".toList))
  have hsub : labels.filter (fun l => decide (l = "MemTotal".toList ∨
      l = "MemAvailable".toList)) ⊆ ["MemTotal".toList, "MemAvailable".toList] := by
    intro x hx
    have := (List.mem_filter.mp hx).2
    simp only [decide_eq_true_eq] at this
    simp only [List.mem_cons, List.mem_singleton, List.not_mem_nil, or_false]
    exact this
  have := (List.subperm_of_subset hnd hsub).length_le
  simpa using this

theorem mem_both_counted (labels : List (List Char)) (hnd : labels.Nodup)
    (hT : "MemTotal".toList ∈ labels) (hA : "MemAvailable".toList ∈ labels) :
    (labels.filter (fun l => decide (l = "MemTotal".toList ∨ l = "MemAvailable".toList))).length
      = 2 := by
  have hle := mem_counted_le_two labels hnd
  have hsub : ["MemTotal".toList, "MemAvailable".toList] ⊆ labels.filter
      (fun l => decide (l = "MemTotal".toList ∨ l = "MemAvailable".toList)) := by
    intro x hx
    simp only [List.mem_cons, List.mem_singleton, List.not_mem_nil, or_false] at hx
    refine List.mem_filter.mpr ⟨?_, by simpa using hx⟩
    rcases hx with h | h
    · rw [h]; exact hT
    · rw [h]; exact hA
  have hge := (List.subperm_of_subset (by decide) hsub).length_le
  simp only [List.length_cons, List.length_nil] at hge
  omega

theorem mem_amount_absent (label : List Char) (fs : List (List Char × List Char))
    (h : label ∉ fs.map Prod.fst) : mem_amount label fs = 0 := by
  induction fs with
  | nil => rfl
  | cons f fs ih =>
    simp only [List.map_cons, List.mem_cons, not_or] at h
    rw [mem_amount_cons, if_neg (fun e => h.1 e.symm)]
    exact ih h.2

theorem mem_amount_of_mem (label value : List Char) (fs : List (List Char × List Char))
    (hnd : (fs.map Prod.fst).Nodup) (h : (label, value) ∈ fs) :
    mem_amount label fs = amount_of value := by
  induction fs with
  | nil => simp at h
  | cons f fs ih =>
    rw [mem_amount_cons]
    rcases List.mem_cons.mp h with e | e
    · rw [← e]; simp
    · have hnotin : f.1 ∉ fs.map Prod.fst := (List.nodup_cons.mp hnd).1
      have hin : label ∈ fs.map Prod.fst := List.mem_map.mpr ⟨(label, value), e, rfl⟩
      have hne : ¬ f.1 = label := fun e' => hnotin (by rw [e']; exact hin)
      rw [if_neg hne]
      exact ih (List.nodup_cons.mp hnd).2 e

theorem amount_of_text (k : Nat) (ds : List Char) (h : is_counter ds) :
    amount_of (amount_text k ds) = decimal ds := by
  obtain ⟨d, ds', rfl⟩ : ∃ d ds', ds = d :: ds' := by
    cases ds with
    | nil => exact absurd rfl h.1
    | cons a b => exact ⟨a, b, rfl⟩
  have hd := isdigit_not_special d (h.2 d (by simp))
  have h1 : (List.replicate k ' ' ++ ((d :: ds') ++ " kB".toList)).dropWhile
      (fun c => c == ' ') = (d :: ds') ++ " kB".toList :=
    dropWhile_append_stop _ _ _
      (by intro a ha; rw [List.eq_of_mem_replicate ha]; rfl)
      (by intro a ha; simp at ha; subst ha; simpa using hd.2.2.2.2.1)
  have h2 : ((d :: ds') ++ " kB".toList).takeWhile isdigit = d :: ds' :=
    takeWhile_append_stop isdigit _ _ h.2 (by intro a ha; simp at ha; subst ha; decide)
  simp only [amount_of, amount_text, h1, h2]

theorem length_le_meminfo_text (fs : List (List Char × List Char)) :
    fs.length ≤ (meminfo_text fs).length := by
  induction fs with
  | nil => simp [meminfo_text]
  | cons f fs ih => simp only [meminfo_text, List.length_cons, List.length_append]; omega

theorem kb_to_mb_fin (x : ℚ) : kb_to_mb (CDouble.fin x) = CDouble.fin (x / 1024 / 1024) := by
  simp [kb_to_mb, CDouble.div]

/-- The whole of `pfs_mem_usage` on a `meminfo` of well-formed fields with
distinct labels; bytes may follow the fields when both labels are among
them. -/
theorem pfs_mem_usage_eval (fs : List (List Char × List Char)) (more junk : List Char)
    (hok : ∀ f ∈ fs, mem_field_ok f) (hnd : (fs.map Prod.fst).Nodup)
    (hmore : more = [] ∨ ("MemTotal".toList ∈ fs.map Prod.fst ∧
      "MemAvailable".toList ∈ fs.map Prod.fst)) :
    pfs_mem_usage (some (meminfo_text fs ++ more)) junk =
      some ⟨CDouble.fin ((mem_amount "MemTotal".toList fs : ℚ) / 1024 / 1024),
        CDouble.fin (((mem_amount "MemTotal".toList fs : ℚ) -
          (mem_amount "MemAvailable".toList fs : ℚ)) / 1024 / 1024)⟩ := by
  have hle := mem_counted_le_two _ hnd
  obtain ⟨s1, s2, s3⟩ := mem_scan_distinct fs ⟨0, CDouble.fin 0, CDouble.fin 0⟩ hnd
    (by show (0 : Int) + _ ≤ 2; omega)
  have hloop := mem_loop_fields more fs ((meminfo_text fs ++ more).length + 1)
    (stack_array 200 junk) ⟨0, CDouble.fin 0, CDouble.fin 0⟩ hok
    (by have := length_le_meminfo_text fs; simp only [List.length_append]; omega)
    (by rw [length_stack_array])
    (by
      rcases hmore with h | h
      · exact Or.inl h
      · right
        rw [s1, mem_both_counted _ hnd h.1 h.2]
        rfl)
  have ht : (mem_scan fs ⟨0, CDouble.fin 0, CDouble.fin 0⟩).total =
      CDouble.fin (mem_amount "MemTotal".toList fs : ℚ) := by
    rw [s2]
    by_cases h : "MemTotal".toList ∈ fs.map Prod.fst
    · rw [if_pos h]
    · rw [if_neg h, mem_amount_absent _ _ h]; simp
  have ha : (mem_scan fs ⟨0, CDouble.fin 0, CDouble.fin 0⟩).available =
      CDouble.fin (mem_amount "MemAvailable".toList fs : ℚ) := by
    rw [s3]
    by_cases h : "MemAvailable".toList ∈ fs.map Prod.fst
    · rw [if_pos h]
    · rw [if_neg h, mem_amount_absent _ _ h]; simp
  simp only [pfs_mem_usage, hloop, ht, ha, CDouble.sub, kb_to_mb_fin]

/-! ## The census on a State value without a description -/

/-- The Name line of the sample record: the name is copied and the newline
after it becomes a terminator. -/
theorem body_name_line (G : List Char) (loc : task_locals) (t : task_tally)
    (hs : loc.is_sleeping = false) (hc : loc.count = 0) :
    status_line_body "107".toList ("Name:\tsystemd-journal\n".toList ++ G) loc t =
      some ("Name\x00\tsystemd-journal\x00".toList ++ G,
        { loc with name := some "systemd-journal".toList, count := loc.count + 1 }, t, false) := by
  simp [status_line_body, state_block, uid_block, name_block, count_block, next_token, strspn,
    strcspn, peek, strcmp_eq, cstr, deref, NUL, strcpy_into, hs, hc]

/-- The Umask line of the sample record, read over the Name line. -/
theorem body_umask_line (G : List Char) (loc : task_locals) (t : task_tally)
    (hc : loc.count = 1) :
    status_line_body "107".toList ("Umask:\t0022\n".toList ++ G) loc t =
      some ("Umask\x00\t0022\n".toList ++ G, loc, t, false) := by
  simp [status_line_body, state_block, uid_block, name_block, count_block, next_token, strspn,
    strcspn, peek, strcmp_eq, cstr, deref, NUL, hc]

/-- The State line `T` of the sample record, read over the Umask line: the
token runs through what is left of the two lines before it, to the terminator
put after the name, and holds no space; `strcmp` gets a null pointer. -/
theorem body_state_line (G : List Char) (loc : task_locals) (t : task_tally) :
    status_line_body "107".toList ("State:\tT\n22\nd-journal\x00".toList ++ G) loc t = none := by
  simp [status_line_body, state_block, next_token, strspn, strcspn, peek, strcmp_eq, cstr,
    deref, NUL]

theorem status_loop_continue (n : Nat) (d stream line more buf B : List Char) (k : Int)
    (loc loc' : task_locals) (t t' : task_tally)
    (hread : lineread stream line 200 = (k, more, buf)) (hk : k > 0)
    (hbody : status_line_body d buf loc t = some (B, loc', t', false)) :
    status_loop (n + 1) d stream line loc t = status_loop n d more B loc' t' := by
  simp only [status_loop, hread, hk, if_true, hbody, Bool.false_eq_true, if_false]

theorem status_loop_fault (n : Nat) (d stream line more buf : List Char) (k : Int)
    (loc : task_locals) (t : task_tally)
    (hread : lineread stream line 200 = (k, more, buf)) (hk : k > 0)
    (hbody : status_line_body d buf loc t = none) :
    status_loop (n + 1) d stream line loc t = none := by
  simp only [status_loop, hread, hk, if_true, hbody]

/-- The line loop on the sample record, whatever the line buffer held. -/
theorem status_loop_bare_stopped (line : List Char) (hlen : 200 ≤ line.length)
    (t : task_tally) (fuel : Nat) :
    status_loop (fuel + 3) "107".toList bare_stopped_status line
      { is_sleeping := false, count := 0, pid := 0, uid := 0, name := none, state := none } t
      = none := by
  have r1 := lineread_line "Name:\tsystemd-journal".toList
    "Umask:\t0022\nState:\tT\nTgid:\t107\nUid:\t0\t0\t0\t0\n".toList line 200 (by decide)
    (by decide) (by simp only [String.toList]; simp; omega)
  generalize hG : line.drop ("Name:\tsystemd-journal".toList.length + 1) = G at r1
  have hGlen : 178 ≤ G.length := by
    rw [← hG]; simp only [String.toList]; simp; omega
  have r2 := lineread_line "Umask:\t0022".toList
    "State:\tT\nTgid:\t107\nUid:\t0\t0\t0\t0\n".toList
    ("Name\x00\tsystemd-journal\x00".toList ++ G) 200 (by decide) (by decide)
    (by simp only [String.toList]; simp)
  have r3 := lineread_line "State:\tT".toList "Tgid:\t107\nUid:\t0\t0\t0\t0\n".toList
    ("Umask\x00\t0022\n".toList ++ ("d-journal\x00".toList ++ G)) 200 (by decide) (by decide)
    (by simp only [String.toList]; simp)
  have b1 := body_name_line G
    { is_sleeping := false, count := 0, pid := 0, uid := 0, name := none, state := none } t
    rfl rfl
  have b2 := body_umask_line ("d-journal\x00".toList ++ G)
    { is_sleeping := false, count := 0 + 1, pid := 0, uid := 0,
      name := some "systemd-journal".toList, state := none } t rfl
  have b3 := body_state_line G
    { is_sleeping := false, count := 0 + 1, pid := 0, uid := 0,
      name := some "systemd-journal".toList, state := none } t
  simp only [String.toList, List.append_assoc, List.cons_append, List.nil_append,
    List.length_cons, List.length_nil, List.drop_succ_cons, List.drop_zero,
    bare_stopped_status] at r1 r2 r3 b1 b2 b3 ⊢
  refine (status_loop_continue (fuel + 2) _ _ _ _ _ _ _ _ _ _ _ r1 (by norm_num) b1).trans ?_
  refine (status_loop_continue (fuel + 1) _ _ _ _ _ _ _ _ _ _ _ r2 (by norm_num) b2).trans ?_
  exact status_loop_fault fuel _ _ _ _ _ _ _ _ r3 (by norm_num) b3

theorem entries_loop_fault (junk : Nat → List Char) (e : dir_entry) (es : List dir_entry)
    (i : Nat) (t : task_tally) (content : List Char)
    (hnum : is_only_numeric e.d_name = true) (hst : e.status = some content)
    (h : status_loop (content.length + 1) e.d_name content (stack_array 300 (junk i))
      { is_sleeping := false, count := 0, pid := 0, uid := 0, name := none, state := none }
      { t with total := t.total + 1 } = none) :
    entries_loop junk (e :: es) i t = none := by
  simp only [entries_loop, hnum, if_true, hst, h]

theorem entries_loop_bare_stopped (junk : Nat → List Char) (t : task_tally) :
    entries_loop junk [⟨"107".toList, some bare_stopped_status⟩] 0 t = none := by
  have hfuel : bare_stopped_status.length + 1 = 64 + 3 := by decide
  refine entries_loop_fault junk _ _ 0 t bare_stopped_status (by decide) rfl ?_
  rw [hfuel]
  exact status_loop_bare_stopped (stack_array 300 (junk 0))
    (by rw [length_stack_array]; omega) { t with total := t.total + 1 } 64


/-! ## The census on a name longer than the array `name` -/

/-- The Name line of the worker thread: the name and its terminator take 28
bytes, two more than the array `name` has. -/
theorem body_long_name_line (G : List Char) (loc : task_locals) (t : task_tally)
    (hs : loc.is_sleeping = false) :
    status_line_body "212".toList ("Name:\tkworker/0:0H-events_highpri\n".toList ++ G) loc t
      = none := by
  simp [status_line_body, state_block, uid_block, name_block, next_token, strspn, strcspn,
    peek, strcmp_eq, cstr, deref, NUL, strcpy_into, hs]

/-- The directory loop on the worker thread, whatever the line buffer held. -/
theorem entries_loop_long_name (junk : Nat → List Char) (t : task_tally) :
    entries_loop junk long_name_record 0 t = none := by
  have hfuel : long_name_status.length + 1 = 85 + 1 := by decide
  refine entries_loop_fault junk _ _ 0 t long_name_status (by decide) rfl ?_
  rw [hfuel]
  have r1 := lineread_line "Name:\tkworker/0:0H-events_highpri".toList
    "Umask:\t0000\nState:\tI (idle)\nTgid:\t212\nUid:\t0\t0\t0\t0\n".toList
    (stack_array 300 (junk 0)) 200 (by decide) (by decide)
    (by rw [length_stack_array]; decide)
  generalize (stack_array 300 (junk 0)).drop
    ("Name:\tkworker/0:0H-events_highpri".toList.length + 1) = G at r1
  have b1 := body_long_name_line G
    { is_sleeping := false, count := 0, pid := 0, uid := 0, name := none, state := none }
    { t with total := t.total + 1 } rfl
  simp only [String.toList, List.append_assoc, List.cons_append, List.nil_append,
    List.length_cons, List.length_nil, long_name_status] at r1 b1 ⊢
  exact status_loop_fault 85 _ _ _ _ _ _ _ _ r1 (by norm_num) b1

/-! ## Claims about `next_token` -/

/-- **C1.** For a cursor at offset `p` of `buf`, let `s` be the C string there
(NUL-free by construction) and suppose `s` has a byte outside the delimiter
set `d`. Then `next_token` returns a pointer just past the leading run of
delimiters of `s`; the string at that pointer is the maximal run of
non-delimiter bytes found there, and it is not empty. If that run reached the
end of `s` the cursor is finished and memory is untouched; otherwise the byte
after the run is a delimiter, only that byte is overwritten, and the cursor is
one byte past it, with the rest of `s` as its string. -/
theorem next_token_maximal_run (buf : List Char) (p : Nat) (d : List Char)
    (h : ∃ c ∈ cstr buf p, c ∉ d) :
    let s := cstr buf p
    let lead := s.takeWhile (fun c => d.contains c)
    let tok := (s.dropWhile (fun c => d.contains c)).takeWhile (fun c => !d.contains c)
    let after := (s.dropWhile (fun c => d.contains c)).dropWhile (fun c => !d.contains c)
    let r := next_token buf (some p) d
    tok ≠ [] ∧ r.1 = some (p + lead.length) ∧ cstr r.2.1 (p + lead.length) = tok ∧
    (after = [] → r.2.2 = none ∧ r.2.1 = buf) ∧
    (∀ c rest, after = c :: rest →
      c ∈ d ∧ r.2.2 = some (p + lead.length + tok.length + 1) ∧
      r.2.1 = buf.set (p + lead.length + tok.length) NUL ∧
      cstr r.2.1 (p + lead.length + tok.length + 1) = rest) :=
  next_token_spec buf p d h

/-- Witness for C1: in `"::ab:c"` with delimiter `":"` the token starts at
offset 2, after the two leading delimiters. -/
theorem next_token_maximal_run_witness :
    (∃ c ∈ cstr "::ab:c".toList 0, c ∉ ":".toList) ∧
    (next_token "::ab:c".toList (some 0) ":".toList).1 = some (0 + 2) :=
  ⟨⟨'a', by decide, by decide⟩,
    (next_token_maximal_run "::ab:c".toList 0 ":".toList ⟨'a', by decide, by decide⟩).2.1⟩

/-- **C2.** `next_token` returns no token exactly when the cursor is already
finished or the string at the cursor holds delimiters only (the empty string
included). Whenever it returns no token the cursor is finished and memory is
untouched, and every later call on that cursor, whatever the delimiter sets,
returns no token and leaves the cursor finished. -/
theorem next_token_none_iff (buf : List Char) (ptr : Option Nat) (d : List Char) :
    ((next_token buf ptr d).1 = none ↔
      (ptr = none ∨ ∃ p, ptr = some p ∧ ∀ c ∈ cstr buf p, c ∈ d)) ∧
    ((next_token buf ptr d).1 = none →
      (next_token buf ptr d).2.2 = none ∧ (next_token buf ptr d).2.1 = buf ∧
      ∀ ds : List (List Char),
        next_token_calls (next_token buf ptr d).2.1 (next_token buf ptr d).2.2 ds
          = (List.replicate ds.length none, buf, none)) := by
  have key : (next_token buf ptr d).1 = none ↔
      (ptr = none ∨ ∃ p, ptr = some p ∧ ∀ c ∈ cstr buf p, c ∈ d) := by
    cases ptr with
    | none => simp [next_token]
    | some p =>
      constructor
      · intro hnone
        refine Or.inr ⟨p, rfl, ?_⟩
        by_contra hex
        push_neg at hex
        have := (next_token_spec buf p d hex).2.1
        simp only [] at this
        rw [this] at hnone
        exact absurd hnone (by simp)
      · rintro (h | ⟨q, hq, hall⟩)
        · exact absurd h (by simp)
        · cases hq
          rw [next_token_all_delims buf p d hall]
  refine ⟨key, fun hnone => ?_⟩
  rcases key.mp hnone with h | ⟨p, hp, hall⟩
  · subst h
    refine ⟨rfl, rfl, fun ds => ?_⟩
    exact next_token_calls_finished buf ds
  · subst hp
    rw [next_token_all_delims buf p d hall]
    refine ⟨rfl, rfl, fun ds => ?_⟩
    exact next_token_calls_finished buf ds


/-- Witness for C2: on `"::"` with delimiter `":"` no token is returned, the
cursor is finished, and two further calls with other delimiters return none. -/
theorem next_token_none_iff_witness :
    (next_token "::".toList (some 0) ":".toList).1 = none ∧
    next_token_calls (next_token "::".toList (some 0) ":".toList).2.1
      (next_token "::".toList (some 0) ":".toList).2.2 [" ".toList, "\t".toList]
      = (List.replicate 2 none, "::".toList, none) :=
  ⟨by decide,
    ((next_token_none_iff "::".toList (some 0) ":".toList).2 (by decide)).2.2
      [" ".toList, "\t".toList]⟩

/-- Counterexample for C3: after two calls with delimiters `":\t"` on
`"State:\tS (sleeping)\n"` the second token is not `"S"`. -/
theorem state_line_second_token_not_S :
    ¬ ((next_token_calls "State:\tS (sleeping)\n".toList (some 0)
          [":\t".toList, ":\t".toList]).1.map
        (Option.map (cstr (next_token_calls "State:\tS (sleeping)\n".toList (some 0)
          [":\t".toList, ":\t".toList]).2.1))
      = [some "State".toList, some "S".toList]) := by
  decide

/-- **C3 (amended).** Two calls with delimiters `":\t"` on
`"State:\tS (sleeping)\n"` yield `"State"` and then the whole rest of the line,
`"S (sleeping)\n"`, whose first byte is `S`; the second call finishes the
cursor, so nothing is left for a third call. -/
theorem state_line_tokens :
    (next_token_calls "State:\tS (sleeping)\n".toList (some 0)
          [":\t".toList, ":\t".toList]).1.map
        (Option.map (cstr (next_token_calls "State:\tS (sleeping)\n".toList (some 0)
          [":\t".toList, ":\t".toList]).2.1))
      = [some "State".toList, some "S (sleeping)\n".toList] ∧
    (next_token_calls "State:\tS (sleeping)\n".toList (some 0)
          [":\t".toList, ":\t".toList]).2.2 = none ∧
    (next_token "State:\tS (sleeping)\n".toList (some 0) ":\t".toList).2.2 = some 6 := by
  decide

/-! ## Claims about `pfs_cpu_usage` -/

/-- Counterexample for C4: on a line of ten counters `100000000` and a zeroed
previous snapshot both deltas are positive, yet the value returned is
`80001/90001` and not `1 - 100000000/1000000000`: the read stops after 100
bytes, so the tenth counter is taken to be `10000`. -/
theorem cpu_usage_long_line_value :
    0 < counter_at (long_stat_fields "100000000".toList) 3 - 0 ∧
    0 < counters_sum (long_stat_fields "100000000".toList) - 0 ∧
    pfs_cpu_usage (some (stat_line (long_stat_fields "100000000".toList) ['\n'])) []
        ⟨0, 0⟩ ⟨0, 0⟩
      = some (CDouble.fin (80001 / 90001), ⟨0, 0⟩, ⟨100000000, 900010000⟩) ∧
    CDouble.fin (80001 / 90001) ≠
      CDouble.fin (1 - ((counter_at (long_stat_fields "100000000".toList) 3 - 0 : Int) : ℚ)
        / ((counters_sum (long_stat_fields "100000000".toList) - 0 : Int) : ℚ)) := by
  decide!

/-- **C4 (amended).** Let the first line of `stat` be `cpu` followed by ten
space-separated decimal counters, the line with its newline being at most 100
bytes long and the counters adding up to at most `LONG_MAX`. If the idle
delta and the total delta against `prev` are positive and fit in a `long`,
`pfs_cpu_usage` returns exactly `1 - Δidle / Δtotal` in rational arithmetic. -/
theorem cpu_usage_busy_fraction (fs : List (Nat × List Char)) (more junk : List Char)
    (prev curr : cpu_stats) (hlen : fs.length = 10) (hfs : ∀ f ∈ fs, is_counter f.2)
    (hfit : (stat_line fs []).length + 1 ≤ 100) (hsum : counters_sum fs ≤ LONG_MAX)
    (hidle : 0 < counter_at fs 3 - prev.idle) (htotal : 0 < counters_sum fs - prev.total)
    (hi : counter_at fs 3 - prev.idle ≤ LONG_MAX)
    (ht : counters_sum fs - prev.total ≤ LONG_MAX) :
    (pfs_cpu_usage (some (stat_line fs ('\n' :: more))) junk prev curr).map (fun r => r.1) =
      some (CDouble.fin (1 - ((counter_at fs 3 - prev.idle : Int) : ℚ)
        / ((counters_sum fs - prev.total : Int) : ℚ))) := by
  rw [pfs_cpu_usage_eval fs more junk prev curr hlen hfs hfit hsum,
    cpu_usage_value_pos _ _ prev curr hidle htotal hi ht]
  rfl

/-- Witness for C4: the line `cpu  4 0 2 10 1 0 0 0 0 0` against the snapshot
`idle = 4, total = 9` has deltas 6 and 8. -/
theorem cpu_usage_busy_fraction_witness :
    (pfs_cpu_usage (some (stat_line sample_stat_fields ['\n'])) [] ⟨4, 9⟩ ⟨0, 0⟩).map
        (fun r => r.1) =
      some (CDouble.fin (1 - ((counter_at sample_stat_fields 3 - 4 : Int) : ℚ)
        / ((counters_sum sample_stat_fields - 9 : Int) : ℚ))) :=
  cpu_usage_busy_fraction sample_stat_fields [] [] ⟨4, 9⟩ ⟨0, 0⟩ (by decide) (by decide)
    (by decide) (by decide) (by decide) (by decide) (by decide) (by decide)

/-- **C5 (evaluation at the failing input).** A first call on
`cpu 5 0 0 100 3 0 0 0 0 0` stores `idle = 100, total = 108`. A second call on
`cpu 5 0 0 101 2 0 0 0 0 0` against that snapshot has a total delta of 0 and an
idle delta of 1: the quotient is `+inf`, the value `1 - inf` is `-inf`, which
is not a NaN, and `-inf` is what the call returns. -/
theorem cpu_usage_zero_total_delta :
    pfs_cpu_usage (some "cpu 5 0 0 100 3 0 0 0 0 0\n".toList) [] ⟨0, 0⟩ ⟨0, 0⟩
      = some (CDouble.fin (2 / 27), ⟨0, 0⟩, ⟨100, 108⟩) ∧
    pfs_cpu_usage (some "cpu 5 0 0 101 2 0 0 0 0 0\n".toList) [] ⟨100, 108⟩ ⟨0, 0⟩
      = some (CDouble.ninf, ⟨100, 108⟩, ⟨101, 108⟩) := by
  decide!

/-- Counterexample for C6: on a line of ten counters `200000000` the total
stored in the current snapshot is `1800020000`, not the sum `2000000000` of
the ten counters. -/
theorem cpu_usage_long_line_total :
    (pfs_cpu_usage (some (stat_line (long_stat_fields "200000000".toList) ['\n'])) []
        ⟨0, 0⟩ ⟨0, 0⟩).map (fun r => r.2.2.total) = some 1800020000 ∧
    counters_sum (long_stat_fields "200000000".toList) = 2000000000 ∧
    (pfs_cpu_usage (some (stat_line (long_stat_fields "200000000".toList) ['\n'])) []
        ⟨0, 0⟩ ⟨0, 0⟩).map (fun r => r.2.2.total) ≠
      some (counters_sum (long_stat_fields "200000000".toList)) := by
  decide!

/-- **C6 (amended).** Let the first line of `stat` be `cpu` followed by ten
space-separated decimal counters, the line with its newline being at most 100
bytes long and the counters adding up to at most `LONG_MAX`. Then for every
`prev`, on whichever branch `pfs_cpu_usage` returns, the current snapshot
holds the sum of the ten counters as `total` and the fourth counter as `idle`,
and the previous snapshot is unchanged. When the open fails, neither snapshot
changes. -/
theorem cpu_usage_snapshots (fs : List (Nat × List Char)) (more junk : List Char)
    (prev curr : cpu_stats) (hlen : fs.length = 10) (hfs : ∀ f ∈ fs, is_counter f.2)
    (hfit : (stat_line fs []).length + 1 ≤ 100) (hsum : counters_sum fs ≤ LONG_MAX) :
    (pfs_cpu_usage (some (stat_line fs ('\n' :: more))) junk prev curr).map (fun r => r.2) =
      some (prev, ⟨counter_at fs 3, counters_sum fs⟩) ∧
    (pfs_cpu_usage none junk prev curr).map (fun r => r.2) = some (prev, curr) := by
  rw [pfs_cpu_usage_eval fs more junk prev curr hlen hfs hfit hsum]
  exact ⟨congrArg some (cpu_usage_value_snapshots _ _ prev curr), rfl⟩

/-- Witness for C6: the line `cpu  4 0 2 10 1 0 0 0 0 0` against a snapshot
ahead of it, so that the guard branch returning 0.0 is the one taken. -/
theorem cpu_usage_snapshots_witness :
    (pfs_cpu_usage (some (stat_line sample_stat_fields ['\n'])) [] ⟨50, 90⟩ ⟨7, 7⟩).map
        (fun r => r.2) =
      some (⟨50, 90⟩, ⟨counter_at sample_stat_fields 3, counters_sum sample_stat_fields⟩) ∧
    (pfs_cpu_usage none [] ⟨50, 90⟩ ⟨7, 7⟩).map (fun r => r.2) = some (⟨50, 90⟩, ⟨7, 7⟩) :=
  cpu_usage_snapshots sample_stat_fields [] [] ⟨50, 90⟩ ⟨7, 7⟩ (by decide) (by decide)
    (by decide) (by decide)

/-! ## Claim about `is_only_numeric` -/

/-- **C10 (evaluation at the failing inputs).** `is_only_numeric` accepts
`12abc`, `7 up` and `+5`, none of which is made of digits only, and rejects
`0` and `000`, which are. -/
theorem is_only_numeric_not_digits_only :
    is_only_numeric "12abc".toList = true ∧ is_only_numeric "7 up".toList = true ∧
    is_only_numeric "+5".toList = true ∧ is_only_numeric "0".toList = false ∧
    is_only_numeric "000".toList = false := by
  decide

/-! ## Claims about `pfs_tasks` -/

/-- The census on records that fit the arrays of `pfs_tasks`. Take a directory
in which every entry that passes `is_only_numeric` and whose status file opens
holds a readable status record with one State line: lines `label:<TAB>value`
of at most 200 bytes with distinct labels, the State value starting with a
code of the table (after `T` comes the parenthesised description), the Uid
value starting with a digit and the Name value having 1 to 25 bytes; any bytes
may follow these lines once State, Uid and Name have all occurred. Whatever
the initial content of the line buffer, `pfs_tasks` returns 0 and reports
`total` = the number of records opened, and the buckets are the sums of one
unit per record, placed by the table according to the record's state code; so
`total` is the sum of the five buckets. -/
theorem pfs_tasks_census (ents : List (List Char × Option status_file))
    (junk : Nat → List Char) (tstats : task_stats)
    (h : ∀ e ∈ ents, is_only_numeric e.1 = true → ∀ r ∈ e.2, record_ok r) :
    ∃ ts, pfs_tasks (some (ents.map to_dir_entry)) junk tstats = some (0, ts) ∧
      ts.total = (opened_records ents).length ∧
      stats_buckets ts = table_buckets (opened_records ents) ∧
      ts.total = (stats_buckets ts).sum := by
  obtain ⟨t', h1, h2, h3, h4⟩ := entries_loop_counts junk ents 0 ⟨0, 0, 0, 0, 0, 0, []⟩ h
  have h3' : tally_buckets t' = table_buckets (opened_records ents) := by
    rw [h3, bucket_add_comm]
    exact bucket_add_zero _
  refine ⟨⟨t'.total, t'.running, t'.waiting, t'.sleeping, t'.stopped, t'.zombie,
    t'.written ++ tstats.active_tasks.drop t'.written.length⟩, by simp only [pfs_tasks, h1],
    ?_, ?_, ?_⟩
  · simpa using h2
  · exact h3'
  · show t'.total = (tally_buckets t').sum
    rw [h3', h4]
    simpa using h2

set_option maxRecDepth 100000 in
/-- An instance of the census: three process records with states `R`, `S` and
`Z`, the first one continuing with a line of more than 300 bytes, give total 3
and, in the order running, waiting, sleeping, stopped, zombie, the buckets
1, 0, 1, 0, 1. -/
theorem pfs_tasks_census_witness :
    (∃ ts, pfs_tasks (some (three_records.map to_dir_entry)) (fun _ => []) ⟨0, 0, 0, 0, 0, 0, []⟩
        = some (0, ts) ∧
      ts.total = (opened_records three_records).length ∧
      stats_buckets ts = table_buckets (opened_records three_records) ∧
      ts.total = (stats_buckets ts).sum) ∧
    (opened_records three_records).length = 3 ∧
    table_buckets (opened_records three_records) = ⟨1, 0, 1, 0, 1⟩ ∧
    (pfs_tasks (some (three_records.map to_dir_entry)) (fun _ => []) ⟨0, 0, 0, 0, 0, 0, []⟩).map
        (fun r => (r.1, r.2.total, stats_buckets r.2)) = some (0, 3, ⟨1, 0, 1, 0, 1⟩) :=
  ⟨pfs_tasks_census three_records (fun _ => []) ⟨0, 0, 0, 0, 0, 0, []⟩ (by decide),
    by decide, by decide, by decide⟩

set_option maxRecDepth 100000 in
/-- **C7 (evaluation at the failing input).** Three records with states `R`,
`S` and `Z` are counted as the table says: total 3, running 1, sleeping 1,
zombie 1, waiting 0, stopped 0. A kernel worker named
`kworker/0:0H-events_highpri`, 27 bytes, in state `I (idle)`, is a readable
record whose State code is in the table; yet whatever the line buffer held,
`strcpy` copies the name and its terminator, 28 bytes, into the 26-byte array
`name`: the call is undefined, where the claim has the record counted once in
`total` and once as sleeping. -/
theorem pfs_tasks_long_name (junk : Nat → List Char) (tstats : task_stats) :
    (pfs_tasks (some (three_records.map to_dir_entry)) (fun _ => []) ⟨0, 0, 0, 0, 0, 0, []⟩).map
        (fun r => (r.1, r.2.total, stats_buckets r.2)) = some (0, 3, ⟨1, 0, 1, 0, 1⟩) ∧
    pfs_tasks (some long_name_record) junk tstats = none := by
  refine ⟨by decide, ?_⟩
  simp only [pfs_tasks, entries_loop_long_name]

/-- **C8 (evaluation at the failing input).** On a directory holding one
process whose State line reads `P (parked)`, `pfs_tasks` counts the record in
no bucket, yet appends an entry for it: the list has one entry while
running + waiting + stopped + zombie is 0, and the state of that entry was
never assigned. -/
theorem pfs_tasks_parked_entry :
    pfs_tasks (some parked_record) (fun _ => []) ⟨0, 0, 0, 0, 0, 0, []⟩ =
      some (0, ⟨1, 0, 0, 0, 0, 0, [⟨106, 0, some "kthreadd".toList, none⟩]⟩) := by
  decide

/-- **C9 (evaluation at the failing input).** On a running process followed by
a parked one, the second entry of the active-task list has a state that no
branch of the classification assigned: it is none of the five labels. -/
theorem pfs_tasks_unassigned_label :
    (pfs_tasks (some running_then_parked) (fun _ => []) ⟨0, 0, 0, 0, 0, 0, []⟩).map
        (fun r => r.2.active_tasks.map (fun e => (e.pid, e.state))) =
      some [(101, some "running".toList), (106, none)] ∧
    ∀ l ∈ state_labels, (none : Option (List Char)) ≠ some l := by
  decide

/-! ## Claim about the code `T` in `pfs_tasks` -/

/-- **C11 (evaluation at the failing input).** Two processes whose State
values are `T (stopped)` and `T (tracing stop)` are counted as stopped and
labelled `stopped` and `tracing stop`. For a process named `systemd-journal`
whose State value is `T` alone, whatever the line buffer held before, the
State token runs to the terminator that reading the name left in the buffer
and holds no space, so `next_token` has no second token to return: `strcmp`
is handed a null pointer and the call is undefined, where the claim has the
record labelled `stopped`. -/
theorem pfs_tasks_bare_stopped (junk : Nat → List Char) (tstats : task_stats) :
    (pfs_tasks (some stopped_records) (fun _ => []) ⟨0, 0, 0, 0, 0, 0, []⟩).map
        (fun r => (r.2.stopped, r.2.active_tasks.map (fun e => (e.pid, e.state)))) =
      some (2, [(107, some "stopped".toList), (108, some "tracing stop".toList)]) ∧
    pfs_tasks (some bare_stopped_record) junk tstats = none := by
  refine ⟨by decide, ?_⟩
  simp only [pfs_tasks, bare_stopped_record, entries_loop_bare_stopped]

/-! ## Claims about `pfs_mem_usage` -/

/-- **C12.** Let `meminfo` hold lines `label:value` with distinct labels, each
at most 200 bytes long with its newline, among them `MemTotal:` and
`MemAvailable:` followed by spaces, the decimal digits of `T` or `A`, and
` kB`; any bytes may follow these lines. Whatever the initial content of the
line buffer, `pfs_mem_usage` returns `total = T / 1024 / 1024` and
`used = (T - A) / 1024 / 1024` in rational arithmetic. -/
theorem pfs_mem_usage_amounts (fs : List (List Char × List Char)) (more junk : List Char)
    (kT kA : Nat) (dT dA : List Char) (hok : ∀ f ∈ fs, mem_field_ok f)
    (hnd : (fs.map Prod.fst).Nodup)
    (hT : ("MemTotal".toList, amount_text kT dT) ∈ fs)
    (hA : ("MemAvailable".toList, amount_text kA dA) ∈ fs)
    (hdT : is_counter dT) (hdA : is_counter dA) :
    pfs_mem_usage (some (meminfo_text fs ++ more)) junk =
      some ⟨CDouble.fin ((decimal dT : ℚ) / 1024 / 1024),
        CDouble.fin (((decimal dT : ℚ) - (decimal dA : ℚ)) / 1024 / 1024)⟩ := by
  have h1 : mem_amount "MemTotal".toList fs = decimal dT := by
    rw [mem_amount_of_mem _ _ fs hnd hT, amount_of_text kT dT hdT]
  have h2 : mem_amount "MemAvailable".toList fs = decimal dA := by
    rw [mem_amount_of_mem _ _ fs hnd hA, amount_of_text kA dA hdA]
  rw [pfs_mem_usage_eval fs more junk hok hnd
    (Or.inr ⟨List.mem_map.mpr ⟨_, hT, rfl⟩, List.mem_map.mpr ⟨_, hA, rfl⟩⟩), h1, h2]

/-- Witness for C12: with `MemTotal: 8000000 kB` and `MemAvailable: 2000000 kB`
the total is `8000000/1048576` and the used amount `6000000/1048576`. -/
theorem pfs_mem_usage_amounts_witness :
    (∀ f ∈ sample_meminfo, mem_field_ok f) ∧ (sample_meminfo.map Prod.fst).Nodup ∧
    pfs_mem_usage (some (meminfo_text sample_meminfo ++ [])) [] =
      some ⟨CDouble.fin ((decimal "8000000".toList : ℚ) / 1024 / 1024),
        CDouble.fin (((decimal "8000000".toList : ℚ) - (decimal "2000000".toList : ℚ))
          / 1024 / 1024)⟩ ∧
    CDouble.fin ((decimal "8000000".toList : ℚ) / 1024 / 1024) =
      CDouble.fin (8000000 / 1048576) ∧
    CDouble.fin (((decimal "8000000".toList : ℚ) - (decimal "2000000".toList : ℚ))
      / 1024 / 1024) = CDouble.fin (6000000 / 1048576) :=
  ⟨by decide, by decide,
    pfs_mem_usage_amounts sample_meminfo [] [] 8 4 "8000000".toList "2000000".toList
      (by decide) (by decide) (by decide) (by decide) (by decide) (by decide),
    by decide!, by decide!⟩

/-- Counterexample for C13: on a `meminfo` that states 1000 kB in total and
2000 kB available, the used amount returned is `-1000/1048576`, a negative
number. -/
theorem pfs_mem_usage_negative_used :
    pfs_mem_usage (some (meminfo_text inverted_meminfo)) [] =
      some ⟨CDouble.fin (1000 / 1048576), CDouble.fin (-1000 / 1048576)⟩ ∧
    CDouble.lt (CDouble.fin (-1000 / 1048576)) (CDouble.fin 0) = true := by
  decide!

/-- **C13 (amended).** Let `meminfo` hold lines `label:value` with distinct
labels, each at most 200 bytes long with its newline, a `MemTotal` or
`MemAvailable` line stating an amount; bytes may follow these lines when both
labels are among them. With `T` and `A` the amounts of the two lines, 0 for a
line that is missing, `pfs_mem_usage` returns `used = (T - A) / 1024 / 1024`;
so `used` is negative exactly when `A` exceeds `T`, and never when `A ≤ T`. -/
theorem pfs_mem_usage_used_sign (fs : List (List Char × List Char)) (more junk : List Char)
    (hok : ∀ f ∈ fs, mem_field_ok f) (hnd : (fs.map Prod.fst).Nodup)
    (hmore : more = [] ∨ ("MemTotal".toList ∈ fs.map Prod.fst ∧
      "MemAvailable".toList ∈ fs.map Prod.fst)) :
    ∃ ms, pfs_mem_usage (some (meminfo_text fs ++ more)) junk = some ms ∧
      ms.used = CDouble.fin (((mem_amount "MemTotal".toList fs : ℚ) -
        (mem_amount "MemAvailable".toList fs : ℚ)) / 1024 / 1024) ∧
      (CDouble.lt ms.used (CDouble.fin 0) = true ↔
        mem_amount "MemTotal".toList fs < mem_amount "MemAvailable".toList fs) := by
  refine ⟨_, pfs_mem_usage_eval fs more junk hok hnd hmore, rfl, ?_⟩
  simp only [CDouble.lt, decide_eq_true_eq]
  rw [div_lt_iff₀ (by norm_num), div_lt_iff₀ (by norm_num)]
  simp only [zero_mul, sub_neg]
  exact_mod_cast Iff.rfl

/-- Witness for C13: the sample `meminfo`, with 8000000 kB in total and
2000000 kB available, and a `meminfo` without a MemTotal line. -/
theorem pfs_mem_usage_used_sign_witness :
    (∃ ms, pfs_mem_usage (some (meminfo_text sample_meminfo ++ [])) [] = some ms ∧
      ms.used = CDouble.fin (((mem_amount "MemTotal".toList sample_meminfo : ℚ) -
        (mem_amount "MemAvailable".toList sample_meminfo : ℚ)) / 1024 / 1024) ∧
      (CDouble.lt ms.used (CDouble.fin 0) = true ↔
        mem_amount "MemTotal".toList sample_meminfo <
          mem_amount "MemAvailable".toList sample_meminfo)) ∧
    mem_amount "MemTotal".toList sample_meminfo = 8000000 ∧
    mem_amount "MemAvailable".toList sample_meminfo = 2000000 :=
  ⟨pfs_mem_usage_used_sign sample_meminfo [] [] (by decide) (by decide) (Or.inl rfl),
    by decide, by decide⟩

/-! ## Claims about `lineread` and `pfs_kernel_version` -/

/-- **C14 (the failing case).** When the stream ends with a line of `n`
bytes that has no newline, and `n` is below the capacity, `lineread` stores
the `n` bytes in the buffer and returns 0, not `n`. -/
theorem lineread_final_line (ln buf : List Char) (sz : Nat) (hln : ∀ c ∈ ln, c ≠ '\n')
    (hsz : ln.length < sz) (hbuf : ln.length ≤ buf.length) :
    lineread ln buf sz = (0, [], ln ++ buf.drop ln.length) := by
  have := lineread_loop_end ln hln sz [] buf hsz hbuf
  simpa [lineread] using this

/-- Evaluation for C14: the stream `abc` read into a buffer of ten bytes. -/
theorem lineread_final_line_witness :
    (∀ c ∈ "abc".toList, c ≠ '\n') ∧ "abc".toList.length < 10 ∧
    lineread "abc".toList (List.replicate 10 '#') 10 =
      (0, [], "abc".toList ++ (List.replicate 10 '#').drop "abc".toList.length) :=
  ⟨by decide, by decide, lineread_final_line "abc".toList (List.replicate 10 '#') 10
    (by decide) (by decide) (by decide)⟩

/-- **C15.** When the first line of `osrelease`, newline included, fits in the
caller's buffer (and holds no terminator), `pfs_kernel_version` returns 0 and
leaves in the buffer the string made of the bytes of that line before its
first `-`, which is the whole line without its newline when it has no `-`. -/
theorem pfs_kernel_version_before_dash (ln more version_buf : List Char) (buf_sz : Nat)
    (hfit : line_fits buf_sz ln) (hbuf : buf_sz ≤ version_buf.length) :
    (pfs_kernel_version (some (ln ++ '\n' :: more)) version_buf buf_sz).1 = 0 ∧
    cstr (pfs_kernel_version (some (ln ++ '\n' :: more)) version_buf buf_sz).2 0 =
      ln.takeWhile (fun c => c != '-') ∧
    ('-' ∉ ln → cstr (pfs_kernel_version (some (ln ++ '\n' :: more)) version_buf buf_sz).2 0
      = ln) := by
  obtain ⟨rest, h⟩ := pfs_kernel_version_eval ln more version_buf buf_sz hfit hbuf
  have hc : cstr (ln.takeWhile (fun c => c != '-') ++ NUL :: rest) 0 =
      ln.takeWhile (fun c => c != '-') :=
    cstr_zero _ _ (fun c hc => (hfit.2 c (by
      rw [← List.takeWhile_append_dropWhile (fun c => c != '-') ln]
      exact List.mem_append_left _ hc)).1)
  rw [h]
  refine ⟨rfl, hc, ?_⟩
  intro hno
  rw [hc]
  apply List.takeWhile_eq_self_iff.mpr
  intro c hc
  have : c ≠ '-' := fun e => hno (e ▸ hc)
  simpa using this

/-- Witness for C15: the release `5.15.0-76-generic` read into a buffer of 32
bytes gives the version `5.15.0`. -/
theorem pfs_kernel_version_before_dash_witness :
    line_fits 32 "5.15.0-76-generic".toList ∧
    (pfs_kernel_version (some "5.15.0-76-generic\n".toList) (List.replicate 32 '#') 32).1 = 0 ∧
    cstr (pfs_kernel_version (some "5.15.0-76-generic\n".toList) (List.replicate 32 '#') 32).2 0
      = "5.15.0".toList :=
  ⟨by decide,
    (pfs_kernel_version_before_dash "5.15.0-76-generic".toList [] (List.replicate 32 '#') 32
      (by decide) (by decide)).1,
    (pfs_kernel_version_before_dash "5.15.0-76-generic".toList [] (List.replicate 32 '#') 32
      (by decide) (by decide)).2.1⟩

/-! ## Claim about `pfs_cpu_units` -/

/-- Counterexample for C16: in a `stat` file whose first two lines begin with
`cpu` and whose third line, `intr 12 cpu 3`, only contains it, the spec's
count is 2 - 1 = 1, while `pfs_cpu_units` counts the third line too and
returns 2. -/
theorem cpu_units_inner_cpu_counted :
    (∀ l ∈ stat_with_inner_cpu, line_fits 100 l) ∧
    cpu_units_spec stat_with_inner_cpu = 1 ∧
    pfs_cpu_units 10 (some (text_of_lines stat_with_inner_cpu)) [] = some 2 ∧
    pfs_cpu_units 10 (some (text_of_lines stat_with_inner_cpu)) [] ≠
      some (cpu_units_spec stat_with_inner_cpu) := by
  decide

/-- **C16 (amended).** Let `stat` start with lines that each, newline
included, fit the 100-byte read and hold no terminator, let one of them not
contain `cpu`, and let `k` be the number of consecutive lines from the start
of the file that contain `cpu` anywhere, with `k` below `2^31`. Then the scan
of `pfs_cpu_units` ends within `k` iterations and the call returns
`max(k - 1, 0)`; when the open fails it returns -1. -/
theorem pfs_cpu_units_counts_cpu_lines (lines : List (List Char)) (rest junk : List Char)
    (fuel : Nat) (hfit : ∀ l ∈ lines, line_fits 100 l)
    (hstop : ∃ l ∈ lines, contains_cpu l = false)
    (hmax : leading_lines contains_cpu lines < 2147483648)
    (hfuel : leading_lines contains_cpu lines ≤ fuel) :
    pfs_cpu_units fuel (some (text_of_lines lines ++ rest)) junk =
      some (max ((leading_lines contains_cpu lines : Int) - 1) 0) ∧
    pfs_cpu_units fuel none junk = some (-1) :=
  ⟨pfs_cpu_units_eval lines rest junk fuel hfit hstop hmax hfuel, rfl⟩

/-- Witness for C16: a `stat` file with the aggregate line and two core lines
gives 2. -/
theorem pfs_cpu_units_counts_cpu_lines_witness :
    (∀ l ∈ sample_stat_lines, line_fits 100 l) ∧
    leading_lines contains_cpu sample_stat_lines = 3 ∧
    pfs_cpu_units 3 (some (text_of_lines sample_stat_lines ++ [])) [] =
      some (max ((leading_lines contains_cpu sample_stat_lines : Int) - 1) 0) ∧
    pfs_cpu_units 3 (some (text_of_lines sample_stat_lines ++ [])) [] = some 2 :=
  ⟨by decide, by decide,
    (pfs_cpu_units_counts_cpu_lines sample_stat_lines [] [] 3 (by decide)
      ⟨"ctxt 77".toList, by decide, by decide⟩ (by decide) (by decide)).1,
    by decide⟩

/-! ## Claim about `pfs_cpu_usage` on a line with fewer than ten counters -/

/-- **C17 (evaluation at the failing inputs).** On the first lines
`cpu 11 2 13 84 5 6 7 8 9`, with nine counters, `cpu 1 2 3`, with three, and
`cpu`, with none, whatever the initial content of the line buffer and whatever
the snapshots, `pfs_cpu_usage` hands `atol` the null pointer that `next_token`
returns for an absent counter: the call is undefined, and no zero is
substituted. -/
theorem cpu_usage_absent_counters (junk : List Char) (prev curr : cpu_stats) :
    pfs_cpu_usage (some "cpu 11 2 13 84 5 6 7 8 9\n".toList) junk prev curr = none ∧
    pfs_cpu_usage (some "cpu 1 2 3\n".toList) junk prev curr = none ∧
    pfs_cpu_usage (some "cpu\n".toList) junk prev curr = none := by
  refine ⟨?_, ?_, ?_⟩
  · have hread := one_lineread_line "cpu 11 2 13 84 5 6 7 8 9".toList [] (stack_array 200 junk)
      100 (by decide) (by decide) (by rw [length_stack_array]; decide)
    generalize (stack_array 200 junk).drop ("cpu 11 2 13 84 5 6 7 8 9".toList.length + 1) = g
      at hread
    have e : "cpu 11 2 13 84 5 6 7 8 9\n".toList =
        "cpu 11 2 13 84 5 6 7 8 9".toList ++ ['\n'] := by decide
    rw [e]
    simp only [pfs_cpu_usage, hread]
    have h0 := tok_step [] 0 ['c', 'p', 'u'] ("11 2 13 84 5 6 7 8 9".toList ++ NUL :: g)
      (by simp) (by decide)
    have h1 := tok_step "cpu\x00".toList 0 ['1', '1'] ("2 13 84 5 6 7 8 9".toList ++ NUL :: g)
      (by simp) (by decide)
    have h2 := tok_step "cpu\x0011\x00".toList 0 ['2'] ("13 84 5 6 7 8 9".toList ++ NUL :: g)
      (by simp) (by decide)
    have h3 := tok_step "cpu\x0011\x002\x00".toList 0 ['1', '3']
      ("84 5 6 7 8 9".toList ++ NUL :: g) (by simp) (by decide)
    have h4 := tok_step "cpu\x0011\x002\x0013\x00".toList 0 ['8', '4']
      ("5 6 7 8 9".toList ++ NUL :: g) (by simp) (by decide)
    have h5 := tok_step "cpu\x0011\x002\x0013\x0084\x00".toList 0 ['5']
      ("6 7 8 9".toList ++ NUL :: g) (by simp) (by decide)
    have h6 := tok_step "cpu\x0011\x002\x0013\x0084\x005\x00".toList 0 ['6']
      ("7 8 9".toList ++ NUL :: g) (by simp) (by decide)
    have h7 := tok_step "cpu\x0011\x002\x0013\x0084\x005\x006\x00".toList 0 ['7']
      ("8 9".toList ++ NUL :: g) (by simp) (by decide)
    have h8 := tok_step "cpu\x0011\x002\x0013\x0084\x005\x006\x007\x00".toList 0 ['8']
      ("9".toList ++ NUL :: g) (by simp) (by decide)
    have h9 := tok_last "cpu\x0011\x002\x0013\x0084\x005\x006\x007\x008\x00".toList 0 ['9'] g
      (by simp) (by decide)
    simp only [String.toList, List.append_assoc, List.cons_append, List.nil_append,
      List.replicate, List.length_cons, List.length_nil, NUL] at h0 h1 h2 h3 h4 h5 h6 h7 h8 h9 ⊢
    simp only [h0, h1, h2, h3, h4, h5, h6, h7, h8, h9]
    simp [next_token, atol_at]
  · have hread := one_lineread_line "cpu 1 2 3".toList [] (stack_array 200 junk) 100
      (by decide) (by decide) (by rw [length_stack_array]; decide)
    generalize (stack_array 200 junk).drop ("cpu 1 2 3".toList.length + 1) = g at hread
    have e : "cpu 1 2 3\n".toList = "cpu 1 2 3".toList ++ ['\n'] := by decide
    rw [e]
    simp only [pfs_cpu_usage, hread]
    have h0 := tok_step [] 0 ['c', 'p', 'u'] ("1 2 3".toList ++ NUL :: g) (by simp) (by decide)
    have h1 := tok_step "cpu\x00".toList 0 ['1'] ("2 3".toList ++ NUL :: g) (by simp)
      (by decide)
    have h2 := tok_step "cpu\x001\x00".toList 0 ['2'] ("3".toList ++ NUL :: g) (by simp)
      (by decide)
    have h3 := tok_last "cpu\x001\x002\x00".toList 0 ['3'] g (by simp) (by decide)
    simp only [String.toList, List.append_assoc, List.cons_append, List.nil_append,
      List.replicate, List.length_cons, List.length_nil, NUL] at h0 h1 h2 h3 ⊢
    simp only [h0, h1, h2, h3]
    simp [next_token, atol_at]
  · have hread := one_lineread_line "cpu".toList [] (stack_array 200 junk) 100
      (by decide) (by decide) (by rw [length_stack_array]; decide)
    generalize (stack_array 200 junk).drop ("cpu".toList.length + 1) = g at hread
    have e : "cpu\n".toList = "cpu".toList ++ ['\n'] := by decide
    rw [e]
    simp only [pfs_cpu_usage, hread]
    have h0 := tok_last [] 0 ['c', 'p', 'u'] g (by simp) (by decide)
    simp only [String.toList, List.append_assoc, List.cons_append, List.nil_append,
      List.replicate, List.length_cons, List.length_nil, NUL] at h0 ⊢
    simp only [h0]
    simp [next_token, atol_at]

/-! ## Claim about `pfs_cpu_model` -/

/-- **C18 (the failing inputs).** When `cpuinfo` consists of lines that each,
newline included, fit the buffer, and none of them contains the label
`model name`, the scan loop of `pfs_cpu_model` is still running after any
number of iterations: at the end of the stream `one_lineread` returns 0, the
line buffer keeps its last line, and the loop tests it again. The call never
returns. -/
theorem pfs_cpu_model_never_returns (lines : List (List Char)) (junk : List Char)
    (buf_sz fuel : Nat) (hne : lines ≠ [])
    (h : ∀ x ∈ lines, line_fits buf_sz x ∧ ¬ "model name".toList <:+: x) :
    pfs_cpu_model fuel (some (text_of_lines lines)) junk buf_sz = outcome.running :=
  pfs_cpu_model_running lines junk buf_sz fuel hne h

/-- Evaluation for C18: a `cpuinfo` of four lines without the label, read with
a buffer of 128 bytes, after a million iterations. -/
theorem pfs_cpu_model_never_returns_witness :
    cpuinfo_without_model ≠ [] ∧
    (∀ x ∈ cpuinfo_without_model, line_fits 128 x ∧ ¬ "model name".toList <:+: x) ∧
    pfs_cpu_model 1000000 (some (text_of_lines cpuinfo_without_model)) [] 128 =
      outcome.running :=
  ⟨by decide, by decide,
    pfs_cpu_model_never_returns cpuinfo_without_model [] 128 1000000 (by decide) (by decide)⟩

/-! ## Claim about the range of `pfs_cpu_usage` -/

/-- Counterexample for C19: on a line of ten counters `100000000` the sum is
`1000000000` and the fourth counter `100000000`; against the snapshot
`idle = 0, total = 900000000` the idle delta equals the total delta, so that
`0 ≤ Δidle ≤ Δtotal`. The read stops after 100 bytes and the total taken is
`900010000`: the value returned is `-9999`, below 0. -/
theorem cpu_usage_long_line_negative :
    0 ≤ counter_at (long_stat_fields "100000000".toList) 3 - 0 ∧
    counter_at (long_stat_fields "100000000".toList) 3 - 0 ≤
      counters_sum (long_stat_fields "100000000".toList) - 900000000 ∧
    pfs_cpu_usage (some (stat_line (long_stat_fields "100000000".toList) ['\n'])) []
        ⟨0, 900000000⟩ ⟨0, 0⟩
      = some (CDouble.fin (-9999), ⟨0, 900000000⟩, ⟨100000000, 900010000⟩) ∧
    CDouble.le (CDouble.fin 0) (CDouble.fin (-9999)) = false := by
  decide!

/-- **C19 (amended).** Let the first line of `stat` be `cpu` followed by ten
space-separated decimal counters, the line with its newline being at most 100
bytes long and the counters adding up to at most `LONG_MAX`, and let
`prev.total` be a `long`. Then `pfs_cpu_usage` returns a value that is at most
1; and when `0 ≤ idle - prev.idle ≤ total - prev.total`, for `total` the sum
of the counters and `idle` the fourth one, the value is at least 0 as well. -/
theorem cpu_usage_unit_interval (fs : List (Nat × List Char)) (more junk : List Char)
    (prev curr : cpu_stats) (hlen : fs.length = 10) (hfs : ∀ f ∈ fs, is_counter f.2)
    (hfit : (stat_line fs []).length + 1 ≤ 100) (hsum : counters_sum fs ≤ LONG_MAX)
    (hprev : LONG_MIN ≤ prev.total) :
    ∃ r, pfs_cpu_usage (some (stat_line fs ('\n' :: more))) junk prev curr = some r ∧
      CDouble.le r.1 (CDouble.fin 1) = true ∧
      (0 ≤ counter_at fs 3 - prev.idle →
        counter_at fs 3 - prev.idle ≤ counters_sum fs - prev.total →
        CDouble.le (CDouble.fin 0) r.1 = true) :=
  ⟨_, pfs_cpu_usage_eval fs more junk prev curr hlen hfs hfit hsum,
    cpu_usage_value_le_one _ _ prev curr,
    fun h0 hle => cpu_usage_value_nonneg _ _ prev curr hsum hprev h0 hle⟩

/-- Witness for C19: the line `cpu  4 0 2 10 1 0 0 0 0 0` against the snapshot
`idle = 4, total = 9`, with deltas 6 and 8, gives a value between 0 and 1. -/
theorem cpu_usage_unit_interval_witness :
    LONG_MIN ≤ (9 : Int) ∧
    ∃ r, pfs_cpu_usage (some (stat_line sample_stat_fields ['\n'])) [] ⟨4, 9⟩ ⟨0, 0⟩
        = some r ∧
      CDouble.le r.1 (CDouble.fin 1) = true ∧
      (0 ≤ counter_at sample_stat_fields 3 - 4 →
        counter_at sample_stat_fields 3 - 4 ≤ counters_sum sample_stat_fields - 9 →
        CDouble.le (CDouble.fin 0) r.1 = true) :=
  ⟨by decide, cpu_usage_unit_interval sample_stat_fields [] [] ⟨4, 9⟩ ⟨0, 0⟩ (by decide)
    (by decide) (by decide) (by decide) (by decide)⟩

/-! ## Claim about `pfs_format_uptime` -/

/-- **C20.** For a whole number `t` of seconds below `2^31`,
`pfs_format_uptime` returns 0 and writes the text the rules give: with
`s = t mod 60`, `m = (t mod 3600) / 60`, `h = (t mod 86400) / 3600`,
`d = t / 86400` and `y = t / 31536000`, the seconds alone when `m = 0`,
otherwise minutes and seconds when `h = 0`, otherwise hours to seconds when
`d = 0`, otherwise days to seconds when `y = 0`, otherwise years to seconds
with `d` not reduced modulo 365. For `t = 3600` the text is `0 seconds`. -/
theorem pfs_format_uptime_text (t : Nat) (ht : t < 2147483648) :
    pfs_format_uptime (CDouble.fin (t : ℚ)) = some (0, some (uptime_text t)) ∧
    uptime_text 3600 = "0 seconds".toList :=
  ⟨pfs_format_uptime_eval t ht, by decide⟩

/-- Witness for C20: 90061 seconds are one day, one hour, one minute and one
second. -/
theorem pfs_format_uptime_text_witness :
    90061 < 2147483648 ∧
    pfs_format_uptime (CDouble.fin ((90061 : Nat) : ℚ)) =
      some (0, some "1 days, 1 hours, 1 minutes, 1 seconds".toList) ∧
    pfs_format_uptime (CDouble.fin ((3600 : Nat) : ℚ)) = some (0, some "0 seconds".toList) :=
  ⟨by decide, (pfs_format_uptime_text 90061 (by decide)).1,
    (pfs_format_uptime_text 3600 (by decide)).1⟩

end CustomTop
